import Mathlib

/-!
# Verification of the photesthesis generator and administration core

A shallow embedding, in Lean 4, of the core of the photesthesis library:
the `Value` algebra (value.h / the value implementation file), the grammar
machinery (`grammar.cpp`), plan/transcript/corpus serialization
(`corpus.cpp` and its map-based variant), and the test administration loop
(`test.cpp`).  Each definition is translated from the C++ source; theorems
below settle the specification claims against those definitions.

Conventions used throughout:
* C++ `std::set<T>` values are represented as Lean lists kept sorted and
  duplicate-free by an insertion function over the same comparison the C++
  container uses (`setInsert`); iteration order of a `std::set` is its
  sorted order, which the cyclical-zip code observes, so order is kept
  faithfully.  Sets that the source only ever queries for membership
  (`std::set<KPath>`, `std::set<RefPtr>`) are represented as plain lists
  with membership-based insertion, since no result depends on their order.
* Machine integers are `Nat`/`Int`; hashes are `Nat` reduced mod 2^64.
* Fallible C++ code (`throw`) is embedded in `Except GErr`.
* Functions whose C++ termination argument is not structural take an
  explicit `fuel : Nat`; exhausting fuel is a distinguished error, and all
  theorems about such functions are conditional on a successful (`.ok`)
  result.
-/

namespace Photesthesis

/-- The seven-variant `Value` sum type from `value.h`.  A C++ `PairValue`
holds `(head : Value, tail : shared_ptr<const PairValue>)` where a null
tail denotes the end of the chain; a chain is represented here as the head
value together with the list of the remaining elements, so `pr h t`
corresponds to the `PairValue` whose `mLength` is `1 + t.length`. -/
inductive Value : Type where
  | nil : Value
  | pr : Value → List Value → Value
  | sym : String → Value
  | bool : Bool → Value
  | int64 : Int → Value
  | blob : List Nat → Value
  | str : List Char → Value

namespace Value

/-- Numeric tag of the `Type` enum in `value.h` (`Nil = 0 … String = 6`). -/
def typeIdx : Value → Nat
  | .nil => 0
  | .pr _ _ => 1
  | .sym _ => 2
  | .bool _ => 3
  | .int64 _ => 4
  | .blob _ => 5
  | .str _ => 6

/-- The `Value(std::vector<Value> const&)` constructor: a right fold of
pair cells over the vector, the empty vector giving `Nil`. -/
def ofList : List Value → Value
  | [] => .nil
  | v :: vs => .pr v vs

end Value

/-- Lexicographic comparison of lists, as `std::lexicographical_compare`
(used by `operator<` on `std::vector` and `std::string`). -/
def listCmp (cmp : α → α → Ordering) : List α → List α → Ordering
  | [], [] => .eq
  | [], _ :: _ => .lt
  | _ :: _, [] => .gt
  | x :: xs, y :: ys =>
    match cmp x y with
    | .eq => listCmp cmp xs ys
    | o => o

/-- Comparison of `char`s by code point. -/
def charCmp (a b : Char) : Ordering := compare a.val.toNat b.val.toNat

/-- Comparison of `std::string`s (lexicographic over characters). -/
def strCmp (a b : String) : Ordering := listCmp charCmp a.data b.data

/-- Comparison of byte values. -/
def natCmp (a b : Nat) : Ordering := compare a b

/-- Comparison of `int64_t` values. -/
def intCmp (a b : Int) : Ordering := compare a b

/-- Comparison of `bool` (`false < true`, as in C++). -/
def boolCmp (a b : Bool) : Ordering := compare a.toNat b.toNat

mutual
/-- Payload comparison of two `Value`s of the same variant, the `switch`
body of `Value::operator<`: `Pair` chains compare by `mLength` first and
then element-wise (head then tail); the other variants compare by their
payload orders.  The catch-all `.eq` is never consulted: `vcmp` only calls
this function when the two type tags agree. -/
def vcmpSame : Value → Value → Ordering
  | .nil, .nil => .eq
  | .pr h t, .pr h' t' =>
    match compare t.length t'.length with
    | .eq =>
      match vcmp h h' with
      | .eq => vcmpList t t'
      | o => o
    | o => o
  | .sym a, .sym b => strCmp a b
  | .bool a, .bool b => boolCmp a b
  | .int64 a, .int64 b => intCmp a b
  | .blob a, .blob b => listCmp natCmp a b
  | .str a, .str b => listCmp charCmp a b
  | _, _ => .eq

/-- Three-way comparison realizing `Value::operator<` (and, through its
`.eq` answers, `Value::operator==`): distinct variants compare by the
`Type` tag; same variants compare payloads. -/
def vcmp (a b : Value) : Ordering :=
  match compare a.typeIdx b.typeIdx with
  | .eq => vcmpSame a b
  | o => o

/-- Element-wise comparison of equal-length pair chains. -/
def vcmpList : List Value → List Value → Ordering
  | [], [] => .eq
  | [], _ :: _ => .lt
  | _ :: _, [] => .gt
  | x :: xs, y :: ys =>
    match vcmp x y with
    | .eq => vcmpList xs ys
    | o => o
end

/-- `Value::operator<`. -/
def vlt (a b : Value) : Bool := vcmp a b = .lt

/-- Lawfulness of a three-way comparison: it reflects equality, is
antisymmetric under `Ordering.swap`, and `lt` is transitive. -/
structure IsCmp (cmp : α → α → Ordering) : Prop where
  eq_iff : ∀ a b, cmp a b = .eq ↔ a = b
  symm : ∀ a b, (cmp a b).swap = cmp b a
  lt_trans : ∀ a b c, cmp a b = .lt → cmp b c = .lt → cmp a c = .lt

namespace IsCmp

theorem refl {cmp : α → α → Ordering} (h : IsCmp cmp) (a : α) : cmp a a = .eq :=
  (h.eq_iff a a).mpr rfl

theorem lt_asymm {cmp : α → α → Ordering} (h : IsCmp cmp) {a b : α}
    (hab : cmp a b = .lt) : cmp b a = .gt := by
  have := h.symm a b
  rw [hab] at this
  exact this.symm

theorem lt_irrefl {cmp : α → α → Ordering} (h : IsCmp cmp) (a : α) :
    cmp a a ≠ .lt := by
  rw [h.refl a]; simp

theorem lt_ne {cmp : α → α → Ordering} (h : IsCmp cmp) {a b : α}
    (hab : cmp a b = .lt) : a ≠ b := by
  intro e; subst e; exact h.lt_irrefl a hab

theorem gt_iff {cmp : α → α → Ordering} (h : IsCmp cmp) (a b : α) :
    cmp a b = .gt ↔ cmp b a = .lt := by
  constructor
  · intro hab
    have := h.symm a b
    rw [hab] at this
    exact this.symm
  · intro hba; exact h.lt_asymm hba

theorem trichotomy {cmp : α → α → Ordering} (_ : IsCmp cmp) (a b : α) :
    cmp a b = .lt ∨ cmp a b = .eq ∨ cmp a b = .gt := by
  cases h : cmp a b <;> simp

end IsCmp

theorem compare_isCmp [LinearOrder α] : IsCmp (fun a b : α => compare a b) := by
  refine ⟨?_, ?_, ?_⟩
  · intro a b; exact compare_eq_iff_eq
  · intro a b
    rcases lt_trichotomy a b with h | h | h
    · rw [compare_lt_iff_lt.mpr h, compare_gt_iff_gt.mpr h]; rfl
    · subst h; rw [compare_eq_iff_eq.mpr rfl]; rfl
    · rw [compare_gt_iff_gt.mpr h, compare_lt_iff_lt.mpr h]; rfl
  · intro a b c hab hbc
    exact compare_lt_iff_lt.mpr
      (lt_trans (compare_lt_iff_lt.mp hab) (compare_lt_iff_lt.mp hbc))

theorem natCmp_isCmp : IsCmp natCmp := compare_isCmp

theorem intCmp_isCmp : IsCmp intCmp := compare_isCmp

theorem charCmp_isCmp : IsCmp charCmp := by
  refine ⟨?_, ?_, ?_⟩
  · intro a b
    rw [charCmp, Nat.compare_eq_eq]
    exact ⟨fun h => Char.ext (UInt32.ext h), fun h => by rw [h]⟩
  · intro a b; exact natCmp_isCmp.symm _ _
  · intro a b c; exact natCmp_isCmp.lt_trans _ _ _

theorem boolCmp_isCmp : IsCmp boolCmp := by
  refine ⟨?_, ?_, ?_⟩
  · intro a b
    rw [boolCmp, Nat.compare_eq_eq]
    cases a <;> cases b <;> simp [Bool.toNat]
  · intro a b; exact natCmp_isCmp.symm _ _
  · intro a b c; exact natCmp_isCmp.lt_trans _ _ _

theorem listCmp_cons_cons {cmp : α → α → Ordering} (x y : α) (xs ys : List α) :
    listCmp cmp (x :: xs) (y :: ys) =
      match cmp x y with
      | .eq => listCmp cmp xs ys
      | o => o := rfl

theorem listCmp_isCmp {cmp : α → α → Ordering} (h : IsCmp cmp) :
    IsCmp (listCmp cmp) := by
  refine ⟨?_, ?_, ?_⟩
  · intro a
    induction a with
    | nil => intro b; cases b <;> simp [listCmp]
    | cons x xs ih =>
      intro b
      cases b with
      | nil => simp [listCmp]
      | cons y ys =>
        cases hc : cmp x y <;>
          simp only [listCmp_cons_cons, hc, List.cons.injEq]
        · simp [h.lt_ne hc]
        · have hxy := (h.eq_iff x y).mp hc
          subst hxy
          simp [ih ys]
        · have : x ≠ y := fun e => by
            subst e; rw [h.refl x] at hc; cases hc
          simp [this]
  · intro a
    induction a with
    | nil => intro b; cases b <;> simp [listCmp, Ordering.swap]
    | cons x xs ih =>
      intro b
      cases b with
      | nil => simp [listCmp, Ordering.swap]
      | cons y ys =>
        have hs := h.symm x y
        cases hc : cmp x y <;> rw [hc] at hs <;>
          simp only [listCmp_cons_cons, hc, ← hs]
        · rfl
        · exact ih ys
        · rfl
  · intro a
    induction a with
    | nil =>
      intro b c hab hbc
      cases b with
      | nil => exact hbc
      | cons y ys =>
        cases c with
        | nil => simp [listCmp] at hbc
        | cons z zs => simp [listCmp]
    | cons x xs ih =>
      intro b c hab hbc
      cases b with
      | nil => simp [listCmp] at hab
      | cons y ys =>
        cases c with
        | nil => simp [listCmp] at hbc
        | cons z zs =>
          rw [listCmp_cons_cons] at hab hbc ⊢
          cases hxy : cmp x y <;> rw [hxy] at hab
          · cases hyz : cmp y z <;> rw [hyz] at hbc
            · rw [h.lt_trans _ _ _ hxy hyz]
            · have := (h.eq_iff y z).mp hyz
              subst this
              rw [hxy]
            · simp at hbc
          · have := (h.eq_iff x y).mp hxy
            subst this
            cases hyz : cmp x z with
            | lt => rfl
            | eq =>
              rw [hyz] at hbc
              have hbc' : listCmp cmp ys zs = Ordering.lt := hbc
              have hab' : listCmp cmp xs ys = Ordering.lt := hab
              exact ih ys zs hab' hbc'
            | gt =>
              rw [hyz] at hbc
              simp at hbc
          · simp at hab

/-! Pointwise versions of the `listCmp` laws: the comparison laws are only
required for members of the lists involved, which lets them be applied
inside the well-founded recursion over `Value`. -/

theorem listCmp_eq_iff_pw {cmp : α → α → Ordering} :
    ∀ {a b : List α}, (∀ x ∈ a, ∀ y, cmp x y = .eq ↔ x = y) →
      (listCmp cmp a b = .eq ↔ a = b) := by
  intro a
  induction a with
  | nil => intro b _; cases b <;> simp [listCmp]
  | cons x xs ih =>
    intro b h
    cases b with
    | nil => simp [listCmp]
    | cons y ys =>
      cases hc : cmp x y <;>
        simp only [listCmp_cons_cons, hc, List.cons.injEq]
      · constructor
        · intro e; cases e
        · intro e
          exact absurd ((h x (by simp) y).mpr e.1) (by rw [hc]; simp)
      · have := (h x (by simp) y).mp hc
        subst this
        rw [ih (fun z hz => h z (by simp [hz]))]
        simp
      · constructor
        · intro e; cases e
        · intro e
          exact absurd ((h x (by simp) y).mpr e.1) (by rw [hc]; simp)

theorem listCmp_symm_pw {cmp : α → α → Ordering} :
    ∀ {a b : List α}, (∀ x ∈ a, ∀ y, (cmp x y).swap = cmp y x) →
      (listCmp cmp a b).swap = listCmp cmp b a := by
  intro a
  induction a with
  | nil => intro b _; cases b <;> simp [listCmp, Ordering.swap]
  | cons x xs ih =>
    intro b h
    cases b with
    | nil => simp [listCmp, Ordering.swap]
    | cons y ys =>
      have hs := h x (by simp) y
      cases hc : cmp x y <;> rw [hc] at hs <;>
        simp only [listCmp_cons_cons, hc, ← hs]
      · rfl
      · exact ih (fun z hz => h z (by simp [hz]))
      · rfl

theorem listCmp_trans_pw {cmp : α → α → Ordering} :
    ∀ {a b c : List α},
      (∀ x ∈ a, ∀ y z, cmp x y = .lt → cmp y z = .lt → cmp x z = .lt) →
      (∀ y z, cmp y z = .eq ↔ y = z) →
      listCmp cmp a b = .lt → listCmp cmp b c = .lt → listCmp cmp a c = .lt := by
  intro a
  induction a with
  | nil =>
    intro b c _ _ hab hbc
    cases b with
    | nil => exact hbc
    | cons y ys =>
      cases c with
      | nil => simp [listCmp] at hbc
      | cons z zs => simp [listCmp]
  | cons x xs ih =>
    intro b c ht he hab hbc
    cases b with
    | nil => simp [listCmp] at hab
    | cons y ys =>
      cases c with
      | nil => simp [listCmp] at hbc
      | cons z zs =>
        rw [listCmp_cons_cons] at hab hbc ⊢
        cases hxy : cmp x y <;> rw [hxy] at hab
        · cases hyz : cmp y z <;> rw [hyz] at hbc
          · rw [ht x (by simp) y z hxy hyz]
          · have := (he y z).mp hyz
            subst this
            rw [hxy]
          · simp at hbc
        · have := (he x y).mp hxy
          subst this
          cases hyz : cmp x z with
          | lt => rfl
          | eq =>
            rw [hyz] at hbc
            have hbc' : listCmp cmp ys zs = Ordering.lt := hbc
            have hab' : listCmp cmp xs ys = Ordering.lt := hab
            exact ih (fun w hw => ht w (by simp [hw])) he hab' hbc'
          | gt =>
            rw [hyz] at hbc
            simp at hbc
        · simp at hab

theorem vcmp_unfold (a b : Value) :
    vcmp a b =
      match compare a.typeIdx b.typeIdx with
      | .eq => vcmpSame a b
      | o => o := by
  rw [vcmp]

theorem vcmpList_eq_listCmp : ∀ l m : List Value, vcmpList l m = listCmp vcmp l m
  | [], [] => by rw [vcmpList]; rfl
  | [], _ :: _ => by rw [vcmpList]; rfl
  | _ :: _, [] => by rw [vcmpList]; rfl
  | x :: xs, y :: ys => by
    rw [vcmpList, listCmp_cons_cons, vcmpList_eq_listCmp xs ys]

theorem vcmp_same_tag {a b : Value} (h : a.typeIdx = b.typeIdx) :
    vcmp a b = vcmpSame a b := by
  rw [vcmp_unfold, Nat.compare_eq_eq.mpr h]

theorem vcmp_eq_iff : ∀ a b : Value, vcmp a b = .eq ↔ a = b := by
  intro a b
  rw [vcmp_unfold]
  cases htag : compare a.typeIdx b.typeIdx with
  | lt =>
    have hne : a.typeIdx ≠ b.typeIdx := Nat.ne_of_lt (Nat.compare_eq_lt.mp htag)
    constructor
    · intro e; cases e
    · intro e; subst e; exact absurd rfl hne
  | gt =>
    have hne : a.typeIdx ≠ b.typeIdx :=
      (Nat.ne_of_lt (Nat.compare_eq_gt.mp htag)).symm
    constructor
    · intro e; cases e
    · intro e; subst e; exact absurd rfl hne
  | eq =>
    have htag' : a.typeIdx = b.typeIdx := Nat.compare_eq_eq.mp htag
    show vcmpSame a b = .eq ↔ a = b
    cases a <;> cases b <;> try (simp [Value.typeIdx] at htag')
    · simp [vcmpSame]
    case pr h t h' t' =>
      rw [vcmpSame]
      cases hlen : compare t.length t'.length with
      | lt =>
        have hne := Nat.ne_of_lt (Nat.compare_eq_lt.mp hlen)
        constructor
        · intro e; cases e
        · intro e
          cases e
          exact absurd rfl hne
      | gt =>
        have hne := (Nat.ne_of_lt (Nat.compare_eq_gt.mp hlen)).symm
        constructor
        · intro e; cases e
        · intro e
          cases e
          exact absurd rfl hne
      | eq =>
        cases hh : vcmp h h' with
        | lt =>
          constructor
          · intro e; cases e
          · intro e
            cases e
            rw [(vcmp_eq_iff h h).mpr rfl] at hh
            cases hh
        | gt =>
          constructor
          · intro e; cases e
          · intro e
            cases e
            rw [(vcmp_eq_iff h h).mpr rfl] at hh
            cases hh
        | eq =>
          have hh' : h = h' := (vcmp_eq_iff h h').mp hh
          subst hh'
          show vcmpList t t' = .eq ↔ _
          rw [vcmpList_eq_listCmp,
            listCmp_eq_iff_pw (fun x hx y => vcmp_eq_iff x y)]
          simp
    case sym s s' =>
      rw [vcmpSame]
      rw [show strCmp s s' = listCmp charCmp s.data s'.data from rfl,
        listCmp_eq_iff_pw (fun x _ y => charCmp_isCmp.eq_iff x y)]
      constructor
      · intro e
        have : s = s' := by
          cases s; cases s'; simp at e; rw [e]
        rw [this]
      · intro e
        cases e
        rfl
    case bool v v' =>
      rw [vcmpSame, boolCmp_isCmp.eq_iff]
      simp
    case int64 i i' =>
      rw [vcmpSame, intCmp_isCmp.eq_iff]
      simp
    case blob v v' =>
      rw [vcmpSame, (listCmp_isCmp natCmp_isCmp).eq_iff]
      simp
    case str v v' =>
      rw [vcmpSame, (listCmp_isCmp charCmp_isCmp).eq_iff]
      simp
termination_by a => sizeOf a
decreasing_by
  all_goals simp_wf
  all_goals try omega
  · have := List.sizeOf_lt_of_mem hx
    omega

theorem nat_compare_symm (a b : Nat) : (compare a b).swap = compare b a :=
  natCmp_isCmp.symm a b

theorem vcmp_symm : ∀ a b : Value, (vcmp a b).swap = vcmp b a := by
  intro a b
  rw [vcmp_unfold a b, vcmp_unfold b a, ← nat_compare_symm a.typeIdx b.typeIdx]
  cases htag : compare a.typeIdx b.typeIdx <;> simp only []
  · rfl
  · have htag' : a.typeIdx = b.typeIdx := Nat.compare_eq_eq.mp htag
    show (vcmpSame a b).swap = vcmpSame b a
    cases a <;> cases b <;> try (simp [Value.typeIdx] at htag')
    · simp [vcmpSame, Ordering.swap]
    case pr h t h' t' =>
      rw [vcmpSame, vcmpSame, ← nat_compare_symm t.length t'.length]
      cases hlen : compare t.length t'.length <;> simp only []
      · rfl
      · rw [← vcmp_symm h h']
        cases hh : vcmp h h' <;> simp only []
        · rfl
        · rw [vcmpList_eq_listCmp, vcmpList_eq_listCmp]
          exact listCmp_symm_pw (fun x hx y => vcmp_symm x y)
        · rfl
      · rfl
    case sym s s' =>
      rw [vcmpSame, vcmpSame]
      exact listCmp_symm_pw (fun x _ y => charCmp_isCmp.symm x y)
    case bool v v' =>
      rw [vcmpSame, vcmpSame]; exact boolCmp_isCmp.symm v v'
    case int64 i i' =>
      rw [vcmpSame, vcmpSame]; exact intCmp_isCmp.symm i i'
    case blob v v' =>
      rw [vcmpSame, vcmpSame]; exact (listCmp_isCmp natCmp_isCmp).symm v v'
    case str v v' =>
      rw [vcmpSame, vcmpSame]; exact (listCmp_isCmp charCmp_isCmp).symm v v'
  · rfl
termination_by a => sizeOf a
decreasing_by
  all_goals simp_wf
  all_goals try omega
  · have := List.sizeOf_lt_of_mem hx
    omega

theorem vcmp_lt_iff (a b : Value) :
    vcmp a b = .lt ↔
      a.typeIdx < b.typeIdx ∨ (a.typeIdx = b.typeIdx ∧ vcmpSame a b = .lt) := by
  rw [vcmp_unfold]
  cases htag : compare a.typeIdx b.typeIdx
  · simp [Nat.compare_eq_lt.mp htag]
  · simp [Nat.compare_eq_eq.mp htag]
  · have := Nat.compare_eq_gt.mp htag
    constructor
    · intro e; cases e
    · intro e
      rcases e with e | ⟨e, _⟩
      · omega
      · omega

theorem vcmp_trans : ∀ a b c : Value,
    vcmp a b = .lt → vcmp b c = .lt → vcmp a c = .lt := by
  intro a b c hab hbc
  rw [vcmp_lt_iff] at hab hbc ⊢
  rcases hab with h1 | ⟨e1, p1⟩
  · rcases hbc with h2 | ⟨e2, _⟩
    · exact Or.inl (lt_trans h1 h2)
    · exact Or.inl (e2 ▸ h1)
  · rcases hbc with h2 | ⟨e2, p2⟩
    · exact Or.inl (e1 ▸ h2)
    · refine Or.inr ⟨e1.trans e2, ?_⟩
      cases a <;> cases b <;> try (simp [Value.typeIdx] at e1)
      all_goals cases c <;> try (simp [Value.typeIdx] at e2)
      · rw [vcmpSame] at p1; simp at p1
      case pr h t h' t' h'' t'' =>
        rw [vcmpSame] at p1 p2 ⊢
        cases hl1 : compare t.length t'.length <;> rw [hl1] at p1
        · cases hl2 : compare t'.length t''.length <;> rw [hl2] at p2
          · rw [Nat.compare_eq_lt.mpr
              (lt_trans (Nat.compare_eq_lt.mp hl1) (Nat.compare_eq_lt.mp hl2))]
          · rw [← Nat.compare_eq_eq.mp hl2, hl1]
          · simp at p2
        · cases hl2 : compare t'.length t''.length <;> rw [hl2] at p2
          · rw [Nat.compare_eq_eq.mp hl1, hl2]
          · rw [show compare t.length t''.length = Ordering.eq from
              Nat.compare_eq_eq.mpr
                ((Nat.compare_eq_eq.mp hl1).trans (Nat.compare_eq_eq.mp hl2))]
            cases hh1 : vcmp h h' <;> rw [hh1] at p1
            · cases hh2 : vcmp h' h'' <;> rw [hh2] at p2
              · rw [vcmp_trans h h' h'' hh1 hh2]
              · have e := (vcmp_eq_iff h' h'').mp hh2
                subst e
                rw [hh1]
              · simp at p2
            · have e := (vcmp_eq_iff h h').mp hh1
              subst e
              cases hh2 : vcmp h h'' with
              | lt => rfl
              | eq =>
                rw [hh2] at p2
                have p1' : vcmpList t t' = .lt := p1
                have p2' : vcmpList t' t'' = .lt := p2
                have p3 : vcmpList t t'' = .lt := by
                  rw [vcmpList_eq_listCmp] at p1' p2' ⊢
                  exact listCmp_trans_pw (fun x hx y z => vcmp_trans x y z)
                    vcmp_eq_iff p1' p2'
                exact p3
              | gt =>
                rw [hh2] at p2
                simp at p2
            · simp at p1
          · simp at p2
        · simp at p1
      case sym s s' s'' =>
        rw [vcmpSame] at p1 p2 ⊢
        exact listCmp_trans_pw (fun x _ y z => charCmp_isCmp.lt_trans x y z)
          charCmp_isCmp.eq_iff p1 p2
      case bool v v' v'' =>
        rw [vcmpSame] at p1 p2 ⊢
        exact boolCmp_isCmp.lt_trans _ _ _ p1 p2
      case int64 i i' i'' =>
        rw [vcmpSame] at p1 p2 ⊢
        exact intCmp_isCmp.lt_trans _ _ _ p1 p2
      case blob v v' v'' =>
        rw [vcmpSame] at p1 p2 ⊢
        exact (listCmp_isCmp natCmp_isCmp).lt_trans _ _ _ p1 p2
      case str v v' v'' =>
        rw [vcmpSame] at p1 p2 ⊢
        exact (listCmp_isCmp charCmp_isCmp).lt_trans _ _ _ p1 p2
termination_by a => sizeOf a
decreasing_by
  all_goals simp_wf
  all_goals subst_vars
  all_goals try simp
  all_goals try omega
  all_goals
    have := List.sizeOf_lt_of_mem hx
    omega

/-- `Value::operator<` together with `operator==` forms a strict total
order: `vcmp` is a lawful three-way comparison. -/
theorem vcmp_isCmp : IsCmp vcmp :=
  ⟨vcmp_eq_iff, vcmp_symm, vcmp_trans⟩

instance : DecidableEq Value := fun a b =>
  decidable_of_iff _ (vcmp_eq_iff a b)

/-! ## Ordered sets

`std::set<T>` is modelled as a list kept sorted and duplicate-free under
the container's strict comparison; iteration order of the C++ container is
exactly the order of the list. -/

/-- `std::set::insert` into a sorted duplicate-free list: find the first
position whose element is not smaller, and insert unless an equivalent
element is already there. -/
def setInsert (cmp : α → α → Ordering) (x : α) : List α → List α
  | [] => [x]
  | y :: ys =>
    match cmp x y with
    | .lt => x :: y :: ys
    | .eq => y :: ys
    | .gt => y :: setInsert cmp x ys

/-- Insert every element of `xs` into the set `s` (the two-iterator
`insert(first, last)` overload). -/
def setInsertAll (cmp : α → α → Ordering) (s xs : List α) : List α :=
  xs.foldl (fun s x => setInsert cmp x s) s

/-- Sortedness under a comparison: all earlier elements compare `.lt` to
all later ones. -/
def CmpSorted (cmp : α → α → Ordering) (l : List α) : Prop :=
  l.Pairwise (fun a b => cmp a b = .lt)

theorem mem_setInsert {cmp : α → α → Ordering} (hc : IsCmp cmp) (x a : α) :
    ∀ l : List α, (a ∈ setInsert cmp x l ↔ a = x ∨ a ∈ l)
  | [] => by simp [setInsert]
  | y :: ys => by
    rw [setInsert]
    cases h : cmp x y
    · simp only [List.mem_cons]
      try tauto
    · have := (hc.eq_iff x y).mp h
      subst this
      simp only [List.mem_cons]
      try tauto
    · simp only [List.mem_cons, mem_setInsert hc x a ys]
      try tauto

theorem setInsert_ne_nil {cmp : α → α → Ordering} (x : α) (l : List α) :
    setInsert cmp x l ≠ [] := by
  cases l with
  | nil => simp [setInsert]
  | cons y ys =>
    rw [setInsert]
    cases cmp x y <;> simp

theorem sorted_setInsert {cmp : α → α → Ordering} (hc : IsCmp cmp) (x : α) :
    ∀ l : List α, CmpSorted cmp l → CmpSorted cmp (setInsert cmp x l)
  | [] => by simp [setInsert, CmpSorted]
  | y :: ys => by
    intro hs
    rw [CmpSorted, List.pairwise_cons] at hs
    rw [setInsert]
    cases h : cmp x y
    · rw [CmpSorted, List.pairwise_cons]
      constructor
      · intro b hb
        rcases List.mem_cons.mp hb with rfl | hb
        · exact h
        · exact hc.lt_trans _ _ _ h (hs.1 b hb)
      · rw [List.pairwise_cons]
        exact hs
    · rw [CmpSorted, List.pairwise_cons]
      exact hs
    · rw [CmpSorted, List.pairwise_cons]
      constructor
      · intro b hb
        rcases (mem_setInsert hc x b ys).mp hb with hbx | hb
        · rw [hbx]; exact (hc.gt_iff x y).mp h
        · exact hs.1 b hb
      · exact sorted_setInsert hc x ys hs.2

theorem length_setInsert_mem {cmp : α → α → Ordering} (hc : IsCmp cmp)
    (x : α) : ∀ l : List α, CmpSorted cmp l → x ∈ l →
      (setInsert cmp x l).length = l.length
  | [] => by intro _ h; simp at h
  | y :: ys => by
    intro hs hm
    rw [setInsert]
    rcases List.mem_cons.mp hm with rfl | hm
    · rw [hc.refl x]
    · rw [CmpSorted, List.pairwise_cons] at hs
      have hlt := hs.1 x hm
      cases h : cmp x y
      · exact absurd ((hc.gt_iff y x).mpr h) (by rw [hlt]; simp)
      · rfl
      · simp [length_setInsert_mem hc x ys hs.2 hm]

theorem length_setInsert_not_mem {cmp : α → α → Ordering} (hc : IsCmp cmp)
    (x : α) : ∀ l : List α, x ∉ l →
      (setInsert cmp x l).length = l.length + 1
  | [] => by simp [setInsert]
  | y :: ys => by
    intro hm
    rw [setInsert]
    cases h : cmp x y
    · simp
    · exact absurd ((hc.eq_iff x y).mp h) (fun e => hm (by simp [e]))
    · have : x ∉ ys := fun hx => hm (by simp [hx])
      simp [length_setInsert_not_mem hc x ys this]

/-- The head of a sorted set is its minimum. -/
theorem sorted_head_min {cmp : α → α → Ordering} {h : α} {t : List α}
    (hs : CmpSorted cmp (h :: t)) :
    ∀ a ∈ h :: t, a = h ∨ cmp h a = .lt := by
  intro a ha
  rcases List.mem_cons.mp ha with rfl | ha
  · exact Or.inl rfl
  · rw [CmpSorted, List.pairwise_cons] at hs
    exact Or.inr (hs.1 a ha)

theorem mem_setInsertAll {cmp : α → α → Ordering} (hc : IsCmp cmp) (a : α) :
    ∀ xs s : List α, (a ∈ setInsertAll cmp s xs ↔ a ∈ s ∨ a ∈ xs)
  | [] => by simp [setInsertAll]
  | x :: xs => by
    intro s
    rw [setInsertAll, List.foldl_cons]
    rw [show (List.foldl (fun s x => setInsert cmp x s) (setInsert cmp x s) xs)
          = setInsertAll cmp (setInsert cmp x s) xs from rfl]
    rw [mem_setInsertAll hc a xs (setInsert cmp x s), mem_setInsert hc x a s]
    simp only [List.mem_cons]
    tauto

theorem sorted_setInsertAll {cmp : α → α → Ordering} (hc : IsCmp cmp) :
    ∀ xs s : List α, CmpSorted cmp s → CmpSorted cmp (setInsertAll cmp s xs)
  | [] => fun s hs => hs
  | x :: xs => by
    intro s hs
    rw [setInsertAll, List.foldl_cons]
    exact sorted_setInsertAll hc xs (setInsert cmp x s)
      (sorted_setInsert hc x s hs)

/-! ## Textual serialization of values

`operator<<(std::ostream&, const Value&)` and
`operator>>(std::istream&, Value&)` from the value implementation file.
One stream subtlety is modelled explicitly: the blob cases apply the
`std::hex` manipulator to the shared stream and never restore `std::dec`,
so the basefield state ("`hex`") is threaded through both formatting and
parsing. -/

/-- `isspace` in the C locale. -/
def isSpaceC (c : Char) : Bool :=
  c = ' ' || c = '\t' || c = '\n' || c = '\x0b' || c = '\x0c' || c = '\r'

/-- `isdigit` in the C locale. -/
def isDigitC (c : Char) : Bool := '0' ≤ c && c ≤ '9'

/-- `isalnum` in the C locale. -/
def isAlnumC (c : Char) : Bool :=
  ('0' ≤ c && c ≤ '9') || ('a' ≤ c && c ≤ 'z') || ('A' ≤ c && c ≤ 'Z')

/-- Characters a symbol may contain (`isalnum(c) || c == '_'`). -/
def isSymChar (c : Char) : Bool := isAlnumC c || c = '_'

/-- String escaping in the `String` case of `operator<<`: `"` and `\` are
preceded by a backslash, all other characters pass through. -/
def escapeChars : List Char → List Char
  | [] => []
  | c :: cs =>
    if c = '"' || c = '\\' then '\\' :: c :: escapeChars cs
    else c :: escapeChars cs

/-- Decimal digit characters of a natural number, most significant digit
first; zero prints as `0`. -/
def natDecChars (n : Nat) : List Char :=
  if n = 0 then ['0'] else ((Nat.digits 10 n).map Nat.digitChar).reverse

/-- Lowercase hexadecimal digit characters of a natural number (the form
`std::ostream` produces in `std::hex` without `showbase`). -/
def natHexChars (n : Nat) : List Char :=
  if n = 0 then ['0'] else ((Nat.digits 16 n).map Nat.digitChar).reverse

/-- `os << i` for an `int64_t` under the given basefield: decimal with a
leading `-` for negatives, or (in `std::hex`) the number's two's-complement
bit pattern printed as unsigned hexadecimal. -/
def int64Chars (hex : Bool) (i : Int) : List Char :=
  if hex then natHexChars (i % (2 ^ 64)).toNat
  else if i < 0 then '-' :: natDecChars i.natAbs
  else natDecChars i.toNat

/-- The byte-wise body of the `Blob` case of `operator<<`: each byte is
rendered as the two characters `0x` followed by the byte streamed as an
`unsigned char`, i.e. as a single raw character (streaming an
`unsigned char` ignores `std::hex`), with single spaces between entries. -/
def blobChars (first : Bool) : List Nat → List Char
  | [] => []
  | b :: bs =>
    (if first then [] else [' ']) ++ '0' :: 'x' :: Char.ofNat (b % 256) ::
      blobChars false bs

mutual
/-- `operator<<(std::ostream&, const Value&)`; returns the formatted
characters and the stream's basefield after printing (`true` = `std::hex`,
set by any non-empty blob and never reset). -/
def fmtVal (hex : Bool) : Value → List Char × Bool
  | .str s => ('"' :: escapeChars s ++ ['"'], hex)
  | .blob bs =>
    ('[' :: blobChars true bs ++ [']'], if bs.isEmpty then hex else true)
  | .bool b => ((if b then "#t" else "#f").data, hex)
  | .int64 i => (int64Chars hex i, hex)
  | .sym s => (s.data, hex)
  | .pr h t =>
    let (cs, hex') := fmtVal hex h
    let (cs', hex'') := fmtValList hex' t
    ('(' :: cs ++ cs' ++ [')'], hex'')
  | .nil => ("#nil".data, hex)

/-- The tail of the `Pair` case: `" " << element` for each further chain
element. -/
def fmtValList (hex : Bool) : List Value → List Char × Bool
  | [] => ([], hex)
  | v :: vs =>
    let (cs, hex') := fmtVal hex v
    let (cs', hex'') := fmtValList hex' vs
    (' ' :: cs ++ cs', hex'')
end

/-- Format a value on a fresh stream (default basefield `std::dec`),
keeping only the characters. -/
def format (v : Value) : List Char := (fmtVal false v).1

/-- Parser / stream errors. -/
inductive PErr where
  | thrown (msg : String)              -- `throw std::runtime_error(msg)`, no offset
  | offsetErr (off : Nat) (msg : String) -- errors that report `is.tellg()`
  | failbit                            -- stream extraction failure
  | fuel                               -- out of fuel (cannot happen for terminating runs)
deriving DecidableEq, Repr

/-- Parser state: remaining input, byte offset consumed so far (the value
`is.tellg()` reports), and the stream's basefield flag (set to `hex` by a
blob read, never reset). -/
structure PState where
  input : List Char
  pos : Nat
  hexIn : Bool
deriving DecidableEq, Repr

theorem length_takeWhile_le' (p : α → Bool) (l : List α) :
    (l.takeWhile p).length ≤ l.length := by
  induction l with
  | nil => simp
  | cons x xs ih =>
    rw [List.takeWhile]
    cases p x <;> simp
    omega

namespace PState

/-- Consume `n` characters. -/
def adv (st : PState) (n : Nat) : PState :=
  { st with input := st.input.drop n, pos := st.pos + n }

/-- `scanWhitespace`: consume leading whitespace while the stream is good. -/
def scanWS (st : PState) : PState :=
  st.adv (st.input.takeWhile isSpaceC).length

end PState

/-- The body of the `String` case of `operator>>`: consume characters up
to the closing quote, resolving backslash escapes; a missing closing quote
or a trailing lone backslash is a thrown `runtime_error`. -/
def strBody : List Char → Except PErr (List Char × List Char × Nat)
  | [] => .error (.thrown "incomplete string")
  | '"' :: rest => .ok ([], rest, 1)
  | '\\' :: rest =>
    match rest with
    | [] => .error (.thrown "incomplete string escape")
    | c :: rest' => do
      let (cs, rest'', n) ← strBody rest'
      .ok (c :: cs, rest'', n + 2)
  | c :: rest => do
    let (cs, rest', n) ← strBody rest
    .ok (c :: cs, rest', n + 1)

/-- The body of the `Blob` case of `operator>>`: while the next character
is not `]`, perform `is >> std::hex >> byte` — which skips whitespace and
reads a single raw character into the byte (reading an `unsigned char`
ignores the basefield) — and finally consume the `]`.  Returns the bytes,
the rest, the number of characters consumed, and whether the `std::hex`
flag was applied (it is applied once per byte read). -/
def blobBody (input : List Char) : Except PErr (List Nat × List Char × Nat × Bool) :=
  match hin : input with
  | [] => .error (.thrown "incomplete blob")
  | c₀ :: rest₀ =>
    if c₀ = ']' then .ok ([], rest₀, 1, false)
    else
      let ws := (input.takeWhile isSpaceC).length
      match hrem : input.drop ws with
      | [] => .error .failbit
      | c :: rest => do
        let (bs, rest', n, _) ← blobBody rest
        .ok (c.toNat :: bs, rest', ws + 1 + n, true)
termination_by input.length
decreasing_by
  have h1 : (input.drop ws).length = input.length - ws := by
    simp
  have h2 : rest.length < (input.drop ws).length := by
    rw [hrem]; simp
  have h3 : (input.takeWhile isSpaceC).length ≤ input.length :=
    length_takeWhile_le' _ _
  subst_vars
  simp at h1 h2 ⊢
  omega

/-- `tmp += c while (is.good() && pred(is.peek()))` token accumulation:
take the maximal run of characters satisfying `pred`. -/
def takeRun (pred : Char → Bool) (input : List Char) : List Char × List Char :=
  (input.takeWhile pred, input.dropWhile pred)

/-- Digits valid under a basefield. -/
def isBaseDigit (hex : Bool) (c : Char) : Bool :=
  if hex then
    isDigitC c || ('a' ≤ c && c ≤ 'f') || ('A' ≤ c && c ≤ 'F')
  else isDigitC c

/-- Numeric value of one digit character. -/
def digitVal (c : Char) : Nat :=
  if isDigitC c then c.toNat - '0'.toNat
  else if 'a' ≤ c && c ≤ 'f' then c.toNat - 'a'.toNat + 10
  else if 'A' ≤ c && c ≤ 'F' then c.toNat - 'A'.toNat + 10
  else 0

/-- Accumulate a digit run into a natural number. -/
def digitsToNat (hex : Bool) (ds : List Char) : Nat :=
  ds.foldl (fun n c => n * (if hex then 16 else 10) + digitVal c) 0

/-- `is >> tmp` for `int64_t` under the current basefield: an optional
sign, (in hex) an optional `0x`/`0X` prefix, then a non-empty digit run;
no digits or an out-of-range value is an extraction failure (`failbit`,
which the corpus-reading context turns into an exception).  Returns the
value and the number of characters consumed. -/
def extractInt64 (hex : Bool) (input : List Char) : Except PErr (Int × Nat) :=
  let (sgn, afterSign, nSign) :=
    match input with
    | c :: rest =>
      if c = '-' then (true, rest, 1)
      else if c = '+' then (false, rest, 1)
      else (false, c :: rest, 0)
    | [] => (false, input, 0)
  let (afterPre, nPre) :=
    if hex then
      match afterSign with
      | c1 :: c2 :: rest =>
        if c1 = '0' && (c2 = 'x' || c2 = 'X') then (rest, 2)
        else (c1 :: c2 :: rest, 0)
      | l => (l, 0)
    else (afterSign, 0)
  let (ds, _) := takeRun (isBaseDigit hex) afterPre
  if ds.isEmpty then .error .failbit
  else
    let n := digitsToNat hex ds
    let v : Int := if sgn then -(n : Int) else (n : Int)
    if v < -(2 ^ 63) || (2 ^ 63) ≤ v then .error .failbit
    else .ok (v, nSign + nPre + ds.length)

/-- The `default:` block of the `switch` in `operator>>(istream&, Value&)`:
a leading `-` or digit extracts an `int64_t` in the stream's basefield; a
leading `_` or alphanumeric accumulates a symbol token; anything else
leaves `val` unchanged and consumes nothing.  The `case '#'` above it has
no `break`, so control also reaches this block right after a special token
has been parsed. -/
def parseDefault (val : Value) (st : PState) : Except PErr (Value × PState) :=
  match st.input with
  | [] => .ok (val, st)
  | c :: _ =>
    if c = '-' || isDigitC c then
      match extractInt64 st.hexIn st.input with
      | .error e => .error e
      | .ok (v, n) => .ok (Value.int64 v, st.adv n)
    else if c = '_' || isAlnumC c then
      let (run, _) := takeRun isSymChar st.input
      .ok (Value.sym (String.mk run), st.adv run.length)
    else .ok (val, st)

mutual
/-- `operator>>(std::istream&, Value&)`: single-pass recursive-descent
parse of one value.  `val` is the current content of the output variable
(assigned only on a successful decode, and returned unchanged when the
stream is exhausted or the next character starts no token).  `fuel` bounds
the recursion; real runs are given enough fuel to finish. -/
def parseVal : Nat → Value → PState → Except PErr (Value × PState)
  | 0, _, _ => .error .fuel
  | fuel + 1, val, st₀ =>
    let st := st₀.scanWS
    match st.input with
    | [] => .ok (val, st)
    | c :: rest =>
      if c = '(' then
        match parsePairList fuel [] (st.adv 1) with
        | .error e => .error e
        | .ok (vals, st') => .ok (Value.ofList vals, st')
      else if c = '[' then
        match blobBody rest with
        | .error e => .error e
        | .ok (bs, rest', n, hexSet) =>
          .ok (Value.blob bs,
            ⟨rest', st.pos + 1 + n, st.hexIn || hexSet⟩)
      else if c = '"' then
        match strBody rest with
        | .error e => .error e
        | .ok (cs, rest', n) =>
          .ok (Value.str cs, ⟨rest', st.pos + 1 + n, st.hexIn⟩)
      else if c = '#' then
        let (run, restR) := takeRun isAlnumC rest
        let tmp := c :: run
        let st' : PState := ⟨restR, st.pos + 1 + run.length, st.hexIn⟩
        if tmp = ['#', 't'] then parseDefault (Value.bool true) st'
        else if tmp = ['#', 'f'] then parseDefault (Value.bool false) st'
        else if tmp = ['#', 'n', 'i', 'l'] then parseDefault Value.nil st'
        else .error (.thrown ("unknown special symbol: " ++ String.mk tmp))
      else parseDefault val st

/-- The element loop of the `'('` case: `while (is.good() && is.peek() !=
')') { Value tmp; is >> tmp; vals.emplace_back(tmp); }`, then the closing
parenthesis (missing it is the thrown "incomplete pair-list"). -/
def parsePairList : Nat → List Value → PState → Except PErr (List Value × PState)
  | 0, _, _ => .error .fuel
  | fuel + 1, vals, st =>
    match st.input with
    | [] => .error (.thrown "incomplete pair-list")
    | c :: _ =>
      if c = ')' then .ok (vals, st.adv 1)
      else
        match parseVal fuel Value.nil st with
        | .error e => .error e
        | .ok (v, st') => parsePairList fuel (vals ++ [v]) st'
end

/-- Parse one value from a string on a fresh stream, with ample fuel. -/
def parse (cs : List Char) : Except PErr (Value × PState) :=
  parseVal (cs.length + 2) Value.nil ⟨cs, 0, false⟩

/-! ### Character-class arithmetic -/

theorem char_eq_iff_toNat {c d : Char} : c = d ↔ c.toNat = d.toNat :=
  ⟨fun h => by rw [h], fun h => Char.ext (UInt32.ext h)⟩

theorem char_le_iff_toNat {c d : Char} : c ≤ d ↔ c.toNat ≤ d.toNat :=
  Char.le_def

theorem isSpaceC_iff {c : Char} :
    isSpaceC c = true ↔
      (c.toNat = 32 ∨ c.toNat = 9 ∨ c.toNat = 10 ∨ c.toNat = 11 ∨
        c.toNat = 12 ∨ c.toNat = 13) := by
  simp only [isSpaceC, Bool.or_eq_true, decide_eq_true_eq,
    char_eq_iff_toNat (d := ' '), char_eq_iff_toNat (d := '\t'),
    char_eq_iff_toNat (d := '\n'), char_eq_iff_toNat (d := '\x0b'),
    char_eq_iff_toNat (d := '\x0c'), char_eq_iff_toNat (d := '\r'),
    show (' ' : Char).toNat = 32 from rfl, show ('\t' : Char).toNat = 9 from rfl,
    show ('\n' : Char).toNat = 10 from rfl,
    show ('\x0b' : Char).toNat = 11 from rfl,
    show ('\x0c' : Char).toNat = 12 from rfl,
    show ('\r' : Char).toNat = 13 from rfl]
  tauto

theorem isDigitC_iff {c : Char} :
    isDigitC c = true ↔ 48 ≤ c.toNat ∧ c.toNat ≤ 57 := by
  simp only [isDigitC, Bool.and_eq_true, decide_eq_true_eq,
    char_le_iff_toNat (c := '0'), char_le_iff_toNat (c := c),
    show ('0' : Char).toNat = 48 from rfl,
    show ('9' : Char).toNat = 57 from rfl]

theorem isAlnumC_iff {c : Char} :
    isAlnumC c = true ↔
      ((48 ≤ c.toNat ∧ c.toNat ≤ 57) ∨ (97 ≤ c.toNat ∧ c.toNat ≤ 122) ∨
        (65 ≤ c.toNat ∧ c.toNat ≤ 90)) := by
  simp only [isAlnumC, Bool.or_eq_true, Bool.and_eq_true, decide_eq_true_eq,
    char_le_iff_toNat (c := '0'), char_le_iff_toNat (c := 'a'),
    char_le_iff_toNat (c := 'A'), char_le_iff_toNat (c := c),
    show ('0' : Char).toNat = 48 from rfl,
    show ('9' : Char).toNat = 57 from rfl,
    show ('a' : Char).toNat = 97 from rfl,
    show ('z' : Char).toNat = 122 from rfl,
    show ('A' : Char).toNat = 65 from rfl,
    show ('Z' : Char).toNat = 90 from rfl]
  tauto

theorem isSymChar_iff {c : Char} :
    isSymChar c = true ↔
      ((48 ≤ c.toNat ∧ c.toNat ≤ 57) ∨ (97 ≤ c.toNat ∧ c.toNat ≤ 122) ∨
        (65 ≤ c.toNat ∧ c.toNat ≤ 90) ∨ c.toNat = 95) := by
  simp only [isSymChar, Bool.or_eq_true, decide_eq_true_eq, isAlnumC_iff,
    char_eq_iff_toNat (d := '_'), show ('_' : Char).toNat = 95 from rfl]
  tauto

/-- `isalpha` in the C locale, or an underscore: the characters a
round-trippable symbol may start with. -/
def isSymStart (c : Char) : Bool :=
  ('a' ≤ c && c ≤ 'z') || ('A' ≤ c && c ≤ 'Z') || c = '_'

theorem isSymStart_iff {c : Char} :
    isSymStart c = true ↔
      ((97 ≤ c.toNat ∧ c.toNat ≤ 122) ∨ (65 ≤ c.toNat ∧ c.toNat ≤ 90) ∨
        c.toNat = 95) := by
  simp only [isSymStart, Bool.or_eq_true, Bool.and_eq_true, decide_eq_true_eq,
    char_le_iff_toNat (c := 'a'), char_le_iff_toNat (c := 'A'),
    char_le_iff_toNat (c := c), char_eq_iff_toNat (d := '_'),
    show ('a' : Char).toNat = 97 from rfl,
    show ('z' : Char).toNat = 122 from rfl,
    show ('A' : Char).toNat = 65 from rfl,
    show ('Z' : Char).toNat = 90 from rfl,
    show ('_' : Char).toNat = 95 from rfl]
  tauto

/-- A character that can begin a formatted token is recognized by exactly
one branch of the parser's `switch`; these disequalities drive the branch
selection in the round-trip proof. -/
theorem digit_branches {c : Char} (h : isDigitC c = true) :
    isSpaceC c = false ∧ c ≠ '(' ∧ c ≠ '[' ∧ c ≠ '"' ∧ c ≠ '#' ∧ c ≠ ')' ∧
      c ≠ '-' ∧ c ≠ '+' := by
  have hb := isDigitC_iff.mp h
  refine ⟨?_, ?_, ?_, ?_, ?_, ?_, ?_, ?_⟩
  · cases hs : isSpaceC c
    · rfl
    · exact absurd (isSpaceC_iff.mp hs) (by omega)
  · intro e
    rw [char_eq_iff_toNat, show ('(' : Char).toNat = 40 from rfl] at e
    omega
  · intro e
    rw [char_eq_iff_toNat, show ('[' : Char).toNat = 91 from rfl] at e
    omega
  · intro e
    rw [char_eq_iff_toNat, show ('"' : Char).toNat = 34 from rfl] at e
    omega
  · intro e
    rw [char_eq_iff_toNat, show ('#' : Char).toNat = 35 from rfl] at e
    omega
  · intro e
    rw [char_eq_iff_toNat, show (')' : Char).toNat = 41 from rfl] at e
    omega
  · intro e
    rw [char_eq_iff_toNat, show ('-' : Char).toNat = 45 from rfl] at e
    omega
  · intro e
    rw [char_eq_iff_toNat, show ('+' : Char).toNat = 43 from rfl] at e
    omega

theorem symStart_branches {c : Char} (h : isSymStart c = true) :
    isSpaceC c = false ∧ c ≠ '(' ∧ c ≠ '[' ∧ c ≠ '"' ∧ c ≠ '#' ∧ c ≠ ')' ∧
      c ≠ '-' ∧ isDigitC c = false ∧ isSymChar c = true := by
  have hb := isSymStart_iff.mp h
  refine ⟨?_, ?_, ?_, ?_, ?_, ?_, ?_, ?_, ?_⟩
  · cases hs : isSpaceC c
    · rfl
    · exact absurd (isSpaceC_iff.mp hs) (by omega)
  · intro e
    rw [char_eq_iff_toNat, show ('(' : Char).toNat = 40 from rfl] at e
    omega
  · intro e
    rw [char_eq_iff_toNat, show ('[' : Char).toNat = 91 from rfl] at e
    omega
  · intro e
    rw [char_eq_iff_toNat, show ('"' : Char).toNat = 34 from rfl] at e
    omega
  · intro e
    rw [char_eq_iff_toNat, show ('#' : Char).toNat = 35 from rfl] at e
    omega
  · intro e
    rw [char_eq_iff_toNat, show (')' : Char).toNat = 41 from rfl] at e
    omega
  · intro e
    rw [char_eq_iff_toNat, show ('-' : Char).toNat = 45 from rfl] at e
    omega
  · cases hs : isDigitC c
    · rfl
    · exact absurd (isDigitC_iff.mp hs) (by omega)
  · rw [isSymChar_iff]; omega

/-! ### The round-trippable fragment -/

/-- A symbol string that survives the round trip: non-empty, made of
symbol characters, and not starting with a digit (a digit start would be
re-parsed as an `Int64`). -/
def goodSymStr (s : String) : Bool :=
  match s.data with
  | [] => false
  | c :: cs => isSymStart c && cs.all isSymChar

mutual
/-- The fragment of constructible values on which the textual
serialization is invertible: symbols are non-empty and do not begin with a
digit, `Int64` payloads are in range, and blobs are empty (a non-empty
blob is streamed byte-as-character on output but parsed
character-by-character on input, and poisons the stream's basefield). -/
def Good : Value → Bool
  | .nil => true
  | .pr h t => Good h && GoodList t
  | .sym s => goodSymStr s
  | .bool _ => true
  | .int64 i => decide (-(2 ^ 63) ≤ i) && decide (i < 2 ^ 63)
  | .blob bs => bs.isEmpty
  | .str _ => true

def GoodList : List Value → Bool
  | [] => true
  | v :: vs => Good v && GoodList vs
end

mutual
/-- Fuel the recursive-descent parser needs on a value: one unit per
value node and per element step of a pair chain, independent of payload
sizes. -/
def pfuel : Value → Nat
  | .nil => 1
  | .pr h t => 1 + pfuel h + pfuelList t
  | .sym _ => 1
  | .bool _ => 1
  | .int64 _ => 1
  | .blob _ => 1
  | .str _ => 1

def pfuelList : List Value → Nat
  | [] => 1
  | v :: vs => 1 + pfuel v + pfuelList vs
end

theorem pfuel_pos (v : Value) : 0 < pfuel v := by
  cases v <;> simp_arith [pfuel]

theorem pfuelList_pos (l : List Value) : 0 < pfuelList l := by
  cases l <;> simp_arith [pfuelList]

/-! ### Token helpers for the round-trip proof -/

theorem takeWhile_append_of_all {p : Char → Bool} :
    ∀ {xs rest : List Char}, (∀ c ∈ xs, p c = true) →
      (∀ c, rest.head? = some c → p c = false) →
      (xs ++ rest).takeWhile p = xs ∧ (xs ++ rest).dropWhile p = rest := by
  intro xs
  induction xs with
  | nil =>
    intro rest _ hb
    cases rest with
    | nil => simp
    | cons r rs =>
      have := hb r rfl
      simp [List.takeWhile, List.dropWhile, this]
  | cons x xs ih =>
    intro rest hxs hb
    have hx := hxs x (by simp)
    have ⟨h1, h2⟩ := ih (fun c hc => hxs c (by simp [hc])) hb
    simp [List.takeWhile, List.dropWhile, hx, h1, h2]

theorem adv_zero (st : PState) : st.adv 0 = st := by
  cases st; simp [PState.adv]

theorem scanWS_not_space {c : Char} {l pos hx} (h : isSpaceC c = false) :
    PState.scanWS ⟨c :: l, pos, hx⟩ = ⟨c :: l, pos, hx⟩ := by
  rw [PState.scanWS]
  have : List.takeWhile isSpaceC (c :: l) = [] := by
    simp [List.takeWhile, h]
  rw [this]
  exact adv_zero _

theorem scanWS_one_space {c : Char} {l pos hx} (h : isSpaceC c = false) :
    PState.scanWS ⟨' ' :: c :: l, pos, hx⟩ = ⟨c :: l, pos + 1, hx⟩ := by
  rw [PState.scanWS]
  have : List.takeWhile isSpaceC (' ' :: c :: l) = [' '] := by
    simp [List.takeWhile, h]
    rfl
  rw [this]
  simp [PState.adv]

theorem digitChar_spec {d : Nat} (h : d < 10) :
    isDigitC (Nat.digitChar d) = true ∧ digitVal (Nat.digitChar d) = d := by
  interval_cases d <;> exact ⟨by decide, by decide⟩

theorem foldl_dec_digits :
    ∀ (ds : List Nat) (acc : Nat), (∀ d ∈ ds, d < 10) →
      List.foldl (fun n c => n * 10 + digitVal c) acc
        ((ds.map Nat.digitChar).reverse) =
        acc * 10 ^ ds.length + Nat.ofDigits 10 ds := by
  intro ds
  induction ds with
  | nil => intro acc _; simp [Nat.ofDigits]
  | cons d ds ih =>
    intro acc hlt
    rw [List.map_cons, List.reverse_cons, List.foldl_append,
      ih acc (fun x hx => hlt x (by simp [hx]))]
    simp only [List.foldl_cons, List.foldl_nil, Nat.ofDigits_cons,
      List.length_cons, (digitChar_spec (hlt d (by simp))).2]
    ring

theorem natDec_spec (n : Nat) :
    (∀ c ∈ natDecChars n, isDigitC c = true) ∧ natDecChars n ≠ [] ∧
      digitsToNat false (natDecChars n) = n := by
  by_cases h0 : n = 0
  · subst h0
    refine ⟨?_, by simp [natDecChars], by decide⟩
    intro c hc
    rw [natDecChars] at hc
    simp at hc
    rw [hc]
    decide
  · have hlt : ∀ d ∈ Nat.digits 10 n, d < 10 :=
      fun d hd => Nat.digits_lt_base (by omega) hd
    have hne : Nat.digits 10 n ≠ [] := Nat.digits_ne_nil_iff_ne_zero.mpr h0
    refine ⟨?_, ?_, ?_⟩
    · intro c hc
      rw [natDecChars, if_neg h0] at hc
      rw [List.mem_reverse] at hc
      obtain ⟨d, hd, rfl⟩ := List.mem_map.mp hc
      exact (digitChar_spec (hlt d hd)).1
    · rw [natDecChars, if_neg h0]
      simp [hne]
    · rw [natDecChars, if_neg h0]
      have := foldl_dec_digits (Nat.digits 10 n) 0 hlt
      rw [digitsToNat]
      simp only [if_neg (Bool.false_ne_true)]
      rw [this, Nat.ofDigits_digits]
      omega

/-- `strBody` undoes `escapeChars`: reading an escaped string body up to
the closing quote recovers the original characters. -/
theorem strBody_escape :
    ∀ (s : List Char) (rest : List Char),
      strBody (escapeChars s ++ '"' :: rest) =
        .ok (s, rest, (escapeChars s).length + 1) := by
  intro s
  induction s with
  | nil => intro rest; simp [escapeChars, strBody]
  | cons c cs ih =>
    intro rest
    rw [escapeChars]
    by_cases h : (c = '"' || c = '\\') = true
    · rw [if_pos h]
      rw [List.cons_append, List.cons_append, strBody]
      rw [ih rest]
      rfl
    · rw [if_neg h]
      simp only [Bool.or_eq_true, decide_eq_true_eq, not_or] at h
      rw [List.cons_append, strBody.eq_def]
      split
      · rename_i heq
        simp at heq
      · rename_i heq
        rw [List.cons.injEq] at heq
        exact absurd heq.1 h.1
      · rename_i heq
        rw [List.cons.injEq] at heq
        exact absurd heq.1 h.2
      · rename_i c' rest' heq
        rw [List.cons.injEq] at heq
        obtain ⟨he1, he2⟩ := heq
        subst he1
        rw [← he2, ih rest]
        rfl

theorem takeRun_exact {p : Char → Bool} {xs rest : List Char}
    (hxs : ∀ c ∈ xs, p c = true)
    (hb : ∀ c, rest.head? = some c → p c = false) :
    takeRun p (xs ++ rest) = (xs, rest) := by
  have := takeWhile_append_of_all hxs hb
  rw [takeRun, this.1, this.2]

/-- Extraction undoes decimal formatting for in-range `int64_t` values
(the only formatting the serializer produces outside a blob-poisoned
stream). -/
theorem extractInt64_fmt {i : Int} (hlo : -(2 ^ 63) ≤ i) (hhi : i < 2 ^ 63)
    {rest : List Char} (hb : ∀ c, rest.head? = some c → isDigitC c = false) :
    extractInt64 false (int64Chars false i ++ rest) =
      .ok (i, (int64Chars false i).length) := by
  obtain ⟨hdig, hne, hval⟩ := natDec_spec (if i < 0 then i.natAbs else i.toNat)
  have hbase : isBaseDigit false = isDigitC := by
    funext c
    rw [isBaseDigit, if_neg (by simp)]
  by_cases hneg : i < 0
  · rw [if_pos hneg] at hdig hne hval
    have hform : int64Chars false i = '-' :: natDecChars i.natAbs := by
      rw [int64Chars, if_neg (by simp), if_pos hneg]
    have hrun := takeRun_exact hdig hb
    have hee : (natDecChars i.natAbs).isEmpty = false := by
      cases hq : natDecChars i.natAbs
      · exact absurd hq hne
      · rfl
    rw [hform, extractInt64.eq_def, hbase]
    simp only [List.cons_append, if_true, hrun, hee, hval,
      show ∀ p q : List Char × Nat, (if false = true then p else q) = q from
        fun p q => by simp]
    rw [if_neg (by simp)]
    rw [if_neg (by
      simp only [Bool.or_eq_true, decide_eq_true_eq, not_or]
      push_neg
      constructor <;> omega)]
    rw [show -((i.natAbs : Nat) : Int) = i from by omega]
    rw [show 1 + 0 + (natDecChars i.natAbs).length =
      ('-' :: natDecChars i.natAbs).length from by
        rw [List.length_cons]; omega]
  · push_neg at hneg
    rw [if_neg (by omega)] at hdig hne hval
    have hform : int64Chars false i = natDecChars i.toNat := by
      rw [int64Chars, if_neg (by simp), if_neg (by omega)]
    have hrun := takeRun_exact hdig hb
    have hee : (natDecChars i.toNat).isEmpty = false := by
      cases hq : natDecChars i.toNat
      · exact absurd hq hne
      · rfl
    cases hnd : natDecChars i.toNat with
    | nil => exact absurd hnd hne
    | cons c0 cs0 =>
      have hc0 : isDigitC c0 = true := hdig c0 (by rw [hnd]; simp)
      obtain ⟨-, -, -, -, -, -, hcm, hcp⟩ := digit_branches hc0
      rw [hform, hnd, extractInt64.eq_def, hbase]
      simp only [List.cons_append, if_neg hcm, if_neg hcp,
        show ∀ p q : List Char × Nat, (if false = true then p else q) = q from
          fun p q => by simp]
      rw [← List.cons_append, ← hnd, hrun]
      simp only [hee, Bool.false_eq_true, if_false, hval]
      rw [if_neg (by
        simp only [Bool.or_eq_true, decide_eq_true_eq, not_or]
        push_neg
        constructor <;> omega)]
      rw [show ((i.toNat : Nat) : Int) = i from by omega]
      rw [show 0 + 0 + (natDecChars i.toNat).length =
        (natDecChars i.toNat).length from by omega]

mutual
/-- A good value never sets the stream's `std::hex` flag while printing. -/
theorem fmt_hex : ∀ v : Value, Good v = true → (fmtVal false v).2 = false
  | .nil, _ => by simp [fmtVal]
  | .pr h t, hg => by
    rw [Good] at hg
    rw [Bool.and_eq_true] at hg
    cases hf : fmtVal false h with
    | mk cs hex' =>
      have h1 : hex' = false := by
        have := fmt_hex h hg.1
        rw [hf] at this
        exact this
      subst h1
      cases hfl : fmtValList false t with
      | mk cs' hex'' =>
        have h2 : hex'' = false := by
          have := fmtList_hex t hg.2
          rw [hfl] at this
          exact this
        subst h2
        simp [fmtVal, hf, hfl]
  | .sym s, _ => by simp [fmtVal]
  | .bool b, _ => by simp [fmtVal]
  | .int64 i, _ => by simp [fmtVal]
  | .blob bs, hg => by
    rw [Good] at hg
    simp [fmtVal, hg]
  | .str s, _ => by simp [fmtVal]

theorem fmtList_hex : ∀ vs : List Value, GoodList vs = true →
    (fmtValList false vs).2 = false
  | [], _ => by simp [fmtValList]
  | v :: vs, hg => by
    rw [GoodList] at hg
    rw [Bool.and_eq_true] at hg
    cases hf : fmtVal false v with
    | mk cs hex' =>
      have h1 : hex' = false := by
        have := fmt_hex v hg.1
        rw [hf] at this
        exact this
      subst h1
      cases hfl : fmtValList false vs with
      | mk cs' hex'' =>
        have h2 : hex'' = false := by
          have := fmtList_hex vs hg.2
          rw [hfl] at this
          exact this
        subst h2
        simp [fmtValList, hf, hfl]
end

/-- The first character a good value formats to: never whitespace and
never a closing parenthesis, so the parser's dispatch is unambiguous. -/
theorem fmt_head (v : Value) (hg : Good v = true) :
    ∃ c cs, (fmtVal false v).1 = c :: cs ∧ isSpaceC c = false ∧ c ≠ ')' := by
  cases v with
  | nil => exact ⟨'#', ['n', 'i', 'l'], by rw [fmtVal], by decide, by decide⟩
  | pr h t =>
    rw [Good, Bool.and_eq_true] at hg
    have hhex := fmt_hex h hg.1
    cases hf : fmtVal false h with
    | mk cs hx =>
      rw [hf] at hhex
      have hx0 : hx = false := hhex
      subst hx0
      cases hfl : fmtValList false t with
      | mk cs' hx' =>
        exact ⟨'(', cs ++ cs' ++ [')'], by simp [fmtVal, hf, hfl],
          by decide, by decide⟩
  | sym s =>
    rw [Good, goodSymStr] at hg
    cases hs : s.data with
    | nil => rw [hs] at hg; simp at hg
    | cons c cs =>
      rw [hs] at hg
      simp only [Bool.and_eq_true] at hg
      obtain ⟨hs0, -, -, -, -, hnp, -, -, -⟩ := symStart_branches hg.1
      exact ⟨c, cs, by simp [fmtVal, hs], hs0, hnp⟩
  | bool b =>
    cases b
    · exact ⟨'#', ['f'], by rw [fmtVal]; rfl, by decide, by decide⟩
    · exact ⟨'#', ['t'], by rw [fmtVal]; rfl, by decide, by decide⟩
  | int64 i =>
    by_cases hneg : i < 0
    · refine ⟨'-', natDecChars i.natAbs, ?_, by decide, by decide⟩
      rw [fmtVal]
      show int64Chars false i = _
      rw [int64Chars, if_neg (by simp), if_pos hneg]
    · obtain ⟨hdig, hne, -⟩ := natDec_spec i.toNat
      cases hnd : natDecChars i.toNat with
      | nil => exact absurd hnd hne
      | cons c0 cs0 =>
        have hc0 : isDigitC c0 = true := hdig c0 (by rw [hnd]; simp)
        obtain ⟨hs0, -, -, -, -, hnp, -, -⟩ := digit_branches hc0
        refine ⟨c0, cs0, ?_, hs0, hnp⟩
        rw [fmtVal]
        rw [int64Chars, if_neg (by simp), if_neg hneg, hnd]
  | blob bs =>
    exact ⟨'[', blobChars true bs ++ [']'], by rw [fmtVal]; rfl,
      by decide, by decide⟩
  | str s =>
    exact ⟨'"', escapeChars s ++ ['"'], by rw [fmtVal]; rfl,
      by decide, by decide⟩

/-- The characters that may legally follow a formatted value: nothing, a
separating space, or a closing parenthesis.  None of them can extend any
token. -/
def BoundaryOk (rest : List Char) : Prop :=
  rest = [] ∨ ∃ r rs, rest = r :: rs ∧ (r = ' ' ∨ r = ')')

theorem boundary_not {rest : List Char} (hb : BoundaryOk rest) :
    ∀ c, rest.head? = some c → isDigitC c = false ∧ isAlnumC c = false ∧
      isSymChar c = false ∧ c ≠ '-' ∧ c ≠ '_' := by
  intro c hc
  rcases hb with rfl | ⟨r, rs, rfl, hr⟩
  · simp at hc
  · simp at hc
    subst hc
    rcases hr with rfl | rfl
    · exact ⟨by decide, by decide, by decide, by decide, by decide⟩
    · exact ⟨by decide, by decide, by decide, by decide, by decide⟩

/-- At a boundary, the `default:` block consumes nothing and leaves the
output variable untouched. -/
theorem parseDefault_stop {rest : List Char} (hb : BoundaryOk rest)
    (val : Value) (pos : Nat) (hx : Bool) :
    parseDefault val ⟨rest, pos, hx⟩ = .ok (val, ⟨rest, pos, hx⟩) := by
  rcases hb with rfl | ⟨r, rs, rfl, hr⟩
  · rw [parseDefault]
  · obtain ⟨hd, ha, -, hm, hu⟩ := boundary_not (Or.inr ⟨r, rs, rfl, hr⟩) r rfl
    rw [parseDefault]
    dsimp only
    rw [if_neg (by simp [hd, hm]), if_neg (by simp [ha, hu])]

theorem value_sizeOf_pos (v : Value) : 0 < sizeOf v := by
  cases v <;> simp_arith

theorem list_sizeOf_pos (l : List Value) : 0 < sizeOf l := by
  cases l <;> simp_arith

/-- A single leading space before a non-space character is absorbed by the
initial `scanWhitespace`. -/
theorem parseVal_skip_space {c : Char} {l : List Char} {p : Nat} {hx : Bool}
    {f : Nat} {val : Value} (h : isSpaceC c = false) :
    parseVal (f + 1) val ⟨' ' :: c :: l, p, hx⟩ =
      parseVal (f + 1) val ⟨c :: l, p + 1, hx⟩ := by
  rw [parseVal, parseVal, scanWS_one_space h, scanWS_not_space h]

/-- What follows the formatted tail of a pair chain inside its
parentheses is always a legal token boundary: a space (before the next
element) or the closing parenthesis. -/
theorem fmtList_boundary (t : List Value) (rest : List Char) :
    BoundaryOk ((fmtValList false t).1 ++ ')' :: rest) := by
  cases t with
  | nil =>
    rw [show (fmtValList false ([] : List Value)).1 = [] from rfl,
      List.nil_append]
    exact Or.inr ⟨')', rest, rfl, Or.inr rfl⟩
  | cons v vs =>
    cases hfv : fmtVal false v with
    | mk a b =>
      cases hfvl : fmtValList b vs with
      | mk c d =>
        have hsh : (fmtValList false (v :: vs)).1 = ' ' :: (a ++ c) := by
          simp [fmtValList, hfv, hfvl]
        rw [hsh]
        exact Or.inr ⟨' ', (a ++ c) ++ ')' :: rest, by simp, Or.inl rfl⟩

mutual
/-- Round trip: parsing the formatted text of a good value, followed by
boundary characters, recovers exactly that value and leaves the boundary
unconsumed. -/
theorem parse_fmt (v : Value) (hg : Good v = true) (fuel : Nat)
    (rest : List Char) (p : Nat) (val₀ : Value)
    (hfuel : pfuel v + 1 ≤ fuel) (hb : BoundaryOk rest) :
    parseVal fuel val₀ ⟨(fmtVal false v).1 ++ rest, p, false⟩ =
      .ok (v, ⟨rest, p + ((fmtVal false v).1).length, false⟩) := by
  cases fuel with
  | zero => omega
  | succ f =>
    cases v with
    | nil =>
      rw [show (fmtVal false Value.nil).1 = ['#', 'n', 'i', 'l'] from by
        rw [fmtVal]]
      rw [parseVal]
      simp only [List.cons_append, List.nil_append]
      rw [scanWS_not_space (by decide)]
      dsimp only
      rw [show takeRun isAlnumC ('n' :: 'i' :: 'l' :: rest) = (['n','i','l'], rest) from by
        have he : ('n' :: 'i' :: 'l' :: rest) = ['n','i','l'] ++ rest := rfl
        rw [he]
        exact takeRun_exact (by decide) (fun c hc => ((boundary_not hb) c hc).2.1)]
      simp
      rw [parseDefault_stop hb]
    | pr h t =>
      rw [Good, Bool.and_eq_true] at hg
      have hszh := pfuel_pos h
      have hszt := pfuelList_pos t
      simp only [pfuel] at hfuel
      obtain ⟨f1, rfl⟩ : ∃ f1, f = f1 + 1 := ⟨f - 1, by omega⟩
      have hfmt1 : (fmtVal false (Value.pr h t)).1 =
          '(' :: ((fmtVal false h).1 ++ (fmtValList false t).1 ++ [')']) := by
        cases hf : fmtVal false h with
        | mk a b =>
          have hb0 : b = false := by
            have := fmt_hex h hg.1
            rw [hf] at this
            exact this
          subst hb0
          cases hfl : fmtValList false t with
          | mk c d => simp [fmtVal, hf, hfl]
      obtain ⟨c0, cs0, hcs, hsp0, hnp0⟩ := fmt_head h hg.1
      rw [hfmt1]
      rw [parseVal]
      simp only [List.cons_append, List.append_assoc, List.singleton_append,
        List.nil_append]
      rw [scanWS_not_space (by decide)]
      dsimp only
      rw [if_pos rfl]
      simp only [PState.adv, List.drop_succ_cons, List.drop_zero, List.drop_one,
        List.tail_cons]
      rw [parsePairList]
      rw [hcs]
      simp only [List.cons_append]
      rw [if_neg hnp0]
      have hIH := parse_fmt h hg.1 f1
        ((fmtValList false t).1 ++ ')' :: rest) (p + 1) Value.nil
        (by omega) (fmtList_boundary t rest)
      rw [hcs] at hIH
      simp only [List.cons_append] at hIH
      rw [hIH]
      dsimp only
      simp only [List.nil_append]
      have hIH2 := parseList_fmt t hg.2 f1 [h] rest
        (p + 1 + (c0 :: cs0).length) (by omega)
      rw [hIH2]
      dsimp only
      simp [Value.ofList]
      omega
    | sym s =>
      rw [Good, goodSymStr] at hg
      cases hs : s.data with
      | nil => rw [hs] at hg; simp at hg
      | cons c cs =>
        rw [hs] at hg
        simp only [Bool.and_eq_true] at hg
        obtain ⟨hsp, hnp, hnb, hnq, hnh, -, hnm, hnd, hsymc⟩ :=
          symStart_branches hg.1
        have hfmt : (fmtVal false (Value.sym s)).1 = c :: cs := by
          simp [fmtVal, hs]
        rw [hfmt]
        rw [parseVal]
        simp only [List.cons_append]
        rw [scanWS_not_space hsp]
        dsimp only
        rw [if_neg hnp, if_neg hnb, if_neg hnq, if_neg hnh]
        rw [parseDefault]
        dsimp only
        rw [if_neg (by
          simp only [Bool.or_eq_true, decide_eq_true_eq, not_or]
          exact ⟨hnm, by simp [hnd]⟩)]
        rw [if_pos (by
          simp only [Bool.or_eq_true, decide_eq_true_eq, isAlnumC_iff,
            char_eq_iff_toNat, show ('_' : Char).toNat = 95 from rfl]
          have h95 := isSymStart_iff.mp hg.1
          omega)]
        rw [show takeRun isSymChar (c :: (cs ++ rest)) = (c :: cs, rest) from by
          rw [← List.cons_append]
          exact takeRun_exact
            (fun x hx => by
              rcases List.mem_cons.mp hx with rfl | hx
              · exact hsymc
              · exact List.all_eq_true.mp hg.2 x hx)
            (fun x hx => ((boundary_not hb) x hx).2.2.1)]
        dsimp only
        have hsmk : String.mk (c :: cs) = s := by rw [← hs]
        rw [hsmk]
        simp only [PState.adv]
        rw [show (c :: (cs ++ rest)) = (c :: cs) ++ rest from by simp,
          List.drop_left]
    | bool b =>
      cases b with
      | false =>
        rw [show (fmtVal false (Value.bool false)).1 = ['#', 'f'] from by
          rw [fmtVal]; rfl]
        rw [parseVal]
        simp only [List.cons_append, List.nil_append]
        rw [scanWS_not_space (by decide)]
        dsimp only
        rw [show takeRun isAlnumC ('f' :: rest) = (['f'], rest) from by
          have he : ('f' :: rest) = ['f'] ++ rest := rfl
          rw [he]
          exact takeRun_exact (by decide)
            (fun c hc => ((boundary_not hb) c hc).2.1)]
        simp
        rw [parseDefault_stop hb]
      | true =>
        rw [show (fmtVal false (Value.bool true)).1 = ['#', 't'] from by
          rw [fmtVal]; rfl]
        rw [parseVal]
        simp only [List.cons_append, List.nil_append]
        rw [scanWS_not_space (by decide)]
        dsimp only
        rw [show takeRun isAlnumC ('t' :: rest) = (['t'], rest) from by
          have he : ('t' :: rest) = ['t'] ++ rest := rfl
          rw [he]
          exact takeRun_exact (by decide)
            (fun c hc => ((boundary_not hb) c hc).2.1)]
        simp
        rw [parseDefault_stop hb]
    | int64 i =>
      rw [Good] at hg
      simp only [Bool.and_eq_true, decide_eq_true_eq] at hg
      have hfmt : (fmtVal false (Value.int64 i)).1 = int64Chars false i := by
        rw [fmtVal]
      rw [hfmt]
      have hext := extractInt64_fmt hg.1 hg.2
        (fun c hc => ((boundary_not hb) c hc).1)
      have hhead : ∃ c cs, int64Chars false i = c :: cs ∧ isSpaceC c = false ∧
          c ≠ '(' ∧ c ≠ '[' ∧ c ≠ '"' ∧ c ≠ '#' ∧
          (c = '-' ∨ isDigitC c = true) := by
        by_cases hneg : i < 0
        · exact ⟨'-', natDecChars i.natAbs,
            by rw [int64Chars, if_neg (by simp), if_pos hneg],
            by decide, by decide, by decide, by decide, by decide, Or.inl rfl⟩
        · obtain ⟨hdig, hne, -⟩ := natDec_spec i.toNat
          cases hnd : natDecChars i.toNat with
          | nil => exact absurd hnd hne
          | cons c0 cs0 =>
            have hc0 : isDigitC c0 = true := hdig c0 (by rw [hnd]; simp)
            obtain ⟨hs0, h1, h2, h3, h4, -, -, -⟩ := digit_branches hc0
            exact ⟨c0, cs0,
              by rw [int64Chars, if_neg (by simp), if_neg hneg, hnd],
              hs0, h1, h2, h3, h4, Or.inr hc0⟩
      obtain ⟨c0, cs0, hic, hsp, hnp, hnb, hnq, hnh, hdm⟩ := hhead
      rw [hic]
      rw [parseVal]
      simp only [List.cons_append]
      rw [scanWS_not_space hsp]
      dsimp only
      rw [if_neg hnp, if_neg hnb, if_neg hnq, if_neg hnh]
      rw [parseDefault]
      dsimp only
      rw [if_pos (by
        simp only [Bool.or_eq_true, decide_eq_true_eq]
        rcases hdm with rfl | hd
        · exact Or.inl rfl
        · exact Or.inr hd)]
      rw [← List.cons_append, ← hic, hext]
      dsimp only
      simp only [PState.adv, List.drop_left]
    | blob bs =>
      rw [Good] at hg
      have hbs : bs = [] := by
        cases bs with
        | nil => rfl
        | cons b bs => simp at hg
      subst hbs
      rw [show (fmtVal false (Value.blob [])).1 = ['[', ']'] from by
        rw [fmtVal]; rfl]
      rw [parseVal]
      simp only [List.cons_append, List.nil_append]
      rw [scanWS_not_space (by decide)]
      dsimp only
      rw [if_neg (by decide), if_pos rfl]
      rw [show blobBody (']' :: rest) = .ok ([], rest, 1, false) from by
        rw [blobBody.eq_def]
        dsimp only
        rw [if_pos rfl]]
      dsimp only
      simp
    | str s =>
      rw [show (fmtVal false (Value.str s)).1 =
          '"' :: (escapeChars s ++ ['"']) from by rw [fmtVal]; rfl]
      rw [parseVal]
      simp only [List.cons_append, List.append_assoc, List.singleton_append]
      rw [scanWS_not_space (by decide)]
      dsimp only
      rw [if_neg (by decide), if_neg (by decide), if_pos rfl]
      rw [strBody_escape]
      dsimp only
      simp
      omega
termination_by sizeOf v

/-- Companion for the element loop: the formatted tail of a pair chain
followed by the closing parenthesis is consumed element by element. -/
theorem parseList_fmt (vs : List Value) (hg : GoodList vs = true)
    (fuel : Nat) (acc : List Value) (rest : List Char) (p : Nat)
    (hfuel : pfuelList vs ≤ fuel) :
    parsePairList fuel acc
        ⟨(fmtValList false vs).1 ++ ')' :: rest, p, false⟩ =
      .ok (acc ++ vs, ⟨rest, p + ((fmtValList false vs).1).length + 1, false⟩) := by
  cases fuel with
  | zero =>
    have := pfuelList_pos vs
    omega
  | succ f =>
    cases vs with
    | nil =>
      rw [show (fmtValList false ([] : List Value)).1 = [] from rfl]
      simp only [List.nil_append]
      rw [parsePairList]
      dsimp only
      rw [if_pos rfl]
      simp [PState.adv]
    | cons v vs =>
      rw [GoodList, Bool.and_eq_true] at hg
      have hszv := pfuel_pos v
      have hszvs := pfuelList_pos vs
      simp only [pfuelList] at hfuel
      obtain ⟨f1, rfl⟩ : ∃ f1, f = f1 + 1 := ⟨f - 1, by omega⟩
      have hhex := fmt_hex v hg.1
      have hfmt : (fmtValList false (v :: vs)).1 =
          ' ' :: ((fmtVal false v).1 ++ (fmtValList false vs).1) := by
        cases hfv : fmtVal false v with
        | mk a b =>
          have hb0 : b = false := by rw [hfv] at hhex; exact hhex
          subst hb0
          cases hfvl : fmtValList false vs with
          | mk c d => simp [fmtValList, hfv, hfvl]
      obtain ⟨c0, cs0, hcs, hsp0, hnp0⟩ := fmt_head v hg.1
      rw [hfmt]
      simp only [List.cons_append, List.append_assoc]
      rw [parsePairList]
      dsimp only
      rw [if_neg (by decide)]
      rw [hcs]
      simp only [List.cons_append]
      rw [parseVal_skip_space hsp0]
      have hIH := parse_fmt v hg.1 (f1 + 1)
        ((fmtValList false vs).1 ++ ')' :: rest) (p + 1) Value.nil
        (by omega) (fmtList_boundary vs rest)
      rw [hcs] at hIH
      simp only [List.cons_append] at hIH
      rw [hIH]
      dsimp only
      have hIH2 := parseList_fmt vs hg.2 (f1 + 1) (acc ++ [v]) rest
        (p + 1 + (c0 :: cs0).length) (by omega)
      rw [hIH2]
      simp
      omega
termination_by sizeOf vs
end

mutual
/-- A good value prints at least as many characters as the parser fuel
its re-parse consumes. -/
theorem pfuel_le_fmt (v : Value) (hg : Good v = true) :
    pfuel v ≤ ((fmtVal false v).1).length := by
  cases v with
  | nil => decide
  | pr h t =>
    rw [Good, Bool.and_eq_true] at hg
    have h1 := pfuel_le_fmt h hg.1
    have h2 := pfuelList_le_fmt t hg.2
    have hfmt1 : (fmtVal false (Value.pr h t)).1 =
        '(' :: ((fmtVal false h).1 ++ (fmtValList false t).1 ++ [')']) := by
      cases hf : fmtVal false h with
      | mk a b =>
        have hb0 : b = false := by
          have := fmt_hex h hg.1
          rw [hf] at this
          exact this
        subst hb0
        cases hfl : fmtValList false t with
        | mk c d => simp [fmtVal, hf, hfl]
    rw [hfmt1]
    simp only [pfuel, List.length_cons, List.length_append,
      List.length_singleton]
    omega
  | sym s =>
    rw [Good, goodSymStr] at hg
    cases hs : s.data with
    | nil => rw [hs] at hg; simp at hg
    | cons c cs =>
      rw [show (fmtVal false (Value.sym s)).1 = c :: cs from by
        simp [fmtVal, hs]]
      simp [pfuel]
  | bool b => cases b <;> decide
  | int64 i =>
    obtain ⟨c0, cs0, hh, -, -⟩ := fmt_head (Value.int64 i) hg
    rw [hh]
    simp [pfuel]
  | blob bs =>
    rw [Good] at hg
    have hbs : bs = [] := by
      cases bs with
      | nil => rfl
      | cons b bs => simp at hg
    subst hbs
    decide
  | str s =>
    rw [show (fmtVal false (Value.str s)).1 =
        '"' :: (escapeChars s ++ ['"']) from by rw [fmtVal]; rfl]
    simp [pfuel]
termination_by sizeOf v

theorem pfuelList_le_fmt (vs : List Value) (hg : GoodList vs = true) :
    pfuelList vs ≤ ((fmtValList false vs).1).length + 1 := by
  cases vs with
  | nil => decide
  | cons v vs =>
    rw [GoodList, Bool.and_eq_true] at hg
    have h1 := pfuel_le_fmt v hg.1
    have h2 := pfuelList_le_fmt vs hg.2
    have hhex := fmt_hex v hg.1
    have hfmt : (fmtValList false (v :: vs)).1 =
        ' ' :: ((fmtVal false v).1 ++ (fmtValList false vs).1) := by
      cases hfv : fmtVal false v with
      | mk a b =>
        have hb0 : b = false := by rw [hfv] at hhex; exact hhex
        subst hb0
        cases hfvl : fmtValList false vs with
        | mk c d => simp [fmtValList, hfv, hfvl]
    rw [hfmt]
    simp only [pfuelList, List.length_cons, List.length_append]
    omega
termination_by sizeOf vs
end

/-- C3 (amended): on the round-trippable fragment — symbols non-empty,
starting with a letter or underscore and made of symbol characters,
`Int64` payloads in range, blobs empty — the textual serialization is
invertible: `operator>>` applied to the `operator<<` image of a good value
consumes the whole text and returns exactly that value.  (Outside the
fragment the round trip fails; see `parse_format_cex`.) -/
theorem parse_format (v : Value) (hg : Good v = true) :
    parse (format v) = .ok (v, ⟨[], (format v).length, false⟩) := by
  rw [parse, format]
  have h := parse_fmt v hg (((fmtVal false v).1).length + 2) [] 0 Value.nil
    (by have := pfuel_le_fmt v hg; omega) (Or.inl rfl)
  rw [List.append_nil] at h
  simpa using h

/-- Witness: the concrete good value `(1 ab)` round-trips. -/
theorem parse_format_witness :
    Good (Value.pr (Value.int64 1) [Value.sym "ab"]) = true ∧
    parse (format (Value.pr (Value.int64 1) [Value.sym "ab"])) =
      .ok (Value.pr (Value.int64 1) [Value.sym "ab"],
        ⟨[], (format (Value.pr (Value.int64 1) [Value.sym "ab"])).length,
          false⟩) :=
  ⟨by decide,
    parse_format (Value.pr (Value.int64 1) [Value.sym "ab"]) (by decide)⟩

/-- Counterexample to the claim as stated for every constructible value:
the symbol `5` and the integer `5` are distinct values with the same
serialization `5`, and re-parsing that text yields the integer — so
`parse (format v) = v` fails at `v = Sym "5"`, and equal serializations do
not imply equal values. -/
theorem parse_format_cex :
    Value.sym "5" ≠ Value.int64 5 ∧
    format (Value.sym "5") = format (Value.int64 5) ∧
    parse (format (Value.sym "5")) = .ok (Value.int64 5, ⟨[], 1, false⟩) := by
  refine ⟨fun h => Value.noConfusion h, ?_, rfl⟩
  have h5 : Nat.digits 10 5 = [5] := by
    rw [Nat.digits_def' (by norm_num : (1 : ℕ) < 10) (by norm_num : (0 : ℕ) < 5)]
    norm_num
  have hfmt5 : format (Value.int64 5) = ['5'] := by
    rw [format]
    rw [show (fmtVal false (Value.int64 5)).1 = int64Chars false 5 from by
      rw [fmtVal]]
    rw [int64Chars, if_neg (by simp), if_neg (by norm_num), natDecChars,
      if_neg (by norm_num)]
    rw [show ((5 : Int).toNat) = 5 from rfl, h5]
    rfl
  rw [hfmt5]
  rfl

/-! ### Plan parameters (`part_001` variant: `Params = std::map<ParamName, Value>`) -/

namespace P1

/-- `std::map::emplace` on an association list sorted strictly by key:
insert at the ordered position, but keep the existing entry (and discard
the new value) when the key is already present. -/
def mapEmplace (k : String) (v : Value) : List (String × Value) → List (String × Value)
  | [] => [(k, v)]
  | (q, w) :: rest =>
    if k < q then (k, v) :: (q, w) :: rest
    else if q < k then (q, w) :: mapEmplace k v rest
    else (q, w) :: rest

/-- `std::map::find`. -/
def mapFind (k : String) : List (String × Value) → Option Value
  | [] => none
  | (q, w) :: rest => if k = q then some w else mapFind k rest

/-- The strict-weak-order invariant `std::map` maintains on its entries. -/
def MapSorted (ps : List (String × Value)) : Prop :=
  List.Pairwise (fun a b => a.1 < b.1) ps

/-- `Plan` of the `part_001` corpus variant. -/
structure Plan where
  mTestName : String
  mParams : List (String × Value)
deriving DecidableEq

/-- `Plan::addParam`: `mParams.emplace(p, v)`. -/
def Plan.addParam (pl : Plan) (p : String) (v : Value) : Plan :=
  { pl with mParams := mapEmplace p v pl.mParams }

/-- `Plan::getParam`: `find`, throwing on an unknown parameter. -/
def Plan.getParam (pl : Plan) (p : String) : Except String Value :=
  match mapFind p pl.mParams with
  | none => .error ("unknown param: " ++ p)
  | some v => .ok v

theorem mapFind_none (n : String) :
    ∀ ps : List (String × Value), (∀ kv ∈ ps, n ≠ kv.1) →
      mapFind n ps = none
  | [], _ => rfl
  | (q, w) :: rest, h => by
    rw [mapFind, if_neg (h (q, w) (by simp)),
      mapFind_none n rest (fun kv hkv => h kv (by simp [hkv]))]

/-- `emplace` with a key already present returns the map unchanged. -/
theorem mapEmplace_mem :
    ∀ (ps : List (String × Value)) (n : String) (v0 v : Value),
      MapSorted ps → mapFind n ps = some v0 →
      mapEmplace n v ps = ps
  | [], n, v0, v, _, h => by simp [mapFind] at h
  | (q, w) :: rest, n, v0, v, hs, h => by
    rw [mapFind] at h
    rw [mapEmplace]
    by_cases h1 : n < q
    · have hne : ¬ n = q := ne_of_lt h1
      rw [if_neg hne] at h
      have hnone : mapFind n rest = none := by
        refine mapFind_none n rest (fun kv hkv => ?_)
        have hq := (List.pairwise_cons.mp hs).1 kv hkv
        exact ne_of_lt (lt_trans h1 hq)
      rw [hnone] at h
      exact absurd h (by simp)
    · rw [if_neg h1]
      by_cases h2 : q < n
      · have hne : ¬ n = q := fun e => absurd (e ▸ h2) (lt_irrefl _)
        rw [if_neg hne] at h
        rw [if_pos h2,
          mapEmplace_mem rest n v0 v (List.pairwise_cons.mp hs).2 h]
      · rw [if_neg h2]

end P1

/-- C10: `addParam` on a name already bound in the plan is a no-op — the
plan (hence the existing binding) is unchanged, nothing fails, the new
value is silently discarded, and `getParam` afterwards still returns the
originally bound value. -/
theorem addParam_existing (pl : P1.Plan) (n : String) (v0 v : Value)
    (hs : P1.MapSorted pl.mParams) (h : pl.getParam n = .ok v0) :
    pl.addParam n v = pl ∧ (pl.addParam n v).getParam n = .ok v0 := by
  have hfind : P1.mapFind n pl.mParams = some v0 := by
    rw [P1.Plan.getParam] at h
    cases hf : P1.mapFind n pl.mParams with
    | none => rw [hf] at h; exact absurd h (by simp)
    | some w =>
      rw [hf] at h
      simp only [Except.ok.injEq] at h
      rw [h]
  have hemp := P1.mapEmplace_mem pl.mParams n v0 v hs hfind
  have hpl : pl.addParam n v = pl := by
    rw [P1.Plan.addParam, hemp]
  exact ⟨hpl, by rw [hpl]; exact h⟩

/-- Witness: a plan binding `a ↦ 1`; re-adding `a ↦ 2` changes nothing. -/
theorem addParam_existing_witness :
    (P1.Plan.mk "t" [("a", Value.int64 1)]).getParam "a" =
      .ok (Value.int64 1) ∧
    (P1.Plan.mk "t" [("a", Value.int64 1)]).addParam "a" (Value.int64 2) =
      P1.Plan.mk "t" [("a", Value.int64 1)] ∧
    ((P1.Plan.mk "t" [("a", Value.int64 1)]).addParam "a"
        (Value.int64 2)).getParam "a" = .ok (Value.int64 1) := by
  have ht := addParam_existing (P1.Plan.mk "t" [("a", Value.int64 1)]) "a"
    (Value.int64 1) (Value.int64 2) (by simp [P1.MapSorted]) rfl
  exact ⟨rfl, ht.1, ht.2⟩

/-! ### Variadic `Value::match` (`part_000` templates) -/

/-- A match target of the variadic `Value::match` templates: a mutable
reference of one of the payload types (a `T&` target matches on dynamic
type and captures), a `const&` of a payload type (matches a temporary and
compares for equality), or a `Value&` / `Value const&`. -/
inductive MTarget where
  | anyVar
  | anyEq (v : Value)
  | pairVar
  | symVar
  | symEq (s : String)
  | boolVar
  | boolEq (b : Bool)
  | intVar
  | intEq (i : Int)
  | blobVar
  | blobEq (bs : List Nat)
  | strVar
  | strEq (s : List Char)

/-- `Value::match` against a single target (via `matchOne`): `Value&`
always matches; a typed `T&` matches iff the wrapped impl is the
`TypedValue<T>` (`Nil`'s null impl matches nothing typed); a `const&`
target additionally compares payloads. -/
def matchOne (v : Value) : MTarget → Bool
  | .anyVar => true
  | .anyEq w => v == w
  | .pairVar => match v with | .pr _ _ => true | _ => false
  | .symVar => match v with | .sym _ => true | _ => false
  | .symEq s => match v with | .sym q => q == s | _ => false
  | .boolVar => match v with | .bool _ => true | _ => false
  | .boolEq b => match v with | .bool q => q == b | _ => false
  | .intVar => match v with | .int64 _ => true | _ => false
  | .intEq i => match v with | .int64 q => q == i | _ => false
  | .blobVar => match v with | .blob _ => true | _ => false
  | .blobEq bs => match v with | .blob q => q == bs | _ => false
  | .strVar => match v with | .str _ => true | _ => false
  | .strEq s => match v with | .str q => q == s | _ => false

/-- `PairValue::match` on the pair whose head is `h` and whose tail chain
holds `rest`, against a non-empty target pack: the singleton pack bottoms
out on the head only; a longer pack matches the head against the first
target and then either the tail pointer is null (`!pair.second` — success
regardless of the remaining targets) or the tail `PairValue` matches the
rest of the pack. -/
def pairMatchN (h : Value) (rest : List Value) : List MTarget → Bool
  | [] => true
  | [t] => matchOne h t
  | t :: t2 :: ts =>
    matchOne h t &&
      (match rest with
       | [] => true
       | h2 :: rest2 => pairMatchN h2 rest2 (t2 :: ts))

/-- `Value::match` with a pack of two or more targets: requires the
wrapped impl to be a `PairValue` (else `false`), then delegates to
`PairValue::match`. -/
def matchN (v : Value) (ts : List MTarget) : Bool :=
  match v with
  | .pr h rest => pairMatchN h rest ts
  | _ => false

/-- The claim's reading of the variadic match, written from the spec's
words: the value must be a `Pair`, its head must match the first target,
and the tail value (another `Pair` or `Nil`) must recursively match all
the remaining targets, a single remaining target being an ordinary
single-value match. -/
def specMatch (v : Value) : List MTarget → Bool
  | [] => true
  | [t] => matchOne v t
  | t :: t2 :: ts =>
    match v with
    | .pr h rest => matchOne h t && specMatch (Value.ofList rest) (t2 :: ts)
    | _ => false

/-- The element walk of `PairValue::match` is a pointwise comparison that
stops at whichever runs out first: the target pack or the pair chain. -/
theorem pairMatchN_pointwise (ts : List MTarget) :
    ∀ (h : Value) (rest : List Value), ts ≠ [] →
      (pairMatchN h rest ts = true ↔
        ∀ i (h1 : i < ts.length) (h2 : i < (h :: rest).length),
          matchOne ((h :: rest).get ⟨i, h2⟩) (ts.get ⟨i, h1⟩) = true) := by
  induction ts with
  | nil => intro h rest hne; exact absurd rfl hne
  | cons t ts ih =>
    intro h rest hne
    cases ts with
    | nil =>
      rw [pairMatchN]
      constructor
      · intro hm i h1 h2
        obtain rfl : i = 0 := by simpa using h1
        exact hm
      · intro hp
        exact hp 0 (by simp) (by simp)
    | cons t2 ts2 =>
      rw [pairMatchN.eq_def]
      dsimp only
      cases rest with
      | nil =>
        simp only [Bool.and_eq_true]
        constructor
        · intro hm i h1 h2
          obtain rfl : i = 0 := by simpa using h2
          exact hm.1
        · intro hp
          exact ⟨hp 0 (by simp) (by simp), by trivial⟩
      | cons h2 rest2 =>
        simp only [Bool.and_eq_true]
        rw [ih h2 rest2 (by simp)]
        constructor
        · intro hm i h1 h2
          cases i with
          | zero => exact hm.1
          | succ j =>
            have := hm.2 j (by simpa using h1) (by simpa using h2)
            simpa using this
        · intro hp
          refine ⟨hp 0 (by simp) (by simp), ?_⟩
          intro j h1 h2
          have := hp (j + 1) (by simpa using h1) (by simpa using h2)
          simpa using this

/-- C4 (amended): a match against two or more targets succeeds iff the
value is a `Pair` whose head matches the first target and whose remaining
chain elements match the remaining targets pointwise for as long as both
lists last — extra targets beyond the chain succeed vacuously (the null
tail pointer short-circuits) and extra chain elements beyond the last
target are never examined. -/
theorem match_variadic (v : Value) (t1 t2 : MTarget) (ts : List MTarget) :
    matchN v (t1 :: t2 :: ts) = true ↔
      ∃ h rest, v = Value.pr h rest ∧ matchOne h t1 = true ∧
        ∀ i (h1 : i < (t2 :: ts).length) (h2 : i < rest.length),
          matchOne (rest.get ⟨i, h2⟩) ((t2 :: ts).get ⟨i, h1⟩) = true := by
  cases v with
  | pr h rest =>
    rw [matchN]
    rw [pairMatchN_pointwise (t1 :: t2 :: ts) h rest (by simp)]
    constructor
    · intro hp
      refine ⟨h, rest, rfl, hp 0 (by simp) (by simp), ?_⟩
      intro i h1 h2
      have := hp (i + 1) (by simpa using h1) (by simpa using h2)
      simpa using this
    · rintro ⟨h', rest', he, h1, h2⟩
      obtain ⟨rfl, rfl⟩ : h' = h ∧ rest' = rest := by
        rw [Value.pr.injEq] at he
        exact ⟨he.1.symm, he.2.symm⟩
      intro i hi1 hi2
      cases i with
      | zero => exact h1
      | succ j =>
        have := h2 j (by simpa using hi1) (by simpa using hi2)
        simpa using this
  | nil =>
    simp only [matchN]
    constructor
    · intro hm; exact absurd hm (by simp)
    · rintro ⟨h, rest, he, -, -⟩; exact absurd he (by simp)
  | sym s =>
    simp only [matchN]
    constructor
    · intro hm; exact absurd hm (by simp)
    · rintro ⟨h, rest, he, -, -⟩; exact absurd he (by simp)
  | bool b =>
    simp only [matchN]
    constructor
    · intro hm; exact absurd hm (by simp)
    · rintro ⟨h, rest, he, -, -⟩; exact absurd he (by simp)
  | int64 i =>
    simp only [matchN]
    constructor
    · intro hm; exact absurd hm (by simp)
    · rintro ⟨h, rest, he, -, -⟩; exact absurd he (by simp)
  | blob bs =>
    simp only [matchN]
    constructor
    · intro hm; exact absurd hm (by simp)
    · rintro ⟨h, rest, he, -, -⟩; exact absurd he (by simp)
  | str s =>
    simp only [matchN]
    constructor
    · intro hm; exact absurd hm (by simp)
    · rintro ⟨h, rest, he, -, -⟩; exact absurd he (by simp)

/-- Counterexample to the claim as stated: `(1)` — a pair with head `1`
and `Nil` tail — matched against the two targets `int64&` and
`const int64& == 7` succeeds in the code (the null tail pointer
short-circuits before the second target is considered), while under the
claim's reading the `Nil` tail would have to match `== 7`, which fails. -/
theorem match_variadic_cex :
    matchN (Value.pr (Value.int64 1) [])
      [MTarget.intVar, MTarget.intEq 7] = true ∧
    specMatch (Value.pr (Value.int64 1) [])
      [MTarget.intVar, MTarget.intEq 7] = false :=
  ⟨rfl, rfl⟩

/-! ### Grammars (`grammar.h` / `grammar.cpp`) -/

/-- An `Atom` of a production: a literal value or a reference to another
rule, optionally extending the context with parameter names while the
referenced rule is expanded. -/
inductive Atom where
  | lit (v : Value)
  | ref (rule : String) (ctxExt : List String)
deriving DecidableEq

/-- `Production::mHasRefs`, computed in the constructor: whether any atom
is a `Ref`. -/
def hasRefs (atoms : List Atom) : Bool :=
  atoms.any fun a => match a with | .ref _ _ => true | _ => false

/-- A `Production`: its atoms and the context names it requires. -/
structure Production where
  mAtoms : List Atom
  mCtxReq : List String
deriving DecidableEq

/-- A `Context`: the key set of the global `ParamSpecs` plus the stack of
locally pushed parameter names. -/
structure Context where
  mGlobalParamSpecs : List String
  mLocalParamNames : List String
deriving DecidableEq

/-- `Context::has(ParamName)`: the name is a global spec key or occurs on
the local stack. -/
def Context.hasName (ctx : Context) (s : String) : Bool :=
  ctx.mGlobalParamSpecs.contains s || ctx.mLocalParamNames.contains s

/-- `Context::has(std::set<ParamName>)`: every name of the set is present. -/
def Context.hasSet (ctx : Context) (ss : List String) : Bool :=
  ss.all ctx.hasName

/-- A `Grammar`: its rules, as the association list `std::map<RuleName,
Rule>` iterates them. -/
structure Grammar where
  mRules : List (String × List Production)

/-- The grammar errors thrown by rule lookup, production filtering and
random generation. -/
inductive GErr where
  | ruleNotFound (r : String)
  | noProductions (r : String)
  | needsNonterminal (r : String)
  | noActive (r : String)
  | depthZero
  | fuel
  | assertFail
deriving DecidableEq

/-- `Grammar::getProductions`: look the rule up (else "rule not found")
and require a non-empty production list (else "rule has no productions"). -/
def Grammar.getProductions (g : Grammar) (rule : String) :
    Except GErr (List Production) :=
  match g.mRules.find? (fun q => q.1 == rule) with
  | none => .error (.ruleNotFound rule)
  | some (_, prods) =>
    if prods.isEmpty then .error (.noProductions rule) else .ok prods

/-- `Grammar::getActiveProductions`: walk the rule's productions in
declaration order, skipping (and remembering having skipped) any with
refs when `depthLimit == 1`, and keeping those whose required context the
current context has.  An empty result is one of two errors, chosen by the
skipped flag. -/
def Grammar.getActiveProductions (g : Grammar) (rule : String) (d : Nat)
    (ctx : Context) : Except GErr (List Production) :=
  match g.getProductions rule with
  | .error e => .error e
  | .ok prods =>
    let active := prods.filter fun p =>
      !(d == 1 && hasRefs p.mAtoms) && ctx.hasSet p.mCtxReq
    if active.isEmpty then
      if prods.any (fun p => d == 1 && hasRefs p.mAtoms) then
        .error (.needsNonterminal rule)
      else .error (.noActive rule)
    else .ok active

/-- C7: for a rule that resolves to the production list `prods`,
`getActiveProductions` keeps, in declaration order, exactly the
productions whose required context is contained in `ctx`, additionally
discarding — only at depth limit 1 — those containing a `Ref`; it succeeds
iff some production survives, and an empty result is the
needs-a-nonterminal-production error exactly when a production was
discarded for its refs, and the no-active-productions error otherwise,
each naming the rule. -/
theorem getActiveProductions_spec (g : Grammar) (rule : String) (d : Nat)
    (ctx : Context) (prods : List Production)
    (hp : g.getProductions rule = .ok prods) :
    (∀ l, g.getActiveProductions rule d ctx = .ok l →
        l.Sublist prods ∧
          ∀ p, p ∈ l ↔ p ∈ prods ∧ ctx.hasSet p.mCtxReq = true ∧
            (d = 1 → hasRefs p.mAtoms = false)) ∧
    ((∃ l, g.getActiveProductions rule d ctx = .ok l) ↔
      ∃ p, p ∈ prods ∧ ctx.hasSet p.mCtxReq = true ∧
        (d = 1 → hasRefs p.mAtoms = false)) ∧
    (g.getActiveProductions rule d ctx = .error (.needsNonterminal rule) ↔
      (¬ ∃ p, p ∈ prods ∧ ctx.hasSet p.mCtxReq = true ∧
        (d = 1 → hasRefs p.mAtoms = false)) ∧
      ∃ p, p ∈ prods ∧ d = 1 ∧ hasRefs p.mAtoms = true) ∧
    (g.getActiveProductions rule d ctx = .error (.noActive rule) ↔
      (¬ ∃ p, p ∈ prods ∧ ctx.hasSet p.mCtxReq = true ∧
        (d = 1 → hasRefs p.mAtoms = false)) ∧
      ¬ ∃ p, p ∈ prods ∧ d = 1 ∧ hasRefs p.mAtoms = true) := by
  have hkeep : ∀ p : Production,
      ((!(d == 1 && hasRefs p.mAtoms)) && ctx.hasSet p.mCtxReq) = true ↔
        (ctx.hasSet p.mCtxReq = true ∧ (d = 1 → hasRefs p.mAtoms = false)) := by
    intro p
    cases hr : hasRefs p.mAtoms <;> cases hhs : ctx.hasSet p.mCtxReq <;>
      by_cases hd : d = 1 <;> simp [hr, hhs, hd]
  have hskip : (prods.any (fun p => d == 1 && hasRefs p.mAtoms) = true) ↔
      ∃ p, p ∈ prods ∧ d = 1 ∧ hasRefs p.mAtoms = true := by
    rw [List.any_eq_true]
    constructor
    · rintro ⟨p, hm, hb⟩
      rw [Bool.and_eq_true, beq_iff_eq] at hb
      exact ⟨p, hm, hb.1, hb.2⟩
    · rintro ⟨p, hm, h1, h2⟩
      exact ⟨p, hm, by rw [Bool.and_eq_true, beq_iff_eq]; exact ⟨h1, h2⟩⟩
  rw [Grammar.getActiveProductions, hp]
  dsimp only
  have hmemf : ∀ p, p ∈ prods.filter
      (fun p => !(d == 1 && hasRefs p.mAtoms) && ctx.hasSet p.mCtxReq) ↔
      p ∈ prods ∧ ctx.hasSet p.mCtxReq = true ∧
        (d = 1 → hasRefs p.mAtoms = false) := by
    intro p
    rw [List.mem_filter, hkeep p]
  have hemp : (prods.filter
      (fun p => !(d == 1 && hasRefs p.mAtoms) && ctx.hasSet p.mCtxReq)).isEmpty = true ↔
      ¬ ∃ p, p ∈ prods ∧ ctx.hasSet p.mCtxReq = true ∧
        (d = 1 → hasRefs p.mAtoms = false) := by
    rw [List.isEmpty_iff, List.eq_nil_iff_forall_not_mem]
    constructor
    · intro h ⟨p, hp1, hp2, hp3⟩
      exact h p ((hmemf p).mpr ⟨hp1, hp2, hp3⟩)
    · intro h p hm
      exact h ⟨p, (hmemf p).mp hm⟩
  by_cases he : (prods.filter
      (fun p => !(d == 1 && hasRefs p.mAtoms) && ctx.hasSet p.mCtxReq)).isEmpty = true
  · rw [if_pos he]
    by_cases hs : prods.any (fun p => d == 1 && hasRefs p.mAtoms) = true
    · rw [if_pos hs]
      refine ⟨?_, ?_, ?_, ?_⟩
      · intro l hl; exact absurd hl (by simp)
      · constructor
        · rintro ⟨l, hl⟩; exact absurd hl (by simp)
        · intro hex; exact absurd hex (hemp.mp he)
      · constructor
        · intro _; exact ⟨hemp.mp he, hskip.mp hs⟩
        · intro _; rfl
      · constructor
        · intro hc; exact absurd hc (by simp)
        · rintro ⟨-, hns⟩; exact absurd (hskip.mp hs) hns
    · rw [if_neg hs]
      refine ⟨?_, ?_, ?_, ?_⟩
      · intro l hl; exact absurd hl (by simp)
      · constructor
        · rintro ⟨l, hl⟩; exact absurd hl (by simp)
        · intro hex; exact absurd hex (hemp.mp he)
      · constructor
        · intro hc; exact absurd hc (by simp)
        · rintro ⟨-, hsk⟩; exact absurd (hskip.mpr hsk) hs
      · constructor
        · intro _
          refine ⟨hemp.mp he, fun hsk => hs (hskip.mpr hsk)⟩
        · intro _; rfl
  · rw [if_neg he]
    refine ⟨?_, ?_, ?_, ?_⟩
    · intro l hl
      simp only [Except.ok.injEq] at hl
      subst hl
      exact ⟨List.filter_sublist _, hmemf⟩
    · constructor
      · rintro ⟨l, -⟩
        by_contra hno
        exact he (hemp.mpr hno)
      · intro _; exact ⟨_, rfl⟩
    · constructor
      · intro hc; exact absurd hc (by simp)
      · rintro ⟨hno, -⟩; exact absurd (hemp.mpr hno) he
    · constructor
      · intro hc; exact absurd hc (by simp)
      · rintro ⟨hno, -⟩; exact absurd (hemp.mpr hno) he

/-- Witness: a one-rule grammar whose only productions are a `Ref` at
depth limit 1 (skipped) and a literal whose context requirement is unmet:
the needs-a-nonterminal error fires. -/
theorem getActiveProductions_spec_witness :
    (Grammar.mk [("R", [Production.mk [Atom.ref "R" []] [],
        Production.mk [Atom.lit (Value.int64 1)] ["c"]])]).getActiveProductions
      "R" 1 (Context.mk [] []) = .error (.needsNonterminal "R") := by
  have h := getActiveProductions_spec
    (Grammar.mk [("R", [Production.mk [Atom.ref "R" []] [],
        Production.mk [Atom.lit (Value.int64 1)] ["c"]])])
    "R" 1 (Context.mk [] [])
    [Production.mk [Atom.ref "R" []] [],
      Production.mk [Atom.lit (Value.int64 1)] ["c"]] rfl
  refine h.2.2.1.mpr ⟨?_, ?_⟩
  · rintro ⟨p, hm, hcs, hd⟩
    simp only [List.mem_cons, List.not_mem_nil, or_false] at hm
    rcases hm with rfl | rfl
    · exact absurd (hd rfl) (by decide)
    · exact absurd hcs (by decide)
  · exact ⟨Production.mk [Atom.ref "R" []] [], by simp, rfl, rfl⟩

/-! ### `extendByCycling` (grammar.cpp) -/

/-- The `while (!(cycledI && cycledJ))` loop of `extendByCycling`
(`std::set<std::vector<Value>>` overload): the state is the two iterator
positions and the two wrapped flags; each step emits `*i` extended by
`*j`, advances both iterators, and wraps an iterator that reached its
set's end, recording the wrap in its flag.  `fuel` bounds the iteration;
callers pass enough for the loop to finish. -/
def cycleSteps (vecs : List (List Value)) (ext : List Value) :
    Nat → Nat → Nat → Bool → Bool → List (List Value)
  | 0, _, _, _, _ => []
  | fuel + 1, i, j, cI, cJ =>
    if cI && cJ then []
    else
      let tmp := vecs.getD i [] ++ [ext.getD j Value.nil]
      let pI := if i + 1 = vecs.length then (0, true) else (i + 1, cI)
      let pJ := if j + 1 = ext.length then (0, true) else (j + 1, cJ)
      tmp :: cycleSteps vecs ext fuel pI.1 pJ.1 pI.2 pJ.2

/-- `extendByCycling` on sets-as-nodup-lists: run the loop from the two
`begin()` iterators and collect the emitted tuples as a set (`res` is a
`std::set`, so duplicates collapse; emission order stands in for the
set's value order, on which no counted property depends). -/
def extendByCycling (vecs : List (List Value)) (ext : List Value) :
    List (List Value) :=
  (cycleSteps vecs ext (vecs.length + ext.length) 0 0 false false).dedup

/-- After `s` loop steps the iterators sit at `s` modulo each set's size
and a flag is set iff its iterator has wrapped, so the remaining emission
is one tuple per step index from `s` up to `max |vecs| |ext|`. -/
theorem cycleSteps_closed (vecs : List (List Value)) (ext : List Value)
    (hv : vecs ≠ []) (he : ext ≠ []) :
    ∀ (fuel s : Nat), max vecs.length ext.length ≤ s + fuel →
      cycleSteps vecs ext fuel (s % vecs.length) (s % ext.length)
          (decide (vecs.length ≤ s)) (decide (ext.length ≤ s)) =
        ((List.range (max vecs.length ext.length)).drop s).map
          (fun t => vecs.getD (t % vecs.length) [] ++
            [ext.getD (t % ext.length) Value.nil]) := by
  have hnpos : 0 < vecs.length := List.length_pos.mpr hv
  have hmpos : 0 < ext.length := List.length_pos.mpr he
  intro fuel
  induction fuel with
  | zero =>
    intro s hs
    rw [cycleSteps, List.drop_eq_nil_of_le (by simpa using hs), List.map_nil]
  | succ f ih =>
    intro s hs
    by_cases hstop : max vecs.length ext.length ≤ s
    · rw [cycleSteps]
      rw [if_pos (by
        rw [Bool.and_eq_true, decide_eq_true_eq, decide_eq_true_eq]
        exact ⟨le_trans (le_max_left _ _) hstop,
          le_trans (le_max_right _ _) hstop⟩)]
      rw [List.drop_eq_nil_of_le (by simpa using hstop), List.map_nil]
    · push_neg at hstop
      rw [cycleSteps]
      rw [if_neg (by
        rw [Bool.and_eq_true, decide_eq_true_eq, decide_eq_true_eq]
        rintro ⟨h1, h2⟩
        exact absurd (max_le h1 h2) (not_le.mpr hstop))]
      dsimp only
      have hI : (if s % vecs.length + 1 = vecs.length then ((0 : Nat), true)
            else (s % vecs.length + 1, decide (vecs.length ≤ s))) =
          ((s + 1) % vecs.length, decide (vecs.length ≤ s + 1)) := by
        by_cases hw : s % vecs.length + 1 = vecs.length
        · rw [if_pos hw]
          have h1 : (s + 1) % vecs.length = 0 := by
            rw [← Nat.mod_add_mod, hw, Nat.mod_self]
          have h2 : vecs.length ≤ s + 1 := by
            have := Nat.mod_le s vecs.length
            omega
          rw [h1]
          simp [h2]
        · rw [if_neg hw]
          have h1 : (s + 1) % vecs.length = s % vecs.length + 1 := by
            rw [← Nat.mod_add_mod]
            exact Nat.mod_eq_of_lt (by have := Nat.mod_lt s hnpos; omega)
          have hsne : s + 1 ≠ vecs.length := by
            intro heq
            exact hw (by rw [Nat.mod_eq_of_lt (by omega), heq])
          have h2 : decide (vecs.length ≤ s) = decide (vecs.length ≤ s + 1) := by
            rw [decide_eq_decide]
            omega
          rw [h1, h2]
      have hJ : (if s % ext.length + 1 = ext.length then ((0 : Nat), true)
            else (s % ext.length + 1, decide (ext.length ≤ s))) =
          ((s + 1) % ext.length, decide (ext.length ≤ s + 1)) := by
        by_cases hw : s % ext.length + 1 = ext.length
        · rw [if_pos hw]
          have h1 : (s + 1) % ext.length = 0 := by
            rw [← Nat.mod_add_mod, hw, Nat.mod_self]
          have h2 : ext.length ≤ s + 1 := by
            have := Nat.mod_le s ext.length
            omega
          rw [h1]
          simp [h2]
        · rw [if_neg hw]
          have h1 : (s + 1) % ext.length = s % ext.length + 1 := by
            rw [← Nat.mod_add_mod]
            exact Nat.mod_eq_of_lt (by have := Nat.mod_lt s hmpos; omega)
          have hsne : s + 1 ≠ ext.length := by
            intro heq
            exact hw (by rw [Nat.mod_eq_of_lt (by omega), heq])
          have h2 : decide (ext.length ≤ s) = decide (ext.length ≤ s + 1) := by
            rw [decide_eq_decide]
            omega
          rw [h1, h2]
      rw [hI, hJ]
      rw [ih (s + 1) (by omega)]
      conv_rhs => rw [List.drop_eq_getElem_cons
        (show s < (List.range (max vecs.length ext.length)).length by
          rw [List.length_range]; exact hstop)]
      rw [List.map_cons, List.getElem_range]

/-- The emitted tuples are pairwise distinct: the step index is recovered
from the tuple via the two set indices and the Chinese-remainder bound
`max ≤ lcm`. -/
theorem cycleTuples_nodup (vecs : List (List Value)) (ext : List Value)
    (hv : vecs ≠ []) (he : ext ≠ [])
    (hnv : vecs.Nodup) (hne : ext.Nodup) :
    (((List.range (max vecs.length ext.length)).map
      (fun t => vecs.getD (t % vecs.length) [] ++
        [ext.getD (t % ext.length) Value.nil]))).Nodup := by
  have hnpos : 0 < vecs.length := List.length_pos.mpr hv
  have hmpos : 0 < ext.length := List.length_pos.mpr he
  have key : ∀ a b : Nat, a ≤ b → b < max vecs.length ext.length →
      a % vecs.length = b % vecs.length → a % ext.length = b % ext.length →
      a = b := by
    intro a b hab hbmax h1 h2
    by_contra hne2
    have d1 : vecs.length ∣ b - a := (Nat.modEq_iff_dvd' hab).mp h1
    have d2 : ext.length ∣ b - a := (Nat.modEq_iff_dvd' hab).mp h2
    have dl : Nat.lcm vecs.length ext.length ∣ b - a := Nat.lcm_dvd d1 d2
    have h5 := Nat.le_of_dvd (by omega) dl
    have h3 : vecs.length ≤ Nat.lcm vecs.length ext.length :=
      Nat.le_of_dvd (Nat.lcm_pos hnpos hmpos) (Nat.dvd_lcm_left _ _)
    have h4 : ext.length ≤ Nat.lcm vecs.length ext.length :=
      Nat.le_of_dvd (Nat.lcm_pos hnpos hmpos) (Nat.dvd_lcm_right _ _)
    omega
  refine List.Nodup.map_on ?_ (List.nodup_range _)
  intro t1 h1 t2 h2 heq
  rw [List.mem_range] at h1 h2
  obtain ⟨hveq, hext⟩ := List.append_inj' heq rfl
  have hvi : t1 % vecs.length = t2 % vecs.length := by
    have g1 : t1 % vecs.length < vecs.length := Nat.mod_lt _ hnpos
    have g2 : t2 % vecs.length < vecs.length := Nat.mod_lt _ hnpos
    rw [List.getD_eq_getElem vecs [] g1, List.getD_eq_getElem vecs [] g2] at hveq
    exact (List.Nodup.getElem_inj_iff hnv).mp hveq
  have hei : t1 % ext.length = t2 % ext.length := by
    have g1 : t1 % ext.length < ext.length := Nat.mod_lt _ hmpos
    have g2 : t2 % ext.length < ext.length := Nat.mod_lt _ hmpos
    rw [List.cons.injEq] at hext
    rw [List.getD_eq_getElem ext Value.nil g1,
      List.getD_eq_getElem ext Value.nil g2] at hext
    exact (List.Nodup.getElem_inj_iff hne).mp hext.1
  rcases le_total t1 t2 with hle | hle
  · exact key t1 t2 hle h2 hvi hei
  · exact (key t2 t1 hle h1 hvi.symm hei.symm).symm

/-- C5: for non-empty inputs (as the asserts require) the cyclical zip
emits exactly `max` of the two set sizes distinct tuples — hence at least
the max, at most the sum, and strictly fewer than the full Cartesian
product whenever both sets have two or more elements — and every result
is some step's prefix-plus-extension tuple. -/
theorem extendByCycling_count (vecs : List (List Value)) (ext : List Value)
    (hv : vecs ≠ []) (he : ext ≠ [])
    (hnv : vecs.Nodup) (hne : ext.Nodup) :
    (extendByCycling vecs ext).length = max vecs.length ext.length ∧
    (extendByCycling vecs ext).length ≤ vecs.length + ext.length ∧
    (2 ≤ vecs.length → 2 ≤ ext.length →
      (extendByCycling vecs ext).length < vecs.length * ext.length) ∧
    (∀ l, l ∈ extendByCycling vecs ext ↔
      ∃ t, t < max vecs.length ext.length ∧
        l = vecs.getD (t % vecs.length) [] ++
          [ext.getD (t % ext.length) Value.nil]) := by
  have hnpos : 0 < vecs.length := List.length_pos.mpr hv
  have hmpos : 0 < ext.length := List.length_pos.mpr he
  have hrun := cycleSteps_closed vecs ext hv he (vecs.length + ext.length) 0
    (by omega)
  rw [Nat.zero_mod, Nat.zero_mod, List.drop_zero,
    decide_eq_false (by omega), decide_eq_false (by omega)] at hrun
  have hclosed : extendByCycling vecs ext =
      ((List.range (max vecs.length ext.length)).map
        (fun t => vecs.getD (t % vecs.length) [] ++
          [ext.getD (t % ext.length) Value.nil])) := by
    rw [extendByCycling, hrun,
      List.dedup_eq_self.mpr (cycleTuples_nodup vecs ext hv he hnv hne)]
  rw [hclosed]
  have hlen : (((List.range (max vecs.length ext.length)).map
      (fun t => vecs.getD (t % vecs.length) [] ++
        [ext.getD (t % ext.length) Value.nil]))).length =
      max vecs.length ext.length := by
    rw [List.length_map, List.length_range]
  refine ⟨hlen, by rw [hlen]; omega, ?_, ?_⟩
  · intro h2 h3
    rw [hlen]
    rcases max_cases vecs.length ext.length with ⟨heq, -⟩ | ⟨heq, -⟩ <;>
      rw [heq]
    · exact (Nat.lt_mul_iff_one_lt_right (by omega)).mpr (by omega)
    · exact (Nat.lt_mul_iff_one_lt_left (by omega)).mpr (by omega)
  · intro l
    rw [List.mem_map]
    constructor
    · rintro ⟨t, ht, rfl⟩
      exact ⟨t, List.mem_range.mp ht, rfl⟩
    · rintro ⟨t, ht, rfl⟩
      exact ⟨t, List.mem_range.mpr ht, rfl⟩

/-- Witness: two prefixes cycled against three extension values give
exactly `max 2 3 = 3` tuples — fewer than the sum `5` and the product `6`. -/
theorem extendByCycling_count_witness :
    (extendByCycling [[Value.int64 1], [Value.int64 2]]
      [Value.int64 3, Value.int64 4, Value.int64 5]).length = 3 ∧
    (extendByCycling [[Value.int64 1], [Value.int64 2]]
      [Value.int64 3, Value.int64 4, Value.int64 5]).length < 6 := by
  have h := extendByCycling_count [[Value.int64 1], [Value.int64 2]]
    [Value.int64 3, Value.int64 4, Value.int64 5]
    (by simp) (by simp) (by simp) (by simp)
  constructor
  · rw [h.1]
    simp
  · have h2 := h.2.2.1 (by simp) (by simp)
    simpa using h2

/-! ### `kPathCoveringOrMinimalExpansion` (grammar.cpp) -/

/-- A k-path: a sequence of grammar atoms (refs, with a literal possibly
last) connected along grammar edges. -/
abbrev KPath := List Atom

/-- `Context::push(std::set<ParamName>)`: push every name of the set on
the local stack. -/
def Context.pushList (ctx : Context) (ps : List String) : Context :=
  { ctx with mLocalParamNames := ctx.mLocalParamNames ++ ps }

/-- The recursive interface of `kPathCoveringOrMinimalExpansion`: from the
extended ref path, the context, and the remaining k-path set, produce the
covering set, the non-covering set, and the updated k-path set. -/
abbrev CovFn := List Atom → Context → List KPath →
  Except GErr (List Value × List Value × List KPath)

/-- The first per-production loop: try each atom in order as a one-step
extension of the current `k-1`-suffix `kpath`; report the first extension
found in `paths` (the production then counts as covering and that k-path
is erased). -/
def coversKPath (kpath : KPath) (paths : List KPath) : List Atom → Option KPath
  | [] => none
  | a :: rest =>
    if paths.contains (kpath ++ [a]) then some (kpath ++ [a])
    else coversKPath kpath paths rest

/-- The per-atom body of the second loop: a `Lit` expands to its value; a
`Ref` recurses on the extended path with the extended context and uses the
sub-covering set if non-empty (marking the production covering), else the
sub-non-covering set. -/
def atomExpansionStep (recur : CovFn) (path : List Atom) (ctx : Context)
    (paths : List KPath) : Atom → Except GErr (List Value × Bool × List KPath)
  | .lit v => .ok ([v], false, paths)
  | .ref r ce =>
    match recur (path ++ [Atom.ref r ce]) (ctx.pushList ce) paths with
    | .error e => .error e
    | .ok (subCov, subNon, paths2) =>
      if subCov.isEmpty then .ok (subNon, false, paths2)
      else .ok (subCov, true, paths2)

/-- The second per-production loop: expand each atom and fold the
expansions into the prefix set by cyclical zip, accumulating the covering
flag and threading the k-path set. -/
def atomsLoop (recur : CovFn) (path : List Atom) (ctx : Context) :
    List Atom → List (List Value) → Bool → List KPath →
    Except GErr (List (List Value) × Bool × List KPath)
  | [], prefixes, covers, paths => .ok (prefixes, covers, paths)
  | a :: rest, prefixes, covers, paths =>
    match atomExpansionStep recur path ctx paths a with
    | .error e => .error e
    | .ok (ext, cov2, paths2) =>
      atomsLoop recur path ctx rest (extendByCycling prefixes ext)
        (covers || cov2) paths2

/-- One production of the outer loop: check the k-path hit (erasing a hit
from the set), then run the atom loop from the singleton prefix
`{{Value(rule)}}`. -/
def prodStep (recur : CovFn) (path : List Atom) (ctx : Context)
    (rule : String) (kpath : KPath) (prod : Production) (paths : List KPath) :
    Except GErr (List (List Value) × Bool × List KPath) :=
  match coversKPath kpath paths prod.mAtoms with
  | some kp => atomsLoop recur path ctx prod.mAtoms [[Value.sym rule]] true
      (paths.erase kp)
  | none => atomsLoop recur path ctx prod.mAtoms [[Value.sym rule]] false paths

/-- The outer loop over active productions: each production's prefixes,
read back as `Value` chains, are added to the covering or non-covering
result set according to its covering flag. -/
def prodsLoop (recur : CovFn) (path : List Atom) (ctx : Context)
    (rule : String) (kpath : KPath) :
    List Production → List Value → List Value → List KPath →
    Except GErr (List Value × List Value × List KPath)
  | [], cov, noncov, paths => .ok (cov, noncov, paths)
  | p :: rest, cov, noncov, paths =>
    match prodStep recur path ctx rule kpath p paths with
    | .error e => .error e
    | .ok (prefixes, covers, paths2) =>
      if covers then
        prodsLoop recur path ctx rule kpath rest
          (setInsertAll vcmp cov (prefixes.map Value.ofList)) noncov paths2
      else
        prodsLoop recur path ctx rule kpath rest cov
          (setInsertAll vcmp noncov (prefixes.map Value.ofList)) paths2

/-- `kPathCoveringOrMinimalExpansion` up to (but not including) the final
normalization of the two result sets: take the `k-1`-suffix of the ref
path, fetch the anchor rule's active productions at the current depth
limit, and run the production loop from two empty sets.  The anchor of the
path is a `Ref` (asserted in the code). -/
def covExpCore (g : Grammar) (k : Nat) (recur : CovFn) (d1 : Nat) :
    CovFn := fun path ctx paths =>
  match path.getLast? with
  | none => .error .assertFail
  | some (.lit _) => .error .assertFail
  | some (.ref rule _) =>
    let kpath : KPath :=
      if k - 1 ≤ path.length then path.drop (path.length - (k - 1)) else []
    match g.getActiveProductions rule d1 ctx with
    | .error e => .error e
    | .ok prods => prodsLoop recur path ctx rule kpath prods [] [] paths

/-- `kPathCoveringOrMinimalExpansion`: guard the depth limit, run the
production loop, then normalize — a non-empty covering set clears the
non-covering set, and an empty one reduces the non-covering set to its
first (smallest) element. -/
def covExp (g : Grammar) (k : Nat) : Nat → CovFn
  | 0, _, _, _ => .error .depthZero
  | d + 1, path, ctx, paths =>
    match covExpCore g k (covExp g k d) (d + 1) path ctx paths with
    | .error e => .error e
    | .ok (cov, noncov, paths2) =>
      if cov.isEmpty then .ok (cov, noncov.take 1, paths2)
      else .ok (cov, [], paths2)

/-- A successful `getActiveProductions` never returns an empty list. -/
theorem getActive_ok_ne {g : Grammar} {rule : String} {d : Nat}
    {ctx : Context} {l : List Production}
    (h : g.getActiveProductions rule d ctx = .ok l) : l ≠ [] := by
  rw [Grammar.getActiveProductions] at h
  cases hp : g.getProductions rule with
  | error e => rw [hp] at h; exact absurd h (by simp)
  | ok prods =>
    rw [hp] at h
    dsimp only at h
    by_cases he : (prods.filter fun p =>
        !(d == 1 && hasRefs p.mAtoms) && ctx.hasSet p.mCtxReq).isEmpty = true
    · rw [if_pos he] at h
      by_cases hs : prods.any (fun p => d == 1 && hasRefs p.mAtoms) = true
      · rw [if_pos hs] at h; exact absurd h (by simp)
      · rw [if_neg hs] at h; exact absurd h (by simp)
    · rw [if_neg he] at h
      simp only [Except.ok.injEq] at h
      subst h
      intro hnil
      rw [hnil] at he
      exact he rfl

/-- The cyclical zip of non-empty sets is non-empty. -/
theorem extendByCycling_ne_nil (vecs : List (List Value)) (ext : List Value)
    (hv : vecs ≠ []) (he : ext ≠ []) : extendByCycling vecs ext ≠ [] := by
  rw [extendByCycling]
  have h1 : 0 < vecs.length := List.length_pos.mpr hv
  have h2 : 0 < ext.length := List.length_pos.mpr he
  obtain ⟨f, hf⟩ : ∃ f, vecs.length + ext.length = f + 1 :=
    ⟨vecs.length + ext.length - 1, by omega⟩
  rw [hf, cycleSteps]
  rw [if_neg (by simp)]
  simp [List.dedup_eq_nil]

/-- Inserting a non-empty batch, or into a non-empty set, cannot empty it. -/
theorem setInsertAll_ne_nil {α : Type} {cmp : α → α → Ordering} :
    ∀ (xs s : List α), (s ≠ [] ∨ xs ≠ []) → setInsertAll cmp s xs ≠ []
  | [], s, h => by
    rcases h with h | h
    · exact h
    · exact absurd rfl h
  | x :: xs, s, _ => by
    rw [setInsertAll, List.foldl_cons]
    exact setInsertAll_ne_nil xs (setInsert cmp x s)
      (Or.inl (setInsert_ne_nil x s))

/-- The recursive postcondition assumed of the sub-expansion call: a
successful call never returns two empty sets. -/
def CovNE (recur : CovFn) : Prop :=
  ∀ p c ps cov non ps2, recur p c ps = .ok (cov, non, ps2) →
    ¬(cov = [] ∧ non = [])

/-- An atom's expansion is never empty (given the recursive
postcondition). -/
theorem atomExpansionStep_ne {recur : CovFn} (Hrec : CovNE recur)
    {path : List Atom} {ctx : Context} {paths : List KPath} {a : Atom}
    {ext : List Value} {c2 : Bool} {paths2 : List KPath}
    (h : atomExpansionStep recur path ctx paths a = .ok (ext, c2, paths2)) :
    ext ≠ [] := by
  cases a with
  | lit v =>
    rw [atomExpansionStep] at h
    simp only [Except.ok.injEq, Prod.mk.injEq] at h
    rw [← h.1]
    simp
  | ref r ce =>
    rw [atomExpansionStep] at h
    cases hr : recur (path ++ [Atom.ref r ce]) (ctx.pushList ce) paths with
    | error e => rw [hr] at h; exact absurd h (by simp)
    | ok t =>
      obtain ⟨sc, sn, p2⟩ := t
      rw [hr] at h
      dsimp only at h
      by_cases hsc : sc.isEmpty = true
      · rw [if_pos hsc] at h
        simp only [Except.ok.injEq, Prod.mk.injEq] at h
        have := Hrec _ _ _ _ _ _ hr
        rw [← h.1]
        intro hsn
        exact this ⟨by rwa [List.isEmpty_iff] at hsc, hsn⟩
      · rw [if_neg hsc] at h
        simp only [Except.ok.injEq, Prod.mk.injEq] at h
        rw [← h.1]
        intro he
        exact hsc (by rw [he]; rfl)

/-- The atom loop preserves a non-empty prefix set. -/
theorem atomsLoop_ne {recur : CovFn} (Hrec : CovNE recur)
    {path : List Atom} {ctx : Context} :
    ∀ (atoms : List Atom) (prefixes : List (List Value)) (covers : Bool)
      (paths : List KPath) (res : List (List Value) × Bool × List KPath),
      prefixes ≠ [] →
      atomsLoop recur path ctx atoms prefixes covers paths = .ok res →
      res.1 ≠ []
  | [], prefixes, covers, paths, res, hne, h => by
    rw [atomsLoop] at h
    simp only [Except.ok.injEq] at h
    rw [← h]
    exact hne
  | a :: rest, prefixes, covers, paths, res, hne, h => by
    rw [atomsLoop] at h
    cases hs : atomExpansionStep recur path ctx paths a with
    | error e => rw [hs] at h; exact absurd h (by simp)
    | ok t =>
      obtain ⟨ext, c2, paths2⟩ := t
      rw [hs] at h
      dsimp only at h
      exact atomsLoop_ne Hrec rest _ _ _ res
        (extendByCycling_ne_nil _ _ hne (atomExpansionStep_ne Hrec hs)) h

/-- A production step always produces a non-empty prefix set. -/
theorem prodStep_ne {recur : CovFn} (Hrec : CovNE recur)
    {path : List Atom} {ctx : Context} {rule : String} {kpath : KPath}
    {prod : Production} {paths : List KPath}
    {res : List (List Value) × Bool × List KPath}
    (h : prodStep recur path ctx rule kpath prod paths = .ok res) :
    res.1 ≠ [] := by
  rw [prodStep] at h
  cases hc : coversKPath kpath paths prod.mAtoms with
  | none =>
    rw [hc] at h
    exact atomsLoop_ne Hrec _ _ _ _ _ (by simp) h
  | some kp =>
    rw [hc] at h
    exact atomsLoop_ne Hrec _ _ _ _ _ (by simp) h

/-- The production loop ends with at least one non-empty set as soon as it
has one production to process or starts from a non-empty set, and keeps
both sets sorted. -/
theorem prodsLoop_post {recur : CovFn} (Hrec : CovNE recur)
    {path : List Atom} {ctx : Context} {rule : String} {kpath : KPath} :
    ∀ (prods : List Production) (cov noncov : List Value)
      (paths : List KPath) (res : List Value × List Value × List KPath),
      prodsLoop recur path ctx rule kpath prods cov noncov paths = .ok res →
      CmpSorted vcmp cov → CmpSorted vcmp noncov →
      ((prods ≠ [] ∨ cov ≠ [] ∨ noncov ≠ []) → ¬(res.1 = [] ∧ res.2.1 = [])) ∧
        CmpSorted vcmp res.1 ∧ CmpSorted vcmp res.2.1
  | [], cov, noncov, paths, res, h, hsc, hsn => by
    rw [prodsLoop] at h
    simp only [Except.ok.injEq] at h
    subst h
    refine ⟨?_, hsc, hsn⟩
    rintro (hne | hne | hne) ⟨h1, h2⟩
    · exact hne rfl
    · exact hne h1
    · exact hne h2
  | p :: rest, cov, noncov, paths, res, h, hsc, hsn => by
    rw [prodsLoop] at h
    cases hs : prodStep recur path ctx rule kpath p paths with
    | error e => rw [hs] at h; exact absurd h (by simp)
    | ok t =>
      obtain ⟨prefixes, covers, paths2⟩ := t
      rw [hs] at h
      dsimp only at h
      have hpne : prefixes ≠ [] := prodStep_ne Hrec hs
      have hmapne : prefixes.map Value.ofList ≠ [] := by
        intro he
        exact hpne (List.map_eq_nil_iff.mp he)
      cases covers with
      | true =>
        rw [if_pos rfl] at h
        have hrec := prodsLoop_post Hrec rest _ _ _ res h
          (sorted_setInsertAll vcmp_isCmp _ _ hsc) hsn
        refine ⟨fun _ => hrec.1 ?_, hrec.2⟩
        exact Or.inr (Or.inl (setInsertAll_ne_nil _ _ (Or.inr hmapne)))
      | false =>
        rw [if_neg (by simp)] at h
        have hrec := prodsLoop_post Hrec rest _ _ _ res h hsc
          (sorted_setInsertAll vcmp_isCmp _ _ hsn)
        refine ⟨fun _ => hrec.1 ?_, hrec.2⟩
        exact Or.inr (Or.inr (setInsertAll_ne_nil _ _ (Or.inr hmapne)))

/-- The pre-normalization expansion never returns two empty sets, and
returns them sorted. -/
theorem covExpCore_post {g : Grammar} {k : Nat} {recur : CovFn}
    (Hrec : CovNE recur) {d1 : Nat} {path : List Atom} {ctx : Context}
    {paths : List KPath} {cov non : List Value} {p2 : List KPath}
    (h : covExpCore g k recur d1 path ctx paths = .ok (cov, non, p2)) :
    ¬(cov = [] ∧ non = []) ∧ CmpSorted vcmp cov ∧ CmpSorted vcmp non := by
  rw [covExpCore] at h
  cases hl : path.getLast? with
  | none => rw [hl] at h; exact absurd h (by simp)
  | some a =>
    cases a with
    | lit v => rw [hl] at h; exact absurd h (by simp)
    | ref rule ce =>
      rw [hl] at h
      dsimp only at h
      cases ha : g.getActiveProductions rule d1 ctx with
      | error e => rw [ha] at h; exact absurd h (by simp)
      | ok prods =>
        rw [ha] at h
        dsimp only at h
        have hpost := prodsLoop_post Hrec prods [] [] paths (cov, non, p2) h
          (by rw [CmpSorted]; exact List.Pairwise.nil)
          (by rw [CmpSorted]; exact List.Pairwise.nil)
        exact ⟨hpost.1 (Or.inl (getActive_ok_ne ha)), hpost.2⟩

/-- A successful `kPathCoveringOrMinimalExpansion` never returns two empty
sets (the function's final assertion). -/
theorem covExp_ne (g : Grammar) (k : Nat) :
    ∀ (d : Nat), CovNE (covExp g k d) := by
  intro d
  induction d with
  | zero =>
    intro p c ps cov non ps2 h
    rw [covExp] at h
    exact absurd h (by simp)
  | succ d ih =>
    intro p c ps cov non ps2 h
    rw [covExp] at h
    cases hc : covExpCore g k (covExp g k d) (d + 1) p c ps with
    | error e => rw [hc] at h; exact absurd h (by simp)
    | ok t =>
      obtain ⟨cov0, non0, p0⟩ := t
      rw [hc] at h
      dsimp only at h
      have hpost := covExpCore_post ih hc
      by_cases he : cov0.isEmpty = true
      · rw [if_pos he] at h
        simp only [Except.ok.injEq, Prod.mk.injEq] at h
        obtain ⟨h1, h2, -⟩ := h
        have hc0 : cov0 = [] := by rwa [List.isEmpty_iff] at he
        have hn0 : non0 ≠ [] := fun hn => hpost.1 ⟨hc0, hn⟩
        rintro ⟨-, hnon⟩
        rw [← h2] at hnon
        cases hq : non0 with
        | nil => exact hn0 hq
        | cons a l => rw [hq] at hnon; simp at hnon
      · rw [if_neg he] at h
        simp only [Except.ok.injEq, Prod.mk.injEq] at h
        rintro ⟨h1, -⟩
        rw [← h.1] at h1
        exact he (by rw [h1]; rfl)

/-- C6: after all active productions are processed (the pre-normalization
run `covExpCore` returning covering set `cov0` and non-covering set
`non0`), the returned pair is `(cov0, ∅)` when `cov0` is non-empty, and
otherwise `(∅, {m})` where `m` is the smallest element of `non0` in
`Value` order; in every case at least one returned set is non-empty. -/
theorem covExp_post (g : Grammar) (k d : Nat) (path : List Atom)
    (ctx : Context) (paths : List KPath) (cov0 non0 : List Value)
    (p0 : List KPath)
    (hc : covExpCore g k (covExp g k d) (d + 1) path ctx paths =
      .ok (cov0, non0, p0)) :
    (cov0 ≠ [] → covExp g k (d + 1) path ctx paths = .ok (cov0, [], p0)) ∧
    (cov0 = [] → ∃ m, covExp g k (d + 1) path ctx paths = .ok ([], [m], p0) ∧
      m ∈ non0 ∧ ∀ x ∈ non0, x = m ∨ vcmp m x = .lt) ∧
    ¬(cov0 = [] ∧ non0 = []) := by
  have hpost := covExpCore_post (covExp_ne g k d) hc
  refine ⟨?_, ?_, hpost.1⟩
  · intro hne
    rw [covExp, hc]
    dsimp only
    rw [if_neg (by
      cases hq : cov0 with
      | nil => exact absurd hq hne
      | cons a l => simp)]
  · intro hnil
    subst hnil
    have hn0 : non0 ≠ [] := fun hn => hpost.1 ⟨rfl, hn⟩
    cases hq : non0 with
    | nil => exact absurd hq hn0
    | cons m l =>
      refine ⟨m, ?_, by simp [hq], ?_⟩
      · rw [covExp, hc]
        dsimp only
        rw [hq]
        simp
      · intro x hx
        have hsorted := hpost.2.2
        rw [hq] at hsorted
        rcases sorted_head_min hsorted x hx with h1 | h1
        · exact Or.inl h1
        · exact Or.inr h1

/-- Witness: a one-production grammar with no k-paths left to cover — the
covering set is empty, so the result keeps exactly the single smallest
non-covering expansion `(R 1)`. -/
theorem covExp_post_witness :
    covExp (Grammar.mk [("R", [Production.mk [Atom.lit (Value.int64 1)] []])])
      2 2 [Atom.ref "R" []] (Context.mk [] []) [] =
      .ok ([], [Value.pr (Value.sym "R") [Value.int64 1]], []) := by
  have h := covExp_post
    (Grammar.mk [("R", [Production.mk [Atom.lit (Value.int64 1)] []])])
    2 1 [Atom.ref "R" []] (Context.mk [] []) []
    [] [Value.pr (Value.sym "R") [Value.int64 1]] [] rfl
  obtain ⟨-, h2, -⟩ := h
  obtain ⟨m, hm, hmem, -⟩ := h2 rfl
  have hme : m = Value.pr (Value.sym "R") [Value.int64 1] := by
    simpa using hmem
  rw [hme] at hm
  exact hm

/-! ### `randomValueFromRule` (grammar.cpp) -/

/-- The recursive interface of `randomValueFromRule`: rule name, random
stream position and context to a value and the advanced position. -/
abbrev RandFn := String → Nat → Context → Except GErr (Value × Nat)

/-- The atom loop of `randomValueFromRule`: literals append their value,
refs recurse (with the context extended) and append the produced value.
The random stream position threads through. -/
def randAtomsLoop (recur : RandFn) (ctx : Context) :
    List Atom → List Value → Nat → Except GErr (List Value × Nat)
  | [], vals, pos => .ok (vals, pos)
  | .lit v :: rest, vals, pos => randAtomsLoop recur ctx rest (vals ++ [v]) pos
  | .ref r ce :: rest, vals, pos =>
    match recur r pos (ctx.pushList ce) with
    | .error e => .error e
    | .ok (val, pos2) => randAtomsLoop recur ctx rest (vals ++ [val]) pos2

/-- `Grammar::randomValueFromRule`: throw at depth limit zero, fetch the
active productions, pick one uniformly (`pickUniform` — the engine is
modelled as a stream `gen` of draws, `gen pos % size` standing for the
uniform draw), expand its atoms, and wrap the collected values in a pair
chain headed by the rule symbol. -/
def randomValueFromRule (g : Grammar) (gen : Nat → Nat) :
    Nat → RandFn
  | 0, _, _, _ => .error .depthZero
  | dl + 1, rule, pos, ctx =>
    match g.getActiveProductions rule (dl + 1) ctx with
    | .error e => .error e
    | .ok prods =>
      let prod := prods.getD (gen pos % prods.length) (Production.mk [] [])
      match randAtomsLoop (randomValueFromRule g gen dl) ctx prod.mAtoms
          [Value.sym rule] (pos + 1) with
      | .error e => .error e
      | .ok (vals, pos2) => .ok (Value.ofList vals, pos2)

/-- The claim's reading of "minimal derivation depth", written from the
spec's words: `R` has a derivation tree of depth at most `d` — some
production whose context requirement holds has all its refs derivable
one level lower. -/
def canDerive (g : Grammar) (ctx : Context) : Nat → String → Bool
  | 0, _ => false
  | d + 1, rule =>
    match g.mRules.find? (fun q => q.1 == rule) with
    | none => false
    | some (_, prods) =>
      prods.any fun p => ctx.hasSet p.mCtxReq &&
        p.mAtoms.all fun a =>
          match a with
          | .lit _ => true
          | .ref r ce => canDerive g (ctx.pushList ce) d r

/-- The depth bound under which every random choice succeeds: the active
productions resolve (which at depth limit 1 already excludes productions
with refs) and every ref of every active production is again safe one
level lower. -/
def SafeAt (g : Grammar) : Nat → Context → String → Prop
  | 0, _, _ => False
  | d + 1, ctx, rule =>
    ∃ prods, g.getActiveProductions rule (d + 1) ctx = .ok prods ∧
      ∀ p ∈ prods, ∀ a ∈ p.mAtoms, ∀ r ce, a = Atom.ref r ce →
        SafeAt g d (ctx.pushList ce) r

/-- The atom loop succeeds and extends the accumulator when every ref of
the atoms succeeds at every stream position. -/
theorem randAtomsLoop_ok {recur : RandFn} {ctx : Context} :
    ∀ (atoms : List Atom) (vals : List Value) (pos : Nat),
      (∀ a ∈ atoms, ∀ r ce, a = Atom.ref r ce →
        ∀ q, ∃ val pos2, recur r q (ctx.pushList ce) = .ok (val, pos2)) →
      ∃ vals2 pos2,
        randAtomsLoop recur ctx atoms vals pos = .ok (vals ++ vals2, pos2)
  | [], vals, pos, _ => ⟨[], pos, by rw [randAtomsLoop, List.append_nil]⟩
  | .lit v :: rest, vals, pos, h => by
    obtain ⟨vals2, pos2, hrec⟩ := randAtomsLoop_ok rest (vals ++ [v]) pos
      (fun a ha r ce hae q => h a (by simp [ha]) r ce hae q)
    exact ⟨v :: vals2, pos2, by
      rw [randAtomsLoop, hrec, List.append_assoc, List.singleton_append]⟩
  | .ref r ce :: rest, vals, pos, h => by
    obtain ⟨val, pos1, hcall⟩ :=
      h (Atom.ref r ce) (by simp) r ce rfl pos
    obtain ⟨vals2, pos2, hrec⟩ := randAtomsLoop_ok rest (vals ++ [val]) pos1
      (fun a ha r2 ce2 hae q => h a (by simp [ha]) r2 ce2 hae q)
    exact ⟨val :: vals2, pos2, by
      rw [randAtomsLoop, hcall]
      dsimp only
      rw [hrec, List.append_assoc, List.singleton_append]⟩

/-- C8 (amended): at any depth limit at which the rule is *safe* — its
active productions resolve and, recursively, so do those of every ref
they contain one level lower — `randomValueFromRule` succeeds for every
random engine, returning a pair chain headed by `Sym rule`.  (Being at or
above the minimal derivation depth of the rule is not enough; see
`randomValue_depth_cex`.) -/
theorem randomValue_safe (g : Grammar) (gen : Nat → Nat) :
    ∀ (d : Nat) (ctx : Context) (rule : String) (pos : Nat),
      SafeAt g d ctx rule →
      ∃ rest pos2, randomValueFromRule g gen d rule pos ctx =
        .ok (Value.pr (Value.sym rule) rest, pos2) := by
  intro d
  induction d with
  | zero => intro ctx rule pos h; rw [SafeAt] at h; exact absurd h (by simp)
  | succ dl ih =>
    intro ctx rule pos h
    rw [SafeAt] at h
    obtain ⟨prods, hpr, hsafe⟩ := h
    have hne : prods ≠ [] := getActive_ok_ne hpr
    have hmem : prods.getD (gen pos % prods.length) (Production.mk [] []) ∈
        prods := by
      have hlt : gen pos % prods.length < prods.length :=
        Nat.mod_lt _ (List.length_pos.mpr hne)
      rw [List.getD_eq_getElem prods _ hlt]
      exact List.getElem_mem hlt
    obtain ⟨vals2, pos2, hloop⟩ := randAtomsLoop_ok
      (prods.getD (gen pos % prods.length) (Production.mk [] [])).mAtoms
      [Value.sym rule] (pos + 1)
      (fun a ha r ce hae q => by
        obtain ⟨rest, p2, hh⟩ := ih (ctx.pushList ce) r q
          (hsafe _ hmem a ha r ce hae)
        exact ⟨_, p2, hh⟩)
    refine ⟨vals2, pos2, ?_⟩
    rw [randomValueFromRule, hpr]
    dsimp only
    rw [hloop]
    rw [show ([Value.sym rule] ++ vals2) = Value.sym rule :: vals2 from by
      simp]
    rfl

/-- Witness: a grammar with the single production `R := 1` is safe at
depth 1, and random generation returns `(R 1)`. -/
theorem randomValue_safe_witness :
    (∃ rest pos2, randomValueFromRule
      (Grammar.mk [("R", [Production.mk [Atom.lit (Value.int64 1)] []])])
      (fun _ => 0) 1 "R" 0 (Context.mk [] []) =
      .ok (Value.pr (Value.sym "R") rest, pos2)) ∧
    randomValueFromRule
      (Grammar.mk [("R", [Production.mk [Atom.lit (Value.int64 1)] []])])
      (fun _ => 0) 1 "R" 0 (Context.mk [] []) =
      .ok (Value.pr (Value.sym "R") [Value.int64 1], 1) :=
  ⟨randomValue_safe
    (Grammar.mk [("R", [Production.mk [Atom.lit (Value.int64 1)] []])])
    (fun _ => 0) 1 (Context.mk [] []) "R" 0
    ⟨[Production.mk [Atom.lit (Value.int64 1)] []], rfl, by
      intro p hp a ha r ce hae
      simp only [List.mem_cons, List.not_mem_nil, or_false] at hp
      subst hp
      simp only [List.mem_cons, List.not_mem_nil, or_false] at ha
      subst ha
      exact absurd hae (by simp)⟩, rfl⟩

/-- Counterexample to the claim as stated: in the grammar
`R := 1 | S` and `S := S`, rule `R` has minimal derivation depth 1
(its literal production derives at depth 1, nothing at depth 0), yet at
the larger depth limit 2 the engine that always draws the second
production descends into `S`, whose only production is skipped at depth
limit 1 for containing a ref — the needs-a-nonterminal error is thrown
instead of terminating normally. -/
theorem randomValue_depth_cex :
    canDerive
      (Grammar.mk [("R", [Production.mk [Atom.lit (Value.int64 1)] [],
          Production.mk [Atom.ref "S" []] []]),
        ("S", [Production.mk [Atom.ref "S" []] []])])
      (Context.mk [] []) 1 "R" = true ∧
    canDerive
      (Grammar.mk [("R", [Production.mk [Atom.lit (Value.int64 1)] [],
          Production.mk [Atom.ref "S" []] []]),
        ("S", [Production.mk [Atom.ref "S" []] []])])
      (Context.mk [] []) 0 "R" = false ∧
    randomValueFromRule
      (Grammar.mk [("R", [Production.mk [Atom.lit (Value.int64 1)] [],
          Production.mk [Atom.ref "S" []] []]),
        ("S", [Production.mk [Atom.ref "S" []] []])])
      (fun _ => 1) 2 "R" 0 (Context.mk [] []) =
      .error (.needsNonterminal "S") :=
  ⟨rfl, rfl, rfl⟩

/-! ### Transcript reading (`part_001` / `part_002` / `part_000`) -/

/-- `is >> std::string`: skip whitespace, take the maximal non-space run;
extracting no characters sets the failbit. -/
def readToken (st : PState) : Except PErr (List Char × PState) :=
  let st1 := st.scanWS
  let (tok, rest) := takeRun (fun c => !isSpaceC c) st1.input
  if tok.isEmpty then .error .failbit
  else .ok (tok, ⟨rest, st1.pos + tok.length, st1.hexIn⟩)

/-- `Symbol(tmp)` after token extraction: `Symbol::intern` rejects any
character that is not alphanumeric or an underscore. -/
def symbolOfToken (tok : List Char) : Except PErr String :=
  if tok.all (fun c => isAlnumC c || c = '_') then .ok (String.mk tok)
  else .error (.thrown "Symbol must be alphanumeric-or-underscores")

/-- `is >> std::hex >> x >> std::dec` for `uint64_t x`: skip whitespace,
allow a `0x`/`0X` prefix, take a non-empty hexadecimal digit run (else
failbit), failing on overflow past `2^64`. -/
def readHexU64 (st : PState) : Except PErr (Nat × PState) :=
  let st1 := st.scanWS
  let (afterPre, nPre) :=
    match st1.input with
    | c1 :: c2 :: rest =>
      if c1 = '0' && (c2 = 'x' || c2 = 'X') then (rest, (2 : Nat))
      else (c1 :: c2 :: rest, 0)
    | l => (l, 0)
  let (ds, rest) := takeRun (isBaseDigit true) afterPre
  if ds.isEmpty then .error .failbit
  else
    let n := digitsToNat true ds
    if 2 ^ 64 ≤ n then .error .failbit
    else .ok (n, ⟨rest, st1.pos + nPre + ds.length, st1.hexIn⟩)

/-- `expectStr`: an offset-reporting parse error on an unexpected token. -/
def expectStrE (expected got : List Char) (pos : Nat) : Except PErr Unit :=
  if got = expected then .ok ()
  else .error (.offsetErr pos ("input failure: expected " ++ String.mk expected))

/-- `expectNonemptyStr`: an offset-reporting parse error on an empty name. -/
def expectNonemptyE (s : String) (pos : Nat) : Except PErr Unit :=
  if s.isEmpty then
    .error (.offsetErr pos "input read unexpected empty string")
  else .ok ()

/-- Modelled from the spec: the 64-bit stream hash (`XXHash64` lives in
vendored third-party code outside this repository) is abstracted as a
polynomial hash of the byte stream modulo `2^64`; every property proved
here depends only on reader and writer applying the same function to the
same bytes. -/
def streamHash (bytes : List Nat) : Nat :=
  bytes.foldl (fun h b => (h * 1099511628211 + b % 256) % (2 ^ 64)) 0

/-- The bytes a string contributes to the hash. -/
def strBytes (s : String) : List Nat := s.data.map Char.toNat

/-- `Plan::getHashCode` (`part_001` variant): hash the test name, `":"`,
then each parameter as name, `"="`, and the value's `operator<<` text. -/
def planHashCode (plan : P1.Plan) : Nat :=
  streamHash (strBytes plan.mTestName ++ strBytes ":" ++
    (plan.mParams.map (fun q => strBytes q.1 ++ strBytes "=" ++
      (format q.2).map Char.toNat)).flatten)

/-- The `param:` loop of `operator>>(istream&, Plan&)`: while the next
character is `p`, read the keyword, name, `=` and value tokens, check
them, and `addParam` the binding. -/
def readPlanParams : Nat → P1.Plan → PState → Except PErr (P1.Plan × PState)
  | 0, _, _ => .error .fuel
  | fuel + 1, plan, st =>
    let st1 := st.scanWS
    match st1.input with
    | 'p' :: _ =>
      match readToken st1 with
      | .error e => .error e
      | .ok (tokPARAM, st2) =>
        match readToken st2 with
        | .error e => .error e
        | .ok (tokName, st3) =>
          match symbolOfToken tokName with
          | .error e => .error e
          | .ok pname =>
            match readToken st3 with
            | .error e => .error e
            | .ok (tokEQ, st4) =>
              match parseVal (st4.input.length + 2) Value.nil st4 with
              | .error e => .error e
              | .ok (val, st5) =>
                match expectStrE "param:".data tokPARAM st5.pos with
                | .error e => .error e
                | .ok _ =>
                  match expectStrE "=".data tokEQ st5.pos with
                  | .error e => .error e
                  | .ok _ =>
                    match expectNonemptyE pname st5.pos with
                    | .error e => .error e
                    | .ok _ =>
                      readPlanParams fuel (plan.addParam pname val) st5
    | _ => .ok (plan, st1)

/-- The `check:`/`track:` loop of `operator>>(istream&, Transcript&)`. -/
def readVars : Nat → List (String × Value × Bool) → PState →
    Except PErr (List (String × Value × Bool) × PState)
  | 0, _, _ => .error .fuel
  | fuel + 1, vars, st =>
    let st1 := st.scanWS
    match st1.input with
    | c :: _ =>
      if c = 'c' || c = 't' then
        match readToken st1 with
        | .error e => .error e
        | .ok (tokKW, st2) =>
          match readToken st2 with
          | .error e => .error e
          | .ok (tokName, st3) =>
            match symbolOfToken tokName with
            | .error e => .error e
            | .ok vname =>
              match readToken st3 with
              | .error e => .error e
              | .ok (tokEQ, st4) =>
                match parseVal (st4.input.length + 2) Value.nil st4 with
                | .error e => .error e
                | .ok (val, st5) =>
                  match expectStrE "=".data tokEQ st5.pos with
                  | .error e => .error e
                  | .ok _ =>
                    match expectNonemptyE vname st5.pos with
                    | .error e => .error e
                    | .ok _ =>
                      if tokKW = "check:".data ∨ tokKW = "track:".data then
                        readVars fuel
                          (vars ++ [(vname, val, tokKW == "track:".data)]) st5
                      else
                        .error (.offsetErr st5.pos
                          "expecting either check: or track:")
      else .ok (vars, st1)
    | [] => .ok (vars, st1)

/-- A `Transcript` of the `part_001` variant. -/
structure Transcript where
  mPlan : P1.Plan
  mVars : List (String × Value × Bool)
deriving DecidableEq

/-- The header-and-plan phase of `operator>>(istream&, Transcript&)`:
`is >> HASHES >> TRANSCRIPT >> tname >> std::hex >> plan_hash >>
std::dec`, the non-empty-name check, and `is >> plan` on `Plan(tname)`. -/
def readHeaderPlan (st : PState) :
    Except PErr ((Nat × P1.Plan) × PState) :=
  match readToken st with
  | .error e => .error e
  | .ok (_, st1) =>
    match readToken st1 with
    | .error e => .error e
    | .ok (_, st2) =>
      match readToken st2 with
      | .error e => .error e
      | .ok (tokName, st3) =>
        match symbolOfToken tokName with
        | .error e => .error e
        | .ok tname =>
          match readHexU64 st3 with
          | .error e => .error e
          | .ok (planHash, st4) =>
            match expectNonemptyE tname st4.pos with
            | .error e => .error e
            | .ok _ =>
              match readPlanParams (st4.input.length + 1)
                  (P1.Plan.mk tname []) st4 with
              | .error e => .error e
              | .ok (plan, st5) => .ok ((planHash, plan), st5)

/-- `operator>>(istream&, Transcript&)` (`part_001` variant): after the
header and plan, `expectVal` compares the stored hash against the
recomputed plan hash — a mismatch is an offset-reporting parse error —
then the variable lines are read. -/
def readTranscript (st : PState) : Except PErr (Transcript × PState) :=
  match readHeaderPlan st with
  | .error e => .error e
  | .ok ((planHash, plan), st5) =>
    if planHash = planHashCode plan then
      match readVars (st5.input.length + 1) [] st5 with
      | .error e => .error e
      | .ok (vars, st6) => .ok (Transcript.mk plan vars, st6)
    else .error (.offsetErr st5.pos "input failure: expected plan hash")

/-- C9: once the header and plan have been read, a stored hash that
differs from the hash recomputed from the reconstructed plan makes the
read fail with a parse error reporting the current byte offset; and any
successful read returns a transcript whose stored hash equals its plan's
recomputed hash. -/
theorem readTranscript_hash (st st5 : PState) (planHash : Nat)
    (plan : P1.Plan)
    (h : readHeaderPlan st = .ok ((planHash, plan), st5)) :
    (planHash ≠ planHashCode plan →
      readTranscript st =
        .error (.offsetErr st5.pos "input failure: expected plan hash")) ∧
    (∀ t st6, readTranscript st = .ok (t, st6) →
      t.mPlan = plan ∧ planHash = planHashCode t.mPlan) := by
  constructor
  · intro hne
    rw [readTranscript, h]
    dsimp only
    rw [if_neg hne]
  · intro t st6 hok
    rw [readTranscript, h] at hok
    dsimp only at hok
    by_cases heq : planHash = planHashCode plan
    · rw [if_pos heq] at hok
      cases hv : readVars (st5.input.length + 1) [] st5 with
      | error e => rw [hv] at hok; exact absurd hok (by simp)
      | ok t2 =>
        obtain ⟨vars, st7⟩ := t2
        rw [hv] at hok
        dsimp only at hok
        simp only [Except.ok.injEq, Prod.mk.injEq] at hok
        obtain ⟨rfl, -⟩ := hok
        exact ⟨rfl, heq⟩
    · rw [if_neg heq] at hok
      exact absurd hok (by simp)

/-- Witness: a transcript header whose stored hash `0x1` disagrees with
the recomputed hash of the empty plan of test `t` — the read stops with
the offset-reporting error right after the plan. -/
theorem readTranscript_hash_witness :
    readTranscript ⟨"#### transcript: t 0x1\n".data, 0, false⟩ =
      .error (.offsetErr 23 "input failure: expected plan hash") :=
  (readTranscript_hash ⟨"#### transcript: t 0x1\n".data, 0, false⟩
    ⟨[], 23, false⟩ 1 (P1.Plan.mk "t" []) rfl).1 (by decide)

/-! ### `Test::administer` (test.cpp)

The user test body `run()` is abstracted as a deterministic system under
test: which plans fail an `invariant` call, which transcript variables a
run records, and the trajectory it produces.  (A non-deterministic run
throws in `runPlanAndStabilize` and aborts administration; the claim
concerns the returned failure list.)  Plan generation — the k-path
coverings of the initialize phase and the random plans of the expand
phase — is likewise abstracted as the given plan lists, and the
environment-variable lookups as parameters. -/

/-- A `Plan` of the `corpus.cpp` variant (test name, manual flag,
parameters and comments). -/
structure PlanC where
  mTestName : String
  mIsManual : Bool
  mParams : List (String × Value)
  mComments : List String
deriving DecidableEq

/-- A `Transcript` of the `corpus.cpp` variant. -/
structure TranscriptC where
  mPlan : PlanC
  mVars : List (String × Value × Bool)
deriving DecidableEq

/-- `Plan::getHashCode` (`corpus.cpp` variant): hash the test name, the
manual flag as a formatted `Bool` value, `":"`, and each parameter as
name, `"="`, formatted value. -/
def planCHash (p : PlanC) : Nat :=
  streamHash (strBytes p.mTestName ++
    (format (Value.bool p.mIsManual)).map Char.toNat ++ strBytes ":" ++
    (p.mParams.map (fun q => strBytes q.1 ++ strBytes "=" ++
      (format q.2).map Char.toNat)).flatten)

/-- The deterministic abstraction of the user-provided `run()`: whether a
plan's run fails some `invariant`, the `check`/`track` variables it
records, and its trajectory. -/
structure SUT where
  failed : PlanC → Bool
  transcriptVars : PlanC → List (String × Value × Bool)
  trajectory : PlanC → Nat

/-- The failure collection of the initialize and expand phases: run each
plan and append its plan hash when `mFailed` was set. -/
def collectFailures (sut : SUT) : List PlanC → List Nat
  | [] => []
  | p :: rest =>
    if sut.failed p then planCHash p :: collectFailures sut rest
    else collectFailures sut rest

/-- The `PHOTESTHESIS_TEST_HASH` filter of `checkCorpus`: skip a stored
transcript whose plan hash differs from the requested one. -/
def limitSkip (limitTo : Option Nat) (ts : TranscriptC) : Bool :=
  match limitTo with
  | some h => planCHash ts.mPlan != h
  | none => false

/-- The loop of `checkCorpus`/`checkTranscript` over the stored
transcripts: re-run each plan; a set `mFailed` appends the plan hash to
the failure list, while a transcript mismatch only marks the stored
transcript for a corpus update (`updateTranscript`) — it does not touch
`mFailed` or the failures.  Returns the failures and the mismatching
transcripts. -/
def checkLoop (sut : SUT) (limitTo : Option Nat) :
    List TranscriptC → List Nat × List TranscriptC
  | [] => ([], [])
  | ts :: rest =>
    if limitSkip limitTo ts then checkLoop sut limitTo rest
    else
      let rerun := TranscriptC.mk ts.mPlan (sut.transcriptVars ts.mPlan)
      let (fs, ms) := checkLoop sut limitTo rest
      (if sut.failed ts.mPlan then planCHash ts.mPlan :: fs else fs,
        if rerun ≠ ts then ts :: ms else ms)

/-- `Test::administer`: with an empty stored corpus, initialize from
k-paths and return that phase's failures; otherwise check the corpus
and return its failures if any, else randomly expand and return the
expansion's failures. -/
def administer (sut : SUT) (corpusTs : List TranscriptC)
    (limitTo : Option Nat) (initPlans expandPlans : List PlanC) : List Nat :=
  if corpusTs.isEmpty then collectFailures sut initPlans
  else
    let failures := (checkLoop sut limitTo corpusTs).1
    if failures.isEmpty then collectFailures sut expandPlans
    else failures

theorem collectFailures_eq (sut : SUT) :
    ∀ plans : List PlanC,
      collectFailures sut plans = (plans.filter sut.failed).map planCHash
  | [] => rfl
  | p :: rest => by
    rw [collectFailures, List.filter_cons]
    cases hf : sut.failed p with
    | true =>
      rw [if_pos rfl, if_pos (by simp [hf])]
      rw [List.map_cons, collectFailures_eq sut rest]
    | false =>
      rw [if_neg (by simp), if_neg (by simp [hf])]
      exact collectFailures_eq sut rest

theorem checkLoop_fst_eq (sut : SUT) (limitTo : Option Nat) :
    ∀ l : List TranscriptC,
      (checkLoop sut limitTo l).1 =
        (((l.filter (fun ts => !limitSkip limitTo ts)).filter
          (fun ts => sut.failed ts.mPlan)).map (fun ts => planCHash ts.mPlan))
  | [] => rfl
  | ts :: rest => by
    rw [checkLoop, List.filter_cons]
    cases hs : limitSkip limitTo ts with
    | true =>
      rw [if_pos (by simp [hs]), if_neg (by simp [hs])]
      exact checkLoop_fst_eq sut limitTo rest
    | false =>
      rw [if_neg (by simp [hs]), if_pos (by simp [hs])]
      rw [List.filter_cons]
      cases hf : sut.failed ts.mPlan with
      | true =>
        rw [if_pos (by simp [hf])]
        dsimp only
        rw [if_pos (by simp [hf]), List.map_cons,
          ← checkLoop_fst_eq sut limitTo rest]
      | false =>
        rw [if_neg (by simp [hf])]
        dsimp only
        rw [if_neg (by simp [hf]), ← checkLoop_fst_eq sut limitTo rest]

/-- C2 (amended): `administer` returns exactly the plan hashes of the
invariant failures of the single phase it ran — the initialize phase when
the stored corpus is empty; otherwise the check phase if any re-run set
`mFailed`, and else the expand phase.  Transcript mismatches during the
check phase contribute nothing to the returned list (they only rewrite
the corpus): the result is unchanged under any reassignment of the
recorded transcript variables and trajectories. -/
theorem administer_spec (sut : SUT) (corpusTs : List TranscriptC)
    (limitTo : Option Nat) (initPlans expandPlans : List PlanC) :
    (corpusTs = [] →
      administer sut corpusTs limitTo initPlans expandPlans =
        (initPlans.filter sut.failed).map planCHash) ∧
    (corpusTs ≠ [] →
      (((corpusTs.filter (fun ts => !limitSkip limitTo ts)).filter
          (fun ts => sut.failed ts.mPlan)).map
            (fun ts => planCHash ts.mPlan) ≠ [] →
        administer sut corpusTs limitTo initPlans expandPlans =
          ((corpusTs.filter (fun ts => !limitSkip limitTo ts)).filter
            (fun ts => sut.failed ts.mPlan)).map
              (fun ts => planCHash ts.mPlan)) ∧
      (((corpusTs.filter (fun ts => !limitSkip limitTo ts)).filter
          (fun ts => sut.failed ts.mPlan)).map
            (fun ts => planCHash ts.mPlan) = [] →
        administer sut corpusTs limitTo initPlans expandPlans =
          (expandPlans.filter sut.failed).map planCHash)) ∧
    (∀ vars2 traj2,
      administer (SUT.mk sut.failed vars2 traj2) corpusTs limitTo
          initPlans expandPlans =
        administer sut corpusTs limitTo initPlans expandPlans) := by
  have hadm : ∀ (sut2 : SUT), sut2.failed = sut.failed →
      administer sut2 corpusTs limitTo initPlans expandPlans =
        if corpusTs.isEmpty then (initPlans.filter sut.failed).map planCHash
        else if ((corpusTs.filter (fun ts => !limitSkip limitTo ts)).filter
            (fun ts => sut.failed ts.mPlan)).map
              (fun ts => planCHash ts.mPlan) = [] then
          (expandPlans.filter sut.failed).map planCHash
        else ((corpusTs.filter (fun ts => !limitSkip limitTo ts)).filter
            (fun ts => sut.failed ts.mPlan)).map
              (fun ts => planCHash ts.mPlan) := by
    intro sut2 hf
    rw [administer]
    by_cases he : corpusTs.isEmpty = true
    · rw [if_pos he, if_pos he, collectFailures_eq, hf]
    · rw [if_neg he, if_neg he]
      rw [checkLoop_fst_eq]
      have hff : (fun ts => sut2.failed ts.mPlan) =
          (fun ts : TranscriptC => sut.failed ts.mPlan) := by
        funext ts; rw [hf]
      rw [hff]
      by_cases hz : ((corpusTs.filter (fun ts => !limitSkip limitTo ts)).filter
          (fun ts => sut.failed ts.mPlan)).map
            (fun ts => planCHash ts.mPlan) = []
      · rw [if_pos (by rw [hz]; rfl), if_pos hz, collectFailures_eq, hf]
      · rw [if_neg ?hne, if_neg hz]
        case hne =>
          intro hemp
          rw [List.isEmpty_iff] at hemp
          exact hz hemp
  refine ⟨?_, ?_, ?_⟩
  · intro he
    rw [hadm sut rfl, if_pos (by rw [he]; rfl)]
  · intro hne
    have heb : corpusTs.isEmpty = false := by
      cases hq : corpusTs with
      | nil => exact absurd hq hne
      | cons a l => rfl
    constructor
    · intro hz
      rw [hadm sut rfl, if_neg (by rw [heb]; simp), if_neg hz]
    · intro hz
      rw [hadm sut rfl, if_neg (by rw [heb]; simp), if_pos hz]
  · intro vars2 traj2
    rw [hadm sut rfl, hadm (SUT.mk sut.failed vars2 traj2) rfl]

/-- Counterexample to the claim as stated: a stored transcript whose
re-run records different variables — a transcript mismatch in the check
phase — with no invariant failure anywhere: `administer` returns the
empty list, not the mismatching plan's hash. -/
theorem administer_mismatch_cex :
    (checkLoop (SUT.mk (fun _ => false)
        (fun _ => [("y", Value.int64 1, false)]) (fun _ => 0)) none
      [TranscriptC.mk (PlanC.mk "t" false [] [])
        [("x", Value.int64 1, false)]]).2 =
      [TranscriptC.mk (PlanC.mk "t" false [] [])
        [("x", Value.int64 1, false)]] ∧
    administer (SUT.mk (fun _ => false)
        (fun _ => [("y", Value.int64 1, false)]) (fun _ => 0))
      [TranscriptC.mk (PlanC.mk "t" false [] [])
        [("x", Value.int64 1, false)]] none [] [] = [] :=
  ⟨rfl, rfl⟩

/-! ### k-path enumeration and covering (grammar.cpp) -/

/-- Membership in the cyclical zip, with no distinctness assumptions:
exactly the step tuples. -/
theorem extendByCycling_mem (vecs : List (List Value)) (ext : List Value)
    (hv : vecs ≠ []) (he : ext ≠ []) (l : List Value) :
    l ∈ extendByCycling vecs ext ↔
      ∃ t, t < max vecs.length ext.length ∧
        l = vecs.getD (t % vecs.length) [] ++
          [ext.getD (t % ext.length) Value.nil] := by
  have hnpos : 0 < vecs.length := List.length_pos.mpr hv
  have hmpos : 0 < ext.length := List.length_pos.mpr he
  have hrun := cycleSteps_closed vecs ext hv he (vecs.length + ext.length) 0
    (by omega)
  rw [Nat.zero_mod, Nat.zero_mod, List.drop_zero,
    decide_eq_false (by omega), decide_eq_false (by omega)] at hrun
  rw [extendByCycling, hrun, List.mem_dedup, List.mem_map]
  constructor
  · rintro ⟨t, ht, rfl⟩
    exact ⟨t, List.mem_range.mp ht, rfl⟩
  · rintro ⟨t, ht, rfl⟩
    exact ⟨t, List.mem_range.mpr ht, rfl⟩

/-- Every tuple of the cyclical zip extends a prefix by an extension. -/
theorem extendByCycling_mem_src {vecs : List (List Value)} {ext : List Value}
    (hv : vecs ≠ []) (he : ext ≠ []) {l : List Value}
    (hl : l ∈ extendByCycling vecs ext) :
    ∃ b ∈ vecs, ∃ e ∈ ext, l = b ++ [e] := by
  have hnpos : 0 < vecs.length := List.length_pos.mpr hv
  have hmpos : 0 < ext.length := List.length_pos.mpr he
  obtain ⟨t, -, rfl⟩ := (extendByCycling_mem vecs ext hv he l).mp hl
  have h1 : t % vecs.length < vecs.length := Nat.mod_lt _ hnpos
  have h2 : t % ext.length < ext.length := Nat.mod_lt _ hmpos
  refine ⟨vecs.getD (t % vecs.length) [], ?_,
    ext.getD (t % ext.length) Value.nil, ?_, rfl⟩
  · rw [List.getD_eq_getElem vecs [] h1]
    exact List.getElem_mem h1
  · rw [List.getD_eq_getElem ext Value.nil h2]
    exact List.getElem_mem h2

/-- Every prefix is extended by some tuple of the cyclical zip. -/
theorem extendByCycling_mem_base {vecs : List (List Value)} {ext : List Value}
    (hv : vecs ≠ []) (he : ext ≠ []) {b : List Value} (hb : b ∈ vecs) :
    ∃ e ∈ ext, b ++ [e] ∈ extendByCycling vecs ext := by
  have hnpos : 0 < vecs.length := List.length_pos.mpr hv
  have hmpos : 0 < ext.length := List.length_pos.mpr he
  obtain ⟨i, hi, hbi⟩ := List.getElem_of_mem hb
  have h2 : i % ext.length < ext.length := Nat.mod_lt _ hmpos
  refine ⟨ext.getD (i % ext.length) Value.nil, ?_, ?_⟩
  · rw [List.getD_eq_getElem ext Value.nil h2]
    exact List.getElem_mem h2
  · rw [extendByCycling_mem vecs ext hv he]
    refine ⟨i, by omega, ?_⟩
    rw [Nat.mod_eq_of_lt hi, List.getD_eq_getElem vecs [] hi, hbi]

/-- Every extension value appears in some tuple of the cyclical zip. -/
theorem extendByCycling_mem_ext {vecs : List (List Value)} {ext : List Value}
    (hv : vecs ≠ []) (he : ext ≠ []) {e : Value} (hx : e ∈ ext) :
    ∃ b ∈ vecs, b ++ [e] ∈ extendByCycling vecs ext := by
  have hnpos : 0 < vecs.length := List.length_pos.mpr hv
  have hmpos : 0 < ext.length := List.length_pos.mpr he
  obtain ⟨j, hj, hej⟩ := List.getElem_of_mem hx
  have h1 : j % vecs.length < vecs.length := Nat.mod_lt _ hnpos
  refine ⟨vecs.getD (j % vecs.length) [], ?_, ?_⟩
  · rw [List.getD_eq_getElem vecs [] h1]
    exact List.getElem_mem h1
  · rw [extendByCycling_mem vecs ext hv he]
    refine ⟨j, by omega, ?_⟩
    rw [Nat.mod_eq_of_lt hj, List.getD_eq_getElem ext Value.nil hj, hej]

theorem forall2_mem {α β : Type} {R : α → β → Prop} :
    ∀ {l1 : List α} {l2 : List β}, List.Forall₂ R l1 l2 →
      ∀ a ∈ l1, ∃ b ∈ l2, R a b := by
  intro l1
  induction l1 with
  | nil => intro l2 _ a ha; exact absurd ha (by simp)
  | cons x xs ih =>
    intro l2 h a ha
    cases h with
    | cons hx hrest =>
      rcases List.mem_cons.mp ha with rfl | ha2
      · exact ⟨_, by simp, hx⟩
      · obtain ⟨b, hb, hr⟩ := ih hrest a ha2
        exact ⟨b, by simp [hb], hr⟩

theorem suffix_concat {α : Type} {l m : List α} {c : α}
    (h : l <:+ (m ++ [c])) (hne : l ≠ []) :
    ∃ l2, l = l2 ++ [c] ∧ l2 <:+ m := by
  obtain ⟨u, hu⟩ := h
  rcases List.eq_nil_or_concat l with rfl | ⟨l2, d, rfl⟩
  · exact absurd rfl hne
  · simp only [List.concat_eq_append] at hu ⊢
    rw [← List.append_assoc] at hu
    obtain ⟨h1, h2⟩ := List.append_inj' hu.symm rfl
    simp only [List.cons.injEq, and_true] at h2
    subst h2
    exact ⟨l2, rfl, ⟨u, h1.symm⟩⟩

theorem getLast?_some_concat {α : Type} {l : List α} {x : α}
    (h : l.getLast? = some x) : ∃ pf, l = pf ++ [x] := by
  rcases List.eq_nil_or_concat l with rfl | ⟨pf, d, rfl⟩
  · simp at h
  · simp only [List.concat_eq_append] at h ⊢
    rw [List.getLast?_concat] at h
    simp only [Option.some.injEq] at h
    subst h
    exact ⟨pf, rfl⟩

namespace KP

/-! ### K-path enumeration and covering with atom object identity
(grammar.h / grammar.cpp)

In the code every atom of a grammar is a separately allocated object and
the k-path machinery works on `AtomPtr`s: grammar.h states that "every
occurrence of a Ref in a Grammar has an 'identity' that counts as a
different node when reasoning about k-paths" (in practice pointer
identity, with a per-`Ref` tag kept for diagnostics), `pathRoots` is a
`std::set<RefPtr>`, and `KPath = std::vector<AtomPtr>`, so k-path set
membership also compares objects.  The `tag` field below models that
object identity — each factory call (`Grammar::Ref`, `Grammar::Sym`, ...)
allocates a fresh object, so distinct occurrences carry distinct tags —
and equality of tagged atoms models pointer equality. -/

/-- An atom together with its object identity. -/
inductive Atom where
  | lit (tag : Nat) (v : Value)
  | ref (tag : Nat) (r : String) (ce : List String)
deriving DecidableEq

/-- `Production::mHasRefs`. -/
def hasRefs (atoms : List Atom) : Bool :=
  atoms.any fun a => match a with
    | .ref _ _ _ => true
    | .lit _ _ => false

structure Production where
  mAtoms : List Atom
  mCtxReq : List String
deriving DecidableEq

/-- A `Grammar`: its rules, plus the per-rule root refs that `addRule`
allocates into `mRootRefs`. -/
structure Grammar where
  mRules : List (String × List Production)
  mRootRefs : List (String × Atom)

/-- `Grammar::getProductions`. -/
def Grammar.getProductions (g : Grammar) (rule : String) :
    Except GErr (List Production) :=
  match g.mRules.find? (fun q => q.1 == rule) with
  | none => .error (.ruleNotFound rule)
  | some (_, prods) =>
    if prods.isEmpty then .error (.noProductions rule) else .ok prods

/-- `Grammar::getActiveProductions`. -/
def Grammar.getActiveProductions (g : Grammar) (rule : String) (d : Nat)
    (ctx : Context) : Except GErr (List Production) :=
  match g.getProductions rule with
  | .error e => .error e
  | .ok prods =>
    let active := prods.filter fun p =>
      !(d == 1 && hasRefs p.mAtoms) && ctx.hasSet p.mCtxReq
    if active.isEmpty then
      if prods.any (fun p => d == 1 && hasRefs p.mAtoms) then
        .error (.needsNonterminal rule)
      else .error (.noActive rule)
    else .ok active

/-- `Grammar::getRootRef`: the rule's root ref object, allocated once by
`addRule` (else "unknown rule name"). -/
def Grammar.getRootRef (g : Grammar) (rule : String) : Except GErr Atom :=
  match g.mRootRefs.find? (fun q => q.1 == rule) with
  | none => .error (.ruleNotFound rule)
  | some q => .ok q.2

/-- A k-path: a sequence of grammar atom objects. -/
abbrev KPath := List Atom

/-- The recursive interface of `kPathCoveringOrMinimalExpansion`. -/
abbrev CovFn := List Atom → Context → List KPath →
  Except GErr (List Value × List Value × List KPath)

/-- The first per-production loop: try each atom in order as a one-step
extension of the current `k-1`-suffix `kpath`; report the first extension
found in `paths`. -/
def coversKPath (kpath : KPath) (paths : List KPath) : List Atom → Option KPath
  | [] => none
  | a :: rest =>
    if paths.contains (kpath ++ [a]) then some (kpath ++ [a])
    else coversKPath kpath paths rest

/-- The per-atom body of the second loop: a `Lit` expands to its value; a
`Ref` recurses on the extended path with the extended context and uses the
sub-covering set if non-empty (marking the production covering), else the
sub-non-covering set. -/
def atomExpansionStep (recur : CovFn) (path : List Atom) (ctx : Context)
    (paths : List KPath) : Atom → Except GErr (List Value × Bool × List KPath)
  | .lit _ v => .ok ([v], false, paths)
  | .ref tg r ce =>
    match recur (path ++ [Atom.ref tg r ce]) (ctx.pushList ce) paths with
    | .error e => .error e
    | .ok (subCov, subNon, paths2) =>
      if subCov.isEmpty then .ok (subNon, false, paths2)
      else .ok (subCov, true, paths2)

/-- The second per-production loop: expand each atom and fold the
expansions into the prefix set by cyclical zip.  `prefixes` is a
`std::set<std::vector<Value>>`, so the cyclically-extended tuples are
re-read in sorted dup-free order for the next round. -/
def atomsLoop (recur : CovFn) (path : List Atom) (ctx : Context) :
    List Atom → List (List Value) → Bool → List KPath →
    Except GErr (List (List Value) × Bool × List KPath)
  | [], prefixes, covers, paths => .ok (prefixes, covers, paths)
  | a :: rest, prefixes, covers, paths =>
    match atomExpansionStep recur path ctx paths a with
    | .error e => .error e
    | .ok (ext, cov2, paths2) =>
      atomsLoop recur path ctx rest
        (setInsertAll (listCmp vcmp) [] (extendByCycling prefixes ext))
        (covers || cov2) paths2

/-- One production of the outer loop. -/
def prodStep (recur : CovFn) (path : List Atom) (ctx : Context)
    (rule : String) (kpath : KPath) (prod : Production) (paths : List KPath) :
    Except GErr (List (List Value) × Bool × List KPath) :=
  match coversKPath kpath paths prod.mAtoms with
  | some kp => atomsLoop recur path ctx prod.mAtoms [[Value.sym rule]] true
      (paths.erase kp)
  | none => atomsLoop recur path ctx prod.mAtoms [[Value.sym rule]] false paths

/-- The outer loop over active productions. -/
def prodsLoop (recur : CovFn) (path : List Atom) (ctx : Context)
    (rule : String) (kpath : KPath) :
    List Production → List Value → List Value → List KPath →
    Except GErr (List Value × List Value × List KPath)
  | [], cov, noncov, paths => .ok (cov, noncov, paths)
  | p :: rest, cov, noncov, paths =>
    match prodStep recur path ctx rule kpath p paths with
    | .error e => .error e
    | .ok (prefixes, covers, paths2) =>
      if covers then
        prodsLoop recur path ctx rule kpath rest
          (setInsertAll vcmp cov (prefixes.map Value.ofList)) noncov paths2
      else
        prodsLoop recur path ctx rule kpath rest cov
          (setInsertAll vcmp noncov (prefixes.map Value.ofList)) paths2

/-- `kPathCoveringOrMinimalExpansion` up to the final normalization. -/
def covExpCore (g : Grammar) (k : Nat) (recur : CovFn) (d1 : Nat) :
    CovFn := fun path ctx paths =>
  match path.getLast? with
  | none => .error .assertFail
  | some (.lit _ _) => .error .assertFail
  | some (.ref _ rule _) =>
    let kpath : KPath :=
      if k - 1 ≤ path.length then path.drop (path.length - (k - 1)) else []
    match g.getActiveProductions rule d1 ctx with
    | .error e => .error e
    | .ok prods => prodsLoop recur path ctx rule kpath prods [] [] paths

/-- `kPathCoveringOrMinimalExpansion`: guard the depth limit, run the
production loop, then normalize. -/
def covExp (g : Grammar) (k : Nat) : Nat → CovFn
  | 0, _, _, _ => .error .depthZero
  | d + 1, path, ctx, paths =>
    match covExpCore g k (covExp g k d) (d + 1) path ctx paths with
    | .error e => .error e
    | .ok (cov, noncov, paths2) =>
      if cov.isEmpty then .ok (cov, noncov.take 1, paths2)
      else .ok (cov, [], paths2)

/-- One atom of `expandKPathPrefix`'s inner loop, parameterized by the
recursive call: extend the prefix through the atom when it is a ref or
when the extension completes the k-path, and additionally restart a new
k-path at a ref object not yet in `pathRoots` — the `std::set<RefPtr>`
whose membership is object identity. -/
def expandAtomStep (recur : KPath → Context → List Atom →
      Except GErr (List KPath × List Atom))
    (k : Nat) (prefixp : KPath) (ctx : Context) (a : Atom)
    (acc : List KPath) (roots : List Atom) :
    Except GErr (List KPath × List Atom) :=
  let ctx2 := match a with
    | .ref _ _ ce => ctx.pushList ce
    | .lit _ _ => ctx
  let isRef : Bool := match a with
    | .ref _ _ _ => true
    | .lit _ _ => false
  match
    (if isRef ∨ prefixp.length = k - 1 then
      match recur (prefixp ++ [a]) ctx2 roots with
      | .error e => .error e
      | .ok (exp, roots2) => .ok (acc ++ exp, roots2)
    else .ok (acc, roots) : Except GErr (List KPath × List Atom)) with
  | .error e => .error e
  | .ok (acc2, roots2) =>
    if isRef ∧ ¬ (a ∈ roots2) then
      match recur [a] ctx2 (roots2 ++ [a]) with
      | .error e => .error e
      | .ok (exp, roots3) => .ok (acc2 ++ exp, roots3)
    else .ok (acc2, roots2)

/-- The production/atom loops of `expandKPathPrefix`. -/
def expandLoop (recur : KPath → Context → List Atom →
      Except GErr (List KPath × List Atom))
    (k : Nat) (prefixp : KPath) (ctx : Context) :
    List Atom → List KPath → List Atom →
    Except GErr (List KPath × List Atom)
  | [], acc, roots => .ok (acc, roots)
  | a :: rest, acc, roots =>
    match expandAtomStep recur k prefixp ctx a acc roots with
    | .error e => .error e
    | .ok (acc2, roots2) => expandLoop recur k prefixp ctx rest acc2 roots2

/-- `Grammar::expandKPathPrefix`: a prefix of length `k` is itself the
only expansion; otherwise its ref anchor's active productions (at depth
limit `k`) are walked atom by atom.  `pathRoots` (the set of ref objects
already used as k-path starting points) threads through.  `fuel` bounds
the recursion; the enumeration is only consumed through its result set. -/
def expandKPathPrefix (g : Grammar) (k : Nat) :
    Nat → KPath → Context → List Atom →
    Except GErr (List KPath × List Atom)
  | 0, _, _, _ => .error .fuel
  | fuel + 1, prefixp, ctx, roots =>
    if prefixp.length = k then .ok ([prefixp], roots)
    else
      match prefixp.getLast? with
      | none => .error .assertFail
      | some (.lit _ _) => .error .assertFail
      | some (.ref _ rule _) =>
        match g.getActiveProductions rule k ctx with
        | .error e => .error e
        | .ok prods =>
          expandLoop (expandKPathPrefix g k fuel) k prefixp ctx
            (prods.map (fun p => p.mAtoms)).flatten [] roots

/-- `Grammar::generateKPathSet`: expand from the root ref object, which
is also the initial path root. -/
def generateKPathSet (g : Grammar) (k : Nat) (root : String)
    (specs : List String) (fuel : Nat) : Except GErr (List KPath) :=
  match g.getRootRef root with
  | .error e => .error e
  | .ok rootRef =>
    match expandKPathPrefix g k fuel [rootRef] (Context.mk specs [])
        [rootRef] with
    | .error e => .error e
    | .ok (res, _) => .ok res

/-- The `while (!paths.empty())` loop of `Grammar::kPathCovering`. -/
def kPathCoveringLoop (g : Grammar) (k : Nat) (rootRef : Atom)
    (ctx : Context) :
    Nat → Nat → List Value → List KPath → Except GErr (List Value)
  | 0, _, _, _ => .error .fuel
  | fuel + 1, depthLimit, res, paths =>
    if paths.isEmpty then .ok res
    else
      match covExp g k depthLimit [rootRef] ctx paths with
      | .error e => .error e
      | .ok (cov, _, paths2) =>
        if cov.isEmpty then
          kPathCoveringLoop g k rootRef ctx fuel (depthLimit + 1) res paths2
        else
          kPathCoveringLoop g k rootRef ctx fuel depthLimit
            (setInsertAll vcmp res cov) paths2

/-- `Grammar::kPathCovering`: enumerate the k-paths, then cover them from
the root, starting at depth limit `k`. -/
def kPathCovering (g : Grammar) (k : Nat) (root : String)
    (specs : List String) (fuel : Nat) : Except GErr (List Value) :=
  match g.getRootRef root with
  | .error e => .error e
  | .ok rootRef =>
    match generateKPathSet g k root specs fuel with
    | .error e => .error e
    | .ok paths =>
      kPathCoveringLoop g k rootRef (Context.mk specs []) fuel k [] paths

/-- A k-path is anchored at a value's root: its atoms name the rules
along a leftmost-start chain of the derivation, ending at a rule node or
stepping to one of its literal children. -/
inductive AnchoredAt : Value → KPath → Prop where
  | refEnd (tg : Nat) (r : String) (ce : List String) (elems : List Value) :
      AnchoredAt (Value.pr (Value.sym r) elems) [Atom.ref tg r ce]
  | litStep (tg tg2 : Nat) (r : String) (ce : List String)
      (elems : List Value) (w : Value) (hw : w ∈ elems) :
      AnchoredAt (Value.pr (Value.sym r) elems)
        [Atom.ref tg r ce, Atom.lit tg2 w]
  | refStep (tg : Nat) (r : String) (ce : List String) (elems : List Value)
      (e : Value) (p : KPath) (tg2 : Nat) (r2 : String) (ce2 : List String)
      (rest : KPath) (he : e ∈ elems) (hp : AnchoredAt e p)
      (hshape : p = Atom.ref tg2 r2 ce2 :: rest) :
      AnchoredAt (Value.pr (Value.sym r) elems) (Atom.ref tg r ce :: p)

/-- A k-path occurs in a value's derivation: it is anchored at the root
or occurs in some child. -/
inductive RealizedIn : Value → KPath → Prop where
  | here {v : Value} {p : KPath} (h : AnchoredAt v p) : RealizedIn v p
  | sub (r : String) (elems : List Value) (e : Value) {p : KPath}
      (he : e ∈ elems) (h : RealizedIn e p) :
      RealizedIn (Value.pr (Value.sym r) elems) p

/-- A k-path occurs in the derivation tree obtained by hanging the value
`v` at the end of the ref chain `path`: either it lies entirely within
`v`, or its first atoms climb a suffix of `path` and the remainder is a
chain anchored at `v`'s root. -/
def RealizedUnder (path : List Atom) (v : Value) (p : KPath) : Prop :=
  RealizedIn v p ∨
  ∃ s b t, p = s ++ b :: t ∧ (s ++ [b]) <:+ path ∧ AnchoredAt v (b :: t)

/-- What a tuple element contributed by an atom looks like: a literal's
own value, or — for a ref — a sub-expansion headed by the ref's rule. -/
def AtomFits : Atom → Value → Prop
  | .lit _ w, e => e = w
  | .ref _ r _, e => ∃ elems, e = Value.pr (Value.sym r) elems

/-- Recursive postcondition: the sub-call never returns two empty sets. -/
def CovNE (recur : CovFn) : Prop :=
  ∀ p c ps cov non ps2, recur p c ps = .ok (cov, non, ps2) →
    ¬(cov = [] ∧ non = [])

/-- Recursive postcondition: the sub-call only erases k-paths. -/
def CovMono (recur : CovFn) : Prop :=
  ∀ p c ps cov non ps2, recur p c ps = .ok (cov, non, ps2) →
    ∀ q, q ∈ ps2 → q ∈ ps

/-- Recursive postcondition: every returned expansion is a pair chain
headed by the anchor rule's symbol. -/
def CovHeadP (recur : CovFn) : Prop :=
  ∀ p c ps cov non ps2 tg r ce, p.getLast? = some (Atom.ref tg r ce) →
    recur p c ps = .ok (cov, non, ps2) →
    ∀ v, v ∈ cov ∨ v ∈ non → ∃ elems, v = Value.pr (Value.sym r) elems

/-- Recursive postcondition: an erased k-path is realized by a value of
the returned covering set, under the call's ref path. -/
def CovWit (k : Nat) (recur : CovFn) : Prop :=
  ∀ p c ps cov non ps2, recur p c ps = .ok (cov, non, ps2) →
    (∀ q, q ∈ ps → q.length = k) →
    ∀ pp, pp ∈ ps → pp ∉ ps2 → ∃ v, v ∈ cov ∧ RealizedUnder p v pp

/-- Reading the cyclically-extended tuple set back in sorted order keeps
exactly the emitted tuples. -/
theorem mem_extendSortedT (vecs : List (List Value)) (ext : List Value)
    (l : List Value) :
    l ∈ setInsertAll (listCmp vcmp) [] (extendByCycling vecs ext) ↔
      l ∈ extendByCycling vecs ext := by
  rw [mem_setInsertAll (listCmp_isCmp vcmp_isCmp)]
  simp

theorem extendSorted_ne_nilT (vecs : List (List Value)) (ext : List Value)
    (hv : vecs ≠ []) (he : ext ≠ []) :
    setInsertAll (listCmp vcmp) [] (extendByCycling vecs ext) ≠ [] :=
  setInsertAll_ne_nil _ _ (Or.inr (extendByCycling_ne_nil vecs ext hv he))

/-- A successful `getActiveProductions` never returns an empty list. -/
theorem getActive_ok_neT {g : Grammar} {rule : String} {d : Nat}
    {ctx : Context} {l : List Production}
    (h : g.getActiveProductions rule d ctx = .ok l) : l ≠ [] := by
  rw [Grammar.getActiveProductions] at h
  cases hp : g.getProductions rule with
  | error e => rw [hp] at h; exact absurd h (by simp)
  | ok prods =>
    rw [hp] at h
    dsimp only at h
    by_cases he : (prods.filter fun p =>
        !(d == 1 && hasRefs p.mAtoms) && ctx.hasSet p.mCtxReq).isEmpty = true
    · rw [if_pos he] at h
      by_cases hs : prods.any (fun p => d == 1 && hasRefs p.mAtoms) = true
      · rw [if_pos hs] at h; exact absurd h (by simp)
      · rw [if_neg hs] at h; exact absurd h (by simp)
    · rw [if_neg he] at h
      simp only [Except.ok.injEq] at h
      subst h
      intro hnil
      rw [hnil] at he
      exact he rfl

/-- An atom's expansion is never empty (given the recursive
postcondition). -/
theorem atomExpansionStep_neT {recur : CovFn} (Hrec : CovNE recur)
    {path : List Atom} {ctx : Context} {paths : List KPath} {a : Atom}
    {ext : List Value} {c2 : Bool} {paths2 : List KPath}
    (h : atomExpansionStep recur path ctx paths a = .ok (ext, c2, paths2)) :
    ext ≠ [] := by
  cases a with
  | lit tg v =>
    rw [atomExpansionStep] at h
    simp only [Except.ok.injEq, Prod.mk.injEq] at h
    rw [← h.1]
    simp
  | ref tg r ce =>
    rw [atomExpansionStep] at h
    cases hr : recur (path ++ [Atom.ref tg r ce]) (ctx.pushList ce) paths with
    | error e => rw [hr] at h; exact absurd h (by simp)
    | ok t =>
      obtain ⟨sc, sn, p2⟩ := t
      rw [hr] at h
      dsimp only at h
      by_cases hsc : sc.isEmpty = true
      · rw [if_pos hsc] at h
        simp only [Except.ok.injEq, Prod.mk.injEq] at h
        have := Hrec _ _ _ _ _ _ hr
        rw [← h.1]
        intro hsn
        exact this ⟨by rwa [List.isEmpty_iff] at hsc, hsn⟩
      · rw [if_neg hsc] at h
        simp only [Except.ok.injEq, Prod.mk.injEq] at h
        rw [← h.1]
        intro he
        exact hsc (by rw [he]; rfl)

/-- The atom loop preserves a non-empty prefix set. -/
theorem atomsLoop_neT {recur : CovFn} (Hrec : CovNE recur)
    {path : List Atom} {ctx : Context} :
    ∀ (atoms : List Atom) (prefixes : List (List Value)) (covers : Bool)
      (paths : List KPath) (res : List (List Value) × Bool × List KPath),
      prefixes ≠ [] →
      atomsLoop recur path ctx atoms prefixes covers paths = .ok res →
      res.1 ≠ []
  | [], prefixes, covers, paths, res, hne, h => by
    rw [atomsLoop] at h
    simp only [Except.ok.injEq] at h
    rw [← h]
    exact hne
  | a :: rest, prefixes, covers, paths, res, hne, h => by
    rw [atomsLoop] at h
    cases hs : atomExpansionStep recur path ctx paths a with
    | error e => rw [hs] at h; exact absurd h (by simp)
    | ok t =>
      obtain ⟨ext, c2, paths2⟩ := t
      rw [hs] at h
      dsimp only at h
      exact atomsLoop_neT Hrec rest _ _ _ res
        (extendSorted_ne_nilT _ _ hne (atomExpansionStep_neT Hrec hs)) h

/-- A production step always produces a non-empty prefix set. -/
theorem prodStep_neT {recur : CovFn} (Hrec : CovNE recur)
    {path : List Atom} {ctx : Context} {rule : String} {kpath : KPath}
    {prod : Production} {paths : List KPath}
    {res : List (List Value) × Bool × List KPath}
    (h : prodStep recur path ctx rule kpath prod paths = .ok res) :
    res.1 ≠ [] := by
  rw [prodStep] at h
  cases hc : coversKPath kpath paths prod.mAtoms with
  | none =>
    rw [hc] at h
    exact atomsLoop_neT Hrec _ _ _ _ _ (by simp) h
  | some kp =>
    rw [hc] at h
    exact atomsLoop_neT Hrec _ _ _ _ _ (by simp) h

/-- The production loop ends with at least one non-empty set as soon as it
has one production to process or starts from a non-empty set, and keeps
both sets sorted. -/
theorem prodsLoop_postT {recur : CovFn} (Hrec : CovNE recur)
    {path : List Atom} {ctx : Context} {rule : String} {kpath : KPath} :
    ∀ (prods : List Production) (cov noncov : List Value)
      (paths : List KPath) (res : List Value × List Value × List KPath),
      prodsLoop recur path ctx rule kpath prods cov noncov paths = .ok res →
      CmpSorted vcmp cov → CmpSorted vcmp noncov →
      ((prods ≠ [] ∨ cov ≠ [] ∨ noncov ≠ []) → ¬(res.1 = [] ∧ res.2.1 = [])) ∧
        CmpSorted vcmp res.1 ∧ CmpSorted vcmp res.2.1
  | [], cov, noncov, paths, res, h, hsc, hsn => by
    rw [prodsLoop] at h
    simp only [Except.ok.injEq] at h
    subst h
    refine ⟨?_, hsc, hsn⟩
    rintro (hne | hne | hne) ⟨h1, h2⟩
    · exact hne rfl
    · exact hne h1
    · exact hne h2
  | p :: rest, cov, noncov, paths, res, h, hsc, hsn => by
    rw [prodsLoop] at h
    cases hs : prodStep recur path ctx rule kpath p paths with
    | error e => rw [hs] at h; exact absurd h (by simp)
    | ok t =>
      obtain ⟨prefixes, covers, paths2⟩ := t
      rw [hs] at h
      dsimp only at h
      have hpne : prefixes ≠ [] := prodStep_neT Hrec hs
      have hmapne : prefixes.map Value.ofList ≠ [] := by
        intro he
        exact hpne (List.map_eq_nil_iff.mp he)
      cases covers with
      | true =>
        rw [if_pos rfl] at h
        have hrec := prodsLoop_postT Hrec rest _ _ _ res h
          (sorted_setInsertAll vcmp_isCmp _ _ hsc) hsn
        refine ⟨fun _ => hrec.1 ?_, hrec.2⟩
        exact Or.inr (Or.inl (setInsertAll_ne_nil _ _ (Or.inr hmapne)))
      | false =>
        rw [if_neg (by simp)] at h
        have hrec := prodsLoop_postT Hrec rest _ _ _ res h hsc
          (sorted_setInsertAll vcmp_isCmp _ _ hsn)
        refine ⟨fun _ => hrec.1 ?_, hrec.2⟩
        exact Or.inr (Or.inr (setInsertAll_ne_nil _ _ (Or.inr hmapne)))

/-- The pre-normalization expansion never returns two empty sets, and
returns them sorted. -/
theorem covExpCore_postT {g : Grammar} {k : Nat} {recur : CovFn}
    (Hrec : CovNE recur) {d1 : Nat} {path : List Atom} {ctx : Context}
    {paths : List KPath} {cov non : List Value} {p2 : List KPath}
    (h : covExpCore g k recur d1 path ctx paths = .ok (cov, non, p2)) :
    ¬(cov = [] ∧ non = []) ∧ CmpSorted vcmp cov ∧ CmpSorted vcmp non := by
  rw [covExpCore] at h
  cases hl : path.getLast? with
  | none => rw [hl] at h; exact absurd h (by simp)
  | some a =>
    cases a with
    | lit tg v => rw [hl] at h; exact absurd h (by simp)
    | ref tg rule ce =>
      rw [hl] at h
      dsimp only at h
      cases ha : g.getActiveProductions rule d1 ctx with
      | error e => rw [ha] at h; exact absurd h (by simp)
      | ok prods =>
        rw [ha] at h
        dsimp only at h
        have hpost := prodsLoop_postT Hrec prods [] [] paths (cov, non, p2) h
          (by rw [CmpSorted]; exact List.Pairwise.nil)
          (by rw [CmpSorted]; exact List.Pairwise.nil)
        exact ⟨hpost.1 (Or.inl (getActive_ok_neT ha)), hpost.2⟩

/-- A successful `kPathCoveringOrMinimalExpansion` never returns two empty
sets (the function's final assertion). -/
theorem covExp_neT (g : Grammar) (k : Nat) :
    ∀ (d : Nat), CovNE (covExp g k d) := by
  intro d
  induction d with
  | zero =>
    intro p c ps cov non ps2 h
    rw [covExp] at h
    exact absurd h (by simp)
  | succ d ih =>
    intro p c ps cov non ps2 h
    rw [covExp] at h
    cases hc : covExpCore g k (covExp g k d) (d + 1) p c ps with
    | error e => rw [hc] at h; exact absurd h (by simp)
    | ok t =>
      obtain ⟨cov0, non0, p0⟩ := t
      rw [hc] at h
      dsimp only at h
      have hpost := covExpCore_postT ih hc
      by_cases he : cov0.isEmpty = true
      · rw [if_pos he] at h
        simp only [Except.ok.injEq, Prod.mk.injEq] at h
        obtain ⟨h1, h2, -⟩ := h
        have hc0 : cov0 = [] := by rwa [List.isEmpty_iff] at he
        have hn0 : non0 ≠ [] := fun hn => hpost.1 ⟨hc0, hn⟩
        rintro ⟨-, hnon⟩
        rw [← h2] at hnon
        cases hq : non0 with
        | nil => exact hn0 hq
        | cons a l => rw [hq] at hnon; simp at hnon
      · rw [if_neg he] at h
        simp only [Except.ok.injEq, Prod.mk.injEq] at h
        rintro ⟨hcov, -⟩
        rw [← h.1] at hcov
        rw [List.isEmpty_iff] at he
        exact he hcov

theorem coversKPath_someT {kpath : KPath} {paths : List KPath} :
    ∀ {atoms : List Atom} {kp : KPath},
      coversKPath kpath paths atoms = some kp →
      ∃ a ∈ atoms, kp = kpath ++ [a] ∧ kp ∈ paths
  | [], kp, h => by rw [coversKPath] at h; exact absurd h (by simp)
  | a :: rest, kp, h => by
    rw [coversKPath] at h
    by_cases hc : paths.contains (kpath ++ [a]) = true
    · rw [if_pos hc] at h
      simp only [Option.some.injEq] at h
      subst h
      exact ⟨a, by simp, rfl, by simpa using hc⟩
    · rw [if_neg hc] at h
      obtain ⟨a2, ha2, hk, hm⟩ := coversKPath_someT h
      exact ⟨a2, by simp [ha2], hk, hm⟩

theorem atomExpansionStep_monoT {recur : CovFn} (Hm : CovMono recur)
    {path : List Atom} {ctx : Context} {paths : List KPath} {a : Atom}
    {ext : List Value} {c2 : Bool} {paths2 : List KPath}
    (h : atomExpansionStep recur path ctx paths a = .ok (ext, c2, paths2)) :
    ∀ q, q ∈ paths2 → q ∈ paths := by
  cases a with
  | lit tg v =>
    rw [atomExpansionStep] at h
    simp only [Except.ok.injEq, Prod.mk.injEq] at h
    rw [← h.2.2]
    exact fun q hq => hq
  | ref tg r ce =>
    rw [atomExpansionStep] at h
    cases hr : recur (path ++ [Atom.ref tg r ce]) (ctx.pushList ce) paths with
    | error e => rw [hr] at h; exact absurd h (by simp)
    | ok t =>
      obtain ⟨sc, sn, p2⟩ := t
      rw [hr] at h
      dsimp only at h
      have hsub := Hm _ _ _ _ _ _ hr
      by_cases hsc : sc.isEmpty = true
      · rw [if_pos hsc] at h
        simp only [Except.ok.injEq, Prod.mk.injEq] at h
        rw [← h.2.2]
        exact hsub
      · rw [if_neg hsc] at h
        simp only [Except.ok.injEq, Prod.mk.injEq] at h
        rw [← h.2.2]
        exact hsub

theorem atomsLoop_monoT {recur : CovFn} (Hm : CovMono recur)
    {path : List Atom} {ctx : Context} :
    ∀ {atoms : List Atom} {prefixes : List (List Value)} {covers : Bool}
      {paths : List KPath} {res : List (List Value) × Bool × List KPath},
      atomsLoop recur path ctx atoms prefixes covers paths = .ok res →
      ∀ q, q ∈ res.2.2 → q ∈ paths
  | [], prefixes, covers, paths, res, h => by
    rw [atomsLoop] at h
    simp only [Except.ok.injEq] at h
    rw [← h]
    exact fun q hq => hq
  | a :: rest, prefixes, covers, paths, res, h => by
    rw [atomsLoop] at h
    cases hs : atomExpansionStep recur path ctx paths a with
    | error e => rw [hs] at h; exact absurd h (by simp)
    | ok t =>
      obtain ⟨ext, c2, paths2⟩ := t
      rw [hs] at h
      dsimp only at h
      intro q hq
      exact atomExpansionStep_monoT Hm hs q (atomsLoop_monoT Hm h q hq)

theorem prodStep_monoT {recur : CovFn} (Hm : CovMono recur)
    {path : List Atom} {ctx : Context} {rule : String} {kpath : KPath}
    {prod : Production} {paths : List KPath}
    {res : List (List Value) × Bool × List KPath}
    (h : prodStep recur path ctx rule kpath prod paths = .ok res) :
    ∀ q, q ∈ res.2.2 → q ∈ paths := by
  rw [prodStep] at h
  cases hc : coversKPath kpath paths prod.mAtoms with
  | none =>
    rw [hc] at h
    exact atomsLoop_monoT Hm h
  | some kp =>
    rw [hc] at h
    intro q hq
    exact List.erase_subset _ _ (atomsLoop_monoT Hm h q hq)

theorem prodsLoop_monoT {recur : CovFn} (Hm : CovMono recur)
    {path : List Atom} {ctx : Context} {rule : String} {kpath : KPath} :
    ∀ {prods : List Production} {cov non : List Value} {paths : List KPath}
      {res : List Value × List Value × List KPath},
      prodsLoop recur path ctx rule kpath prods cov non paths = .ok res →
      ∀ q, q ∈ res.2.2 → q ∈ paths
  | [], cov, non, paths, res, h => by
    rw [prodsLoop] at h
    simp only [Except.ok.injEq] at h
    rw [← h]
    exact fun q hq => hq
  | p :: rest, cov, non, paths, res, h => by
    rw [prodsLoop] at h
    cases hs : prodStep recur path ctx rule kpath p paths with
    | error e => rw [hs] at h; exact absurd h (by simp)
    | ok t =>
      obtain ⟨prefixes, covers, paths2⟩ := t
      rw [hs] at h
      dsimp only at h
      intro q hq
      cases covers with
      | true =>
        rw [if_pos rfl] at h
        exact prodStep_monoT Hm hs q (prodsLoop_monoT Hm h q hq)
      | false =>
        rw [if_neg (by simp)] at h
        exact prodStep_monoT Hm hs q (prodsLoop_monoT Hm h q hq)

theorem covExpCore_monoT {g : Grammar} {k : Nat} {recur : CovFn}
    (Hm : CovMono recur) {d1 : Nat} {path : List Atom} {ctx : Context}
    {paths : List KPath} {cov non : List Value} {p2 : List KPath}
    (h : covExpCore g k recur d1 path ctx paths = .ok (cov, non, p2)) :
    ∀ q, q ∈ p2 → q ∈ paths := by
  rw [covExpCore] at h
  cases hl : path.getLast? with
  | none => rw [hl] at h; exact absurd h (by simp)
  | some a =>
    cases a with
    | lit tg v => rw [hl] at h; exact absurd h (by simp)
    | ref tg rule ce =>
      rw [hl] at h
      dsimp only at h
      cases ha : g.getActiveProductions rule d1 ctx with
      | error e => rw [ha] at h; exact absurd h (by simp)
      | ok prods =>
        rw [ha] at h
        dsimp only at h
        exact fun q hq => prodsLoop_monoT Hm h q hq

theorem covExp_monoT (g : Grammar) (k : Nat) :
    ∀ d, CovMono (covExp g k d) := by
  intro d
  induction d with
  | zero =>
    intro p c ps cov non ps2 h
    rw [covExp] at h
    exact absurd h (by simp)
  | succ d ih =>
    intro p c ps cov non ps2 h
    rw [covExp] at h
    cases hc : covExpCore g k (covExp g k d) (d + 1) p c ps with
    | error e => rw [hc] at h; exact absurd h (by simp)
    | ok t =>
      obtain ⟨cov0, non0, p0⟩ := t
      rw [hc] at h
      dsimp only at h
      have hm := covExpCore_monoT ih hc
      by_cases he : cov0.isEmpty = true
      · rw [if_pos he] at h
        simp only [Except.ok.injEq, Prod.mk.injEq] at h
        rw [← h.2.2]
        exact hm
      · rw [if_neg he] at h
        simp only [Except.ok.injEq, Prod.mk.injEq] at h
        rw [← h.2.2]
        exact hm

theorem atomExpansionStep_fitsT {recur : CovFn} (Hh : CovHeadP recur)
    {path : List Atom} {ctx : Context} {paths : List KPath} {a : Atom}
    {ext : List Value} {c2 : Bool} {paths2 : List KPath}
    (h : atomExpansionStep recur path ctx paths a = .ok (ext, c2, paths2)) :
    ∀ e ∈ ext, AtomFits a e := by
  cases a with
  | lit tg v =>
    rw [atomExpansionStep] at h
    simp only [Except.ok.injEq, Prod.mk.injEq] at h
    intro e he
    rw [← h.1] at he
    simp only [List.mem_cons, List.not_mem_nil, or_false] at he
    subst he
    rfl
  | ref tg r ce =>
    rw [atomExpansionStep] at h
    cases hr : recur (path ++ [Atom.ref tg r ce]) (ctx.pushList ce) paths with
    | error e => rw [hr] at h; exact absurd h (by simp)
    | ok t =>
      obtain ⟨sc, sn, p2⟩ := t
      rw [hr] at h
      dsimp only at h
      have hhead := Hh _ _ _ _ _ _ tg r ce (by
        rw [List.getLast?_concat]) hr
      by_cases hsc : sc.isEmpty = true
      · rw [if_pos hsc] at h
        simp only [Except.ok.injEq, Prod.mk.injEq] at h
        intro e he
        rw [← h.1] at he
        exact hhead e (Or.inr he)
      · rw [if_neg hsc] at h
        simp only [Except.ok.injEq, Prod.mk.injEq] at h
        intro e he
        rw [← h.1] at he
        exact hhead e (Or.inl he)

/-- Every tuple the atom loop produces extends an initial prefix by one
fitting element per atom. -/
theorem atomsLoop_shapeT {recur : CovFn} (Hne : CovNE recur)
    (Hh : CovHeadP recur) {path : List Atom} {ctx : Context} :
    ∀ {atoms : List Atom} {prefixes : List (List Value)} {covers : Bool}
      {paths : List KPath} {res : List (List Value) × Bool × List KPath},
      atomsLoop recur path ctx atoms prefixes covers paths = .ok res →
      prefixes ≠ [] →
      ∀ w ∈ res.1, ∃ b ∈ prefixes, ∃ es,
        w = b ++ es ∧ List.Forall₂ AtomFits atoms es
  | [], prefixes, covers, paths, res, h, hp => by
    rw [atomsLoop] at h
    simp only [Except.ok.injEq] at h
    subst h
    intro w hw
    exact ⟨w, hw, [], by simp, List.Forall₂.nil⟩
  | a :: rest, prefixes, covers, paths, res, h, hp => by
    rw [atomsLoop] at h
    cases hs : atomExpansionStep recur path ctx paths a with
    | error e => rw [hs] at h; exact absurd h (by simp)
    | ok t =>
      obtain ⟨ext, c2, paths2⟩ := t
      rw [hs] at h
      dsimp only at h
      have hext : ext ≠ [] := atomExpansionStep_neT Hne hs
      have hfits := atomExpansionStep_fitsT Hh hs
      intro w hw
      obtain ⟨b2, hb2, es2, hw2, hf2⟩ := atomsLoop_shapeT Hne Hh h
        (extendSorted_ne_nilT _ _ hp hext) w hw
      rw [mem_extendSortedT] at hb2
      obtain ⟨b, hb, e, he, hbe⟩ := extendByCycling_mem_src hp hext hb2
      refine ⟨b, hb, e :: es2, ?_, List.Forall₂.cons (hfits e he) hf2⟩
      rw [hw2, hbe, List.append_assoc, List.singleton_append]

theorem prodsLoop_headT {recur : CovFn} (Hne : CovNE recur)
    (Hh : CovHeadP recur) {path : List Atom} {ctx : Context}
    {rule : String} {kpath : KPath} :
    ∀ {prods : List Production} {cov non : List Value} {paths : List KPath}
      {res : List Value × List Value × List KPath},
      prodsLoop recur path ctx rule kpath prods cov non paths = .ok res →
      (∀ v ∈ cov, ∃ elems, v = Value.pr (Value.sym rule) elems) →
      (∀ v ∈ non, ∃ elems, v = Value.pr (Value.sym rule) elems) →
      ∀ v, v ∈ res.1 ∨ v ∈ res.2.1 →
        ∃ elems, v = Value.pr (Value.sym rule) elems
  | [], cov, non, paths, res, h, hc, hn => by
    rw [prodsLoop] at h
    simp only [Except.ok.injEq] at h
    subst h
    intro v hv
    rcases hv with hv | hv
    · exact hc v hv
    · exact hn v hv
  | p :: rest, cov, non, paths, res, h, hc, hn => by
    rw [prodsLoop] at h
    cases hs : prodStep recur path ctx rule kpath p paths with
    | error e => rw [hs] at h; exact absurd h (by simp)
    | ok t =>
      obtain ⟨prefixes, covers, paths2⟩ := t
      rw [hs] at h
      dsimp only at h
      have hshape : ∀ w ∈ prefixes, ∃ es, w = Value.sym rule :: es := by
        intro w hw
        have hstep : ∃ b ∈ [[Value.sym rule]], ∃ es,
            w = b ++ es ∧ List.Forall₂ AtomFits p.mAtoms es := by
          rw [prodStep] at hs
          cases hck : coversKPath kpath paths p.mAtoms with
          | none =>
            rw [hck] at hs
            exact atomsLoop_shapeT Hne Hh hs (by simp) w hw
          | some kp =>
            rw [hck] at hs
            exact atomsLoop_shapeT Hne Hh hs (by simp) w hw
        obtain ⟨b, hb, es, hwe, -⟩ := hstep
        simp only [List.mem_cons, List.not_mem_nil, or_false] at hb
        subst hb
        exact ⟨es, by rw [hwe]; rfl⟩
      have hmapped : ∀ v ∈ prefixes.map Value.ofList,
          ∃ elems, v = Value.pr (Value.sym rule) elems := by
        intro v hv
        obtain ⟨w, hw, rfl⟩ := List.mem_map.mp hv
        obtain ⟨es, rfl⟩ := hshape w hw
        exact ⟨es, rfl⟩
      cases covers with
      | true =>
        rw [if_pos rfl] at h
        refine prodsLoop_headT Hne Hh h ?_ hn
        intro v hv
        rcases (mem_setInsertAll vcmp_isCmp v _ _).mp hv with hv | hv
        · exact hc v hv
        · exact hmapped v hv
      | false =>
        rw [if_neg (by simp)] at h
        refine prodsLoop_headT Hne Hh h hc ?_
        intro v hv
        rcases (mem_setInsertAll vcmp_isCmp v _ _).mp hv with hv | hv
        · exact hn v hv
        · exact hmapped v hv

theorem covExp_headT (g : Grammar) (k : Nat) :
    ∀ d, CovHeadP (covExp g k d) := by
  intro d
  induction d with
  | zero =>
    intro p c ps cov non ps2 tg r ce hl h
    rw [covExp] at h
    exact absurd h (by simp)
  | succ d ih =>
    intro p c ps cov non ps2 tg r ce hl h
    rw [covExp] at h
    cases hc : covExpCore g k (covExp g k d) (d + 1) p c ps with
    | error e => rw [hc] at h; exact absurd h (by simp)
    | ok t =>
      obtain ⟨cov0, non0, p0⟩ := t
      have hhead0 : ∀ v, v ∈ cov0 ∨ v ∈ non0 →
          ∃ elems, v = Value.pr (Value.sym r) elems := by
        rw [covExpCore, hl] at hc
        dsimp only at hc
        cases ha : g.getActiveProductions r (d + 1) c with
        | error e => rw [ha] at hc; exact absurd hc (by simp)
        | ok prods =>
          rw [ha] at hc
          dsimp only at hc
          exact prodsLoop_headT (covExp_neT g k d) ih hc
            (by intro v hv; exact absurd hv (by simp))
            (by intro v hv; exact absurd hv (by simp))
      rw [hc] at h
      dsimp only at h
      by_cases he : cov0.isEmpty = true
      · rw [if_pos he] at h
        simp only [Except.ok.injEq, Prod.mk.injEq] at h
        intro v hv
        rcases hv with hv | hv
        · rw [← h.1] at hv
          exact hhead0 v (Or.inl hv)
        · rw [← h.2.1] at hv
          exact hhead0 v (Or.inr (List.take_subset _ _ hv))
      · rw [if_neg he] at h
        simp only [Except.ok.injEq, Prod.mk.injEq] at h
        intro v hv
        rcases hv with hv | hv
        · rw [← h.1] at hv
          exact hhead0 v (Or.inl hv)
        · rw [← h.2.1] at hv
          exact absurd hv (by simp)

theorem atomsLoop_keepT {recur : CovFn} (Hne : CovNE recur)
    {path : List Atom} {ctx : Context} :
    ∀ {atoms : List Atom} {prefixes : List (List Value)} {covers : Bool}
      {paths : List KPath} {res : List (List Value) × Bool × List KPath}
      {v2 : Value},
      atomsLoop recur path ctx atoms prefixes covers paths = .ok res →
      (∃ w ∈ prefixes, v2 ∈ w) →
      ∃ w ∈ res.1, v2 ∈ w
  | [], prefixes, covers, paths, res, v2, h, hw => by
    rw [atomsLoop] at h
    simp only [Except.ok.injEq] at h
    subst h
    exact hw
  | a :: rest, prefixes, covers, paths, res, v2, h, hw => by
    rw [atomsLoop] at h
    cases hs : atomExpansionStep recur path ctx paths a with
    | error e => rw [hs] at h; exact absurd h (by simp)
    | ok t =>
      obtain ⟨ext, c2, paths2⟩ := t
      rw [hs] at h
      dsimp only at h
      obtain ⟨w, hwp, hv⟩ := hw
      have hpne : prefixes ≠ [] := by
        intro he
        rw [he] at hwp
        exact absurd hwp (by simp)
      obtain ⟨e, -, hmem⟩ := extendByCycling_mem_base hpne
        (atomExpansionStep_neT Hne hs) hwp
      refine atomsLoop_keepT Hne h ⟨w ++ [e], ?_, by simp [hv]⟩
      rw [mem_extendSortedT]
      exact hmem

theorem atomsLoop_covers_trueT {recur : CovFn} {path : List Atom}
    {ctx : Context} :
    ∀ {atoms : List Atom} {prefixes : List (List Value)}
      {paths : List KPath} {res : List (List Value) × Bool × List KPath},
      atomsLoop recur path ctx atoms prefixes true paths = .ok res →
      res.2.1 = true
  | [], prefixes, paths, res, h => by
    rw [atomsLoop] at h
    simp only [Except.ok.injEq] at h
    subst h
    rfl
  | a :: rest, prefixes, paths, res, h => by
    rw [atomsLoop] at h
    cases hs : atomExpansionStep recur path ctx paths a with
    | error e => rw [hs] at h; exact absurd h (by simp)
    | ok t =>
      obtain ⟨ext, c2, paths2⟩ := t
      rw [hs] at h
      dsimp only at h
      rw [Bool.true_or] at h
      exact atomsLoop_covers_trueT h

theorem atomExpansionStep_eraseT {k : Nat} {recur : CovFn}
    (Hw : CovWit k recur) {path : List Atom} {ctx : Context}
    {paths : List KPath} {a : Atom} {ext : List Value} {c2 : Bool}
    {paths2 : List KPath}
    (h : atomExpansionStep recur path ctx paths a = .ok (ext, c2, paths2))
    (hlen : ∀ q, q ∈ paths → q.length = k)
    {p : KPath} (hp : p ∈ paths) (hnp : p ∉ paths2) :
    c2 = true ∧ ∃ v2 tg2 r2 ce2, v2 ∈ ext ∧ a = Atom.ref tg2 r2 ce2 ∧
      RealizedUnder (path ++ [Atom.ref tg2 r2 ce2]) v2 p := by
  cases a with
  | lit tg v =>
    rw [atomExpansionStep] at h
    simp only [Except.ok.injEq, Prod.mk.injEq] at h
    rw [← h.2.2] at hnp
    exact absurd hp hnp
  | ref tg r ce =>
    rw [atomExpansionStep] at h
    cases hr : recur (path ++ [Atom.ref tg r ce]) (ctx.pushList ce) paths with
    | error e => rw [hr] at h; exact absurd h (by simp)
    | ok t =>
      obtain ⟨sc, sn, p2⟩ := t
      rw [hr] at h
      dsimp only at h
      by_cases hsc : sc.isEmpty = true
      · rw [if_pos hsc] at h
        simp only [Except.ok.injEq, Prod.mk.injEq] at h
        rw [← h.2.2] at hnp
        obtain ⟨v2, hv2, -⟩ := Hw _ _ _ _ _ _ hr hlen p hp hnp
        rw [List.isEmpty_iff] at hsc
        rw [hsc] at hv2
        exact absurd hv2 (by simp)
      · rw [if_neg hsc] at h
        simp only [Except.ok.injEq, Prod.mk.injEq] at h
        rw [← h.2.2] at hnp
        obtain ⟨v2, hv2, hreal⟩ := Hw _ _ _ _ _ _ hr hlen p hp hnp
        refine ⟨h.2.1.symm, v2, tg, r, ce, ?_, rfl, hreal⟩
        rw [← h.1]
        exact hv2

/-- Lifting one derivation level: a k-path realized under the extended
path `path ++ [ref r2]` by a tuple element is realized under `path` by
the assembled node. -/
theorem lift_realizedT {path : List Atom} {tg : Nat} {rule : String}
    {ce0 : List String}
    (hl : path.getLast? = some (Atom.ref tg rule ce0)) {tg2 : Nat}
    {r2 : String} {ce2 : List String} {v2 : Value} {es : List Value}
    (hv : v2 ∈ es) {p : KPath}
    (h : RealizedUnder (path ++ [Atom.ref tg2 r2 ce2]) v2 p) :
    RealizedUnder path (Value.pr (Value.sym rule) es) p := by
  rcases h with h | ⟨s, b, t, hp, hsfx, hanch⟩
  · exact Or.inl (RealizedIn.sub rule es v2 hv h)
  · obtain ⟨l2, hl2, hsl⟩ := suffix_concat hsfx (by simp)
    obtain ⟨hse, hbe⟩ : s = l2 ∧ b = Atom.ref tg2 r2 ce2 := by
      obtain ⟨h1, h2⟩ := List.append_inj' hl2 rfl
      simp only [List.cons.injEq, and_true] at h2
      exact ⟨h1, h2⟩
    subst hse
    subst hbe
    cases s with
    | nil =>
      rw [List.nil_append] at hp
      exact Or.inl (RealizedIn.sub rule es v2 hv
        (RealizedIn.here (by rw [hp]; exact hanch)))
    | cons s0 srest =>
      obtain ⟨pf, hpf⟩ := getLast?_some_concat hl
      rw [hpf] at hsl
      obtain ⟨s2, hs2, hs2sub⟩ := suffix_concat hsl (by simp)
      refine Or.inr ⟨s2, Atom.ref tg rule ce0,
        Atom.ref tg2 r2 ce2 :: t, ?_, ?_, ?_⟩
      · rw [hp, hs2, List.append_assoc, List.singleton_append]
      · obtain ⟨u, hu⟩ := hs2sub
        exact ⟨u, by rw [hpf, ← hu, List.append_assoc]⟩
      · exact AnchoredAt.refStep tg rule ce0 es v2
          (Atom.ref tg2 r2 ce2 :: t) tg2 r2 ce2 t hv hanch rfl

/-- An erased k-path, seen from the atom loop: the loop ends with the
covering flag set, and some surviving tuple holds a sub-expansion under
whose extended path the k-path is realized. -/
theorem atomsLoop_eraseT {k : Nat} {recur : CovFn} (Hne : CovNE recur)
    (Hh : CovHeadP recur) (Hm : CovMono recur) (Hw : CovWit k recur)
    {path : List Atom} {ctx : Context} :
    ∀ {atoms : List Atom} {prefixes : List (List Value)} {covers : Bool}
      {paths : List KPath} {res : List (List Value) × Bool × List KPath},
      atomsLoop recur path ctx atoms prefixes covers paths = .ok res →
      prefixes ≠ [] →
      (∀ q, q ∈ paths → q.length = k) →
      ∀ p, p ∈ paths → p ∉ res.2.2 →
        res.2.1 = true ∧ ∃ w, w ∈ res.1 ∧ ∃ v2 tg2 r2 ce2 elems, v2 ∈ w ∧
          v2 = Value.pr (Value.sym r2) elems ∧
          RealizedUnder (path ++ [Atom.ref tg2 r2 ce2]) v2 p
  | [], prefixes, covers, paths, res, h, hpre, hlen, p, hp, hnp => by
    rw [atomsLoop] at h
    simp only [Except.ok.injEq] at h
    subst h
    exact absurd hp hnp
  | a :: rest, prefixes, covers, paths, res, h, hpre, hlen, p, hp, hnp => by
    rw [atomsLoop] at h
    cases hs : atomExpansionStep recur path ctx paths a with
    | error e => rw [hs] at h; exact absurd h (by simp)
    | ok t =>
      obtain ⟨ext, c2, paths2⟩ := t
      rw [hs] at h
      dsimp only at h
      have hext : ext ≠ [] := atomExpansionStep_neT Hne hs
      have hpre2 : setInsertAll (listCmp vcmp) []
          (extendByCycling prefixes ext) ≠ [] :=
        extendSorted_ne_nilT _ _ hpre hext
      by_cases hp2 : p ∈ paths2
      · have hlen2 : ∀ q, q ∈ paths2 → q.length = k := fun q hq =>
          hlen q (atomExpansionStep_monoT Hm hs q hq)
        exact atomsLoop_eraseT Hne Hh Hm Hw h hpre2 hlen2 p hp2 hnp
      · obtain ⟨hc2, v2, tg2, r2, ce2, hv2, ha, hreal⟩ :=
          atomExpansionStep_eraseT Hw hs hlen hp hp2
        subst ha
        obtain ⟨elems, helems⟩ := atomExpansionStep_fitsT Hh hs v2 hv2
        subst hc2
        obtain ⟨b, hb, hmem⟩ := extendByCycling_mem_ext hpre hext hv2
        obtain ⟨w, hw, hvw⟩ := atomsLoop_keepT Hne h
          ⟨b ++ [v2], by rw [mem_extendSortedT]; exact hmem,
            show v2 ∈ b ++ [v2] by simp⟩
        refine ⟨?_, w, hw, v2, tg2, r2, ce2, elems, hvw, helems, hreal⟩
        rw [Bool.or_true] at h
        exact atomsLoop_covers_trueT h

/-- The atom loop run from the singleton `{{Value(rule)}}` prefix: an
erased k-path is realized under `path` by a surviving tuple's chain. -/
theorem atomsLoop_erase_liftT {k : Nat} {recur : CovFn} (Hne : CovNE recur)
    (Hh : CovHeadP recur) (Hm : CovMono recur) (Hw : CovWit k recur)
    {path : List Atom} {ctx : Context} {tg : Nat} {rule : String}
    {ce0 : List String}
    (hl : path.getLast? = some (Atom.ref tg rule ce0))
    {atoms : List Atom} {covers0 : Bool} {paths : List KPath}
    {prefixes : List (List Value)} {covers : Bool} {paths2 : List KPath}
    (h : atomsLoop recur path ctx atoms [[Value.sym rule]] covers0 paths =
      .ok (prefixes, covers, paths2))
    (hlen : ∀ q, q ∈ paths → q.length = k)
    {p : KPath} (hp : p ∈ paths) (hnp : p ∉ paths2) :
    covers = true ∧ ∃ w, w ∈ prefixes ∧
      RealizedUnder path (Value.ofList w) p := by
  obtain ⟨hcov, w, hw, v2, tg2, r2, ce2, elems, hvw, hshape2, hreal⟩ :=
    atomsLoop_eraseT Hne Hh Hm Hw h (by simp) hlen p hp hnp
  obtain ⟨b, hb, es, hwes, -⟩ := atomsLoop_shapeT Hne Hh h (by simp) w hw
  simp only [List.mem_cons, List.not_mem_nil, or_false] at hb
  subst hb
  subst hwes
  have hv2es : v2 ∈ es := by
    rcases List.mem_append.mp hvw with h1 | h1
    · simp only [List.mem_singleton] at h1
      rw [h1] at hshape2
      exact absurd hshape2 (by simp)
    · exact h1
  exact ⟨hcov, _, hw, lift_realizedT hl hv2es hreal⟩

/-- An erased k-path, seen from one production: either the production's
atoms hit it as a one-step extension of the current `k-1`-suffix, or the
atom loop's recursion erased it; either way the production covers and
some final tuple realizes it. -/
theorem prodStep_eraseT {k : Nat} {recur : CovFn} (Hne : CovNE recur)
    (Hh : CovHeadP recur) (Hm : CovMono recur) (Hw : CovWit k recur)
    {path : List Atom} {ctx : Context} {tg : Nat} {rule : String}
    {ce0 : List String} {kpath : KPath} {prod : Production}
    {paths : List KPath} {prefixes : List (List Value)} {covers : Bool}
    {paths2 : List KPath}
    (hl : path.getLast? = some (Atom.ref tg rule ce0))
    (hkpsfx : kpath <:+ path)
    (h : prodStep recur path ctx rule kpath prod paths =
      .ok (prefixes, covers, paths2))
    (hlen : ∀ q, q ∈ paths → q.length = k) (hk : 2 ≤ k)
    {p : KPath} (hp : p ∈ paths) (hnp : p ∉ paths2) :
    covers = true ∧ ∃ w, w ∈ prefixes ∧
      RealizedUnder path (Value.ofList w) p := by
  rw [prodStep] at h
  cases hck : coversKPath kpath paths prod.mAtoms with
  | none =>
    rw [hck] at h
    exact atomsLoop_erase_liftT Hne Hh Hm Hw hl h hlen hp hnp
  | some kp =>
    rw [hck] at h
    by_cases hpe : p ∈ paths.erase kp
    · exact atomsLoop_erase_liftT Hne Hh Hm Hw hl h
        (fun q hq => hlen q (List.erase_subset _ _ hq)) hpe hnp
    · have hpkp : p = kp := by
        by_contra hne2
        exact hpe ((List.mem_erase_of_ne hne2).mpr hp)
      subst hpkp
      obtain ⟨a0, ha0, hkp, -⟩ := coversKPath_someT hck
      have hcov : covers = true := atomsLoop_covers_trueT h
      have hpre : prefixes ≠ [] :=
        atomsLoop_neT Hne _ _ _ _ (prefixes, covers, paths2) (by simp) h
      obtain ⟨w, hw⟩ := List.exists_mem_of_ne_nil prefixes hpre
      obtain ⟨b, hb, es, hwes, hfa⟩ :=
        atomsLoop_shapeT Hne Hh h (by simp) w hw
      simp only [List.mem_cons, List.not_mem_nil, or_false] at hb
      subst hb
      subst hwes
      obtain ⟨e, he, hfit⟩ := forall2_mem hfa a0 ha0
      have hkne : kpath ≠ [] := by
        intro hnil
        have := hlen p hp
        rw [hkp, hnil] at this
        simp at this
        omega
      rcases List.eq_nil_or_concat kpath with hnil | ⟨s, b0, hsb⟩
      · exact absurd hnil hkne
      · simp only [List.concat_eq_append] at hsb
        have hb0 : b0 = Atom.ref tg rule ce0 := by
          obtain ⟨u, hu⟩ := hkpsfx
          have hu2 : path = (u ++ s) ++ [b0] := by
            rw [← hu, hsb, List.append_assoc]
          rw [hu2, List.getLast?_concat] at hl
          simp only [Option.some.injEq] at hl
          exact hl
        subst hb0
        refine ⟨hcov, _, hw,
          Or.inr ⟨s, Atom.ref tg rule ce0, [a0], ?_, ?_, ?_⟩⟩
        · rw [hkp, hsb, List.append_assoc, List.singleton_append]
        · rw [← hsb]
          exact hkpsfx
        · cases a0 with
          | lit tga wl =>
            rw [AtomFits] at hfit
            subst hfit
            exact AnchoredAt.litStep tg tga rule ce0 es e he
          | ref tga ra cea =>
            obtain ⟨elems, helems⟩ := hfit
            exact AnchoredAt.refStep tg rule ce0 es e [Atom.ref tga ra cea]
              tga ra cea [] he (helems ▸ AnchoredAt.refEnd tga ra cea elems)
              rfl

/-- The covering accumulator of the production loop only grows. -/
theorem prodsLoop_cov_subT {recur : CovFn} {path : List Atom}
    {ctx : Context} {rule : String} {kpath : KPath} :
    ∀ {prods : List Production} {cov non : List Value} {paths : List KPath}
      {res : List Value × List Value × List KPath},
      prodsLoop recur path ctx rule kpath prods cov non paths = .ok res →
      ∀ v, v ∈ cov → v ∈ res.1
  | [], cov, non, paths, res, h => by
    rw [prodsLoop] at h
    simp only [Except.ok.injEq] at h
    rw [← h]
    exact fun v hv => hv
  | p :: rest, cov, non, paths, res, h => by
    rw [prodsLoop] at h
    cases hs : prodStep recur path ctx rule kpath p paths with
    | error e => rw [hs] at h; exact absurd h (by simp)
    | ok t =>
      obtain ⟨prefixes, covers, paths2⟩ := t
      rw [hs] at h
      dsimp only at h
      cases covers with
      | true =>
        rw [if_pos rfl] at h
        intro v hv
        exact prodsLoop_cov_subT h v
          ((mem_setInsertAll vcmp_isCmp v _ _).mpr (Or.inl hv))
      | false =>
        rw [if_neg (by simp)] at h
        exact prodsLoop_cov_subT h

/-- An erased k-path, seen from the production loop: some value of the
final covering set realizes it under the call path. -/
theorem prodsLoop_eraseT {k : Nat} {recur : CovFn} (Hne : CovNE recur)
    (Hh : CovHeadP recur) (Hm : CovMono recur) (Hw : CovWit k recur)
    {path : List Atom} {ctx : Context} {tg : Nat} {rule : String}
    {ce0 : List String} {kpath : KPath}
    (hl : path.getLast? = some (Atom.ref tg rule ce0))
    (hkpsfx : kpath <:+ path) (hk : 2 ≤ k) :
    ∀ {prods : List Production} {cov non : List Value} {paths : List KPath}
      {res : List Value × List Value × List KPath},
      prodsLoop recur path ctx rule kpath prods cov non paths = .ok res →
      (∀ q, q ∈ paths → q.length = k) →
      ∀ p, p ∈ paths → p ∉ res.2.2 →
        ∃ v, v ∈ res.1 ∧ RealizedUnder path v p
  | [], cov, non, paths, res, h, hlen, p, hp, hnp => by
    rw [prodsLoop] at h
    simp only [Except.ok.injEq] at h
    subst h
    exact absurd hp hnp
  | pd :: rest, cov, non, paths, res, h, hlen, p, hp, hnp => by
    rw [prodsLoop] at h
    cases hs : prodStep recur path ctx rule kpath pd paths with
    | error e => rw [hs] at h; exact absurd h (by simp)
    | ok t =>
      obtain ⟨prefixes, covers, paths2⟩ := t
      rw [hs] at h
      dsimp only at h
      by_cases hp2 : p ∈ paths2
      · have hlen2 : ∀ q, q ∈ paths2 → q.length = k := fun q hq =>
          hlen q (prodStep_monoT Hm hs q hq)
        cases covers with
        | true =>
          rw [if_pos rfl] at h
          exact prodsLoop_eraseT Hne Hh Hm Hw hl hkpsfx hk h hlen2 p hp2 hnp
        | false =>
          rw [if_neg (by simp)] at h
          exact prodsLoop_eraseT Hne Hh Hm Hw hl hkpsfx hk h hlen2 p hp2 hnp
      · obtain ⟨hcov, w, hw, hreal⟩ :=
          prodStep_eraseT Hne Hh Hm Hw hl hkpsfx hs hlen hk hp hp2
        subst hcov
        rw [if_pos rfl] at h
        refine ⟨Value.ofList w, ?_, hreal⟩
        exact prodsLoop_cov_subT h _
          ((mem_setInsertAll vcmp_isCmp _ _ _).mpr
            (Or.inr (List.mem_map_of_mem _ hw)))

/-- The main induction for k-path completeness: at any depth limit, every
k-path erased by `kPathCoveringOrMinimalExpansion` is realized under the
ref path by some value of the returned covering set. -/
theorem covExp_witT (g : Grammar) (k : Nat) (hk : 2 ≤ k) :
    ∀ d, CovWit k (covExp g k d) := by
  intro d
  induction d with
  | zero =>
    intro p c ps cov non ps2 h
    rw [covExp] at h
    exact absurd h (by simp)
  | succ d ih =>
    intro p c ps cov non ps2 h hlen pp hpp hnpp
    rw [covExp] at h
    cases hc : covExpCore g k (covExp g k d) (d + 1) p c ps with
    | error e => rw [hc] at h; exact absurd h (by simp)
    | ok t =>
      obtain ⟨cov0, non0, p0⟩ := t
      rw [hc] at h
      dsimp only at h
      obtain ⟨hcov, hps2⟩ : cov = cov0 ∧ ps2 = p0 := by
        by_cases he : cov0.isEmpty = true
        · rw [if_pos he] at h
          simp only [Except.ok.injEq, Prod.mk.injEq] at h
          exact ⟨h.1.symm, h.2.2.symm⟩
        · rw [if_neg he] at h
          simp only [Except.ok.injEq, Prod.mk.injEq] at h
          exact ⟨h.1.symm, h.2.2.symm⟩
      subst hcov
      subst hps2
      rw [covExpCore] at hc
      cases hlp : p.getLast? with
      | none => rw [hlp] at hc; exact absurd hc (by simp)
      | some a =>
        cases a with
        | lit tg v => rw [hlp] at hc; exact absurd hc (by simp)
        | ref tg rule ce =>
          rw [hlp] at hc
          dsimp only at hc
          cases ha : g.getActiveProductions rule (d + 1) c with
          | error e => rw [ha] at hc; exact absurd hc (by simp)
          | ok prods =>
            rw [ha] at hc
            dsimp only at hc
            have hsfx : (if k - 1 ≤ p.length then
                p.drop (p.length - (k - 1)) else []) <:+ p := by
              by_cases hkl : k - 1 ≤ p.length
              · rw [if_pos hkl]
                exact List.drop_suffix _ _
              · rw [if_neg hkl]
                exact List.nil_suffix
            exact prodsLoop_eraseT (covExp_neT g k d) (covExp_headT g k d)
              (covExp_monoT g k d) ih hlp hsfx hk hc hlen pp hpp hnpp

/-- Every k-path emitted by one atom step was accumulated before or comes
out of a recursive expansion call. -/
theorem expandAtomStep_accT {recur : KPath → Context → List Atom →
      Except GErr (List KPath × List Atom)}
    {k : Nat} {prefixp : KPath} {ctx : Context} {a : Atom}
    {acc : List KPath} {roots : List Atom} {res : List KPath × List Atom}
    (h : expandAtomStep recur k prefixp ctx a acc roots = .ok res) :
    ∀ q, q ∈ res.1 → q ∈ acc ∨
      ∃ pf c r res2, recur pf c r = .ok res2 ∧ q ∈ res2.1 := by
  unfold expandAtomStep at h
  cases a with
  | lit tg v =>
    dsimp only at h
    by_cases hc : prefixp.length = k - 1
    · rw [if_pos (Or.inr hc)] at h
      cases hr : recur (prefixp ++ [Atom.lit tg v]) ctx roots with
      | error e => rw [hr] at h; exact absurd h (by simp)
      | ok t =>
        obtain ⟨exp, roots2⟩ := t
        rw [hr] at h
        dsimp only at h
        rw [if_neg (by simp)] at h
        simp only [Except.ok.injEq] at h
        subst h
        intro q hq
        rcases List.mem_append.mp hq with hq | hq
        · exact Or.inl hq
        · exact Or.inr ⟨_, _, _, _, hr, hq⟩
    · rw [if_neg (by simp [hc])] at h
      dsimp only at h
      rw [if_neg (by simp)] at h
      simp only [Except.ok.injEq] at h
      subst h
      exact fun q hq => Or.inl hq
  | ref tg r ce =>
    dsimp only at h
    rw [if_pos (Or.inl rfl)] at h
    cases hr : recur (prefixp ++ [Atom.ref tg r ce])
        (ctx.pushList ce) roots with
    | error e => rw [hr] at h; exact absurd h (by simp)
    | ok t =>
      obtain ⟨exp, roots2⟩ := t
      rw [hr] at h
      dsimp only at h
      by_cases hm : Atom.ref tg r ce ∈ roots2
      · rw [if_neg (by simp [hm])] at h
        simp only [Except.ok.injEq] at h
        subst h
        intro q hq
        rcases List.mem_append.mp hq with hq | hq
        · exact Or.inl hq
        · exact Or.inr ⟨_, _, _, _, hr, hq⟩
      · rw [if_pos ⟨rfl, hm⟩] at h
        cases hr2 : recur [Atom.ref tg r ce] (ctx.pushList ce)
            (roots2 ++ [Atom.ref tg r ce]) with
        | error e => rw [hr2] at h; exact absurd h (by simp)
        | ok t2 =>
          obtain ⟨exp2, roots3⟩ := t2
          rw [hr2] at h
          simp only [Except.ok.injEq] at h
          subst h
          intro q hq
          rcases List.mem_append.mp hq with hq | hq
          · rcases List.mem_append.mp hq with hq | hq
            · exact Or.inl hq
            · exact Or.inr ⟨_, _, _, _, hr, hq⟩
          · exact Or.inr ⟨_, _, _, _, hr2, hq⟩

/-- Every k-path emitted by the expansion loop was accumulated before or
comes out of a recursive expansion call. -/
theorem expandLoop_accT {recur : KPath → Context → List Atom →
      Except GErr (List KPath × List Atom)}
    {k : Nat} {prefixp : KPath} {ctx : Context} :
    ∀ {atoms : List Atom} {acc : List KPath} {roots : List Atom}
      {res : List KPath × List Atom},
      expandLoop recur k prefixp ctx atoms acc roots = .ok res →
      ∀ q, q ∈ res.1 → q ∈ acc ∨
        ∃ pf c r res2, recur pf c r = .ok res2 ∧ q ∈ res2.1
  | [], acc, roots, res, h => by
    rw [expandLoop] at h
    simp only [Except.ok.injEq] at h
    subst h
    exact fun q hq => Or.inl hq
  | a :: rest, acc, roots, res, h => by
    rw [expandLoop] at h
    cases hs : expandAtomStep recur k prefixp ctx a acc roots with
    | error e => rw [hs] at h; exact absurd h (by simp)
    | ok t =>
      obtain ⟨acc2, roots2⟩ := t
      rw [hs] at h
      dsimp only at h
      intro q hq
      rcases expandLoop_accT h q hq with hq2 | hq2
      · exact expandAtomStep_accT hs q hq2
      · exact Or.inr hq2

/-- `expandKPathPrefix` only emits k-paths of length exactly `k`. -/
theorem expandKPathPrefix_lenT (g : Grammar) (k : Nat) :
    ∀ fuel {prefixp : KPath} {ctx : Context} {roots : List Atom}
      {res : List KPath × List Atom},
      expandKPathPrefix g k fuel prefixp ctx roots = .ok res →
      ∀ q, q ∈ res.1 → q.length = k := by
  intro fuel
  induction fuel with
  | zero =>
    intro prefixp ctx roots res h
    rw [expandKPathPrefix] at h
    exact absurd h (by simp)
  | succ fuel ih =>
    intro prefixp ctx roots res h q hq
    rw [expandKPathPrefix] at h
    by_cases hkl : prefixp.length = k
    · rw [if_pos hkl] at h
      simp only [Except.ok.injEq] at h
      subst h
      simp only [List.mem_singleton] at hq
      subst hq
      exact hkl
    · rw [if_neg hkl] at h
      cases hlp : prefixp.getLast? with
      | none => rw [hlp] at h; exact absurd h (by simp)
      | some a =>
        cases a with
        | lit tg v => rw [hlp] at h; exact absurd h (by simp)
        | ref tg rule ce =>
          rw [hlp] at h
          dsimp only at h
          cases ha : g.getActiveProductions rule k ctx with
          | error e => rw [ha] at h; exact absurd h (by simp)
          | ok prods =>
            rw [ha] at h
            dsimp only at h
            rcases expandLoop_accT h q hq with hq2 | ⟨pf, c, r, res2, hr, hq2⟩
            · exact absurd hq2 (by simp)
            · exact ih hr q hq2

/-- `generateKPathSet` only emits k-paths of length exactly `k`. -/
theorem generateKPathSet_lenT {g : Grammar} {k : Nat} {root : String}
    {specs : List String} {fuel : Nat} {paths : List KPath}
    (h : generateKPathSet g k root specs fuel = .ok paths) :
    ∀ q, q ∈ paths → q.length = k := by
  rw [generateKPathSet] at h
  cases hr : g.getRootRef root with
  | error e => rw [hr] at h; exact absurd h (by simp)
  | ok rootRef =>
    rw [hr] at h
    dsimp only at h
    cases he : expandKPathPrefix g k fuel [rootRef] (Context.mk specs [])
        [rootRef] with
    | error e => rw [he] at h; exact absurd h (by simp)
    | ok t =>
      obtain ⟨res, roots⟩ := t
      rw [he] at h
      simp only [Except.ok.injEq] at h
      subst h
      exact expandKPathPrefix_lenT g k fuel he

/-- A k-path realized under the singleton root path lies entirely in the
value's own derivation. -/
theorem realizedUnder_rootT {rootRef : Atom} {v : Value} {p : KPath}
    (h : RealizedUnder [rootRef] v p) : RealizedIn v p := by
  rcases h with h | ⟨s, b, t, hp, hsfx, hanch⟩
  · exact h
  · obtain ⟨u, hu⟩ := hsfx
    have hlen := congrArg List.length hu
    simp only [List.length_append, List.length_cons, List.length_nil,
      List.length_singleton] at hlen
    have hs : s = [] := List.eq_nil_of_length_eq_zero (by omega)
    have hu0 : u = [] := List.eq_nil_of_length_eq_zero (by omega)
    subst hs
    subst hu0
    simp only [List.nil_append, List.cons.injEq, and_true] at hu
    subst hu
    rw [hp, List.nil_append]
    exact RealizedIn.here hanch

/-- The driver loop: the result set only grows, and every k-path of the
work set ends up realized by some result value under the root path. -/
theorem kPathCoveringLoop_completeT (g : Grammar) (k : Nat)
    (rootRef : Atom) (ctx : Context) (hk : 2 ≤ k) :
    ∀ {fuel depthLimit : Nat} {res0 : List Value} {paths : List KPath}
      {resF : List Value},
      kPathCoveringLoop g k rootRef ctx fuel depthLimit res0 paths =
        .ok resF →
      (∀ q, q ∈ paths → q.length = k) →
      (∀ v, v ∈ res0 → v ∈ resF) ∧
      ∀ p, p ∈ paths → ∃ v, v ∈ resF ∧ RealizedUnder [rootRef] v p := by
  intro fuel
  induction fuel with
  | zero =>
    intro depthLimit res0 paths resF h
    rw [kPathCoveringLoop] at h
    exact absurd h (by simp)
  | succ fuel ih =>
    intro depthLimit res0 paths resF h hlen
    rw [kPathCoveringLoop] at h
    by_cases he : paths.isEmpty = true
    · rw [if_pos he] at h
      simp only [Except.ok.injEq] at h
      subst h
      refine ⟨fun v hv => hv, fun p hp => ?_⟩
      rw [List.isEmpty_iff] at he
      rw [he] at hp
      exact absurd hp (by simp)
    · rw [if_neg he] at h
      cases hc : covExp g k depthLimit [rootRef] ctx paths with
      | error e => rw [hc] at h; exact absurd h (by simp)
      | ok t =>
        obtain ⟨cov, non, paths2⟩ := t
        rw [hc] at h
        dsimp only at h
        have hlen2 : ∀ q, q ∈ paths2 → q.length = k := fun q hq =>
          hlen q (covExp_monoT g k depthLimit _ _ _ _ _ _ hc q hq)
        by_cases hce : cov.isEmpty = true
        · rw [if_pos hce] at h
          obtain ⟨hsub, hreal⟩ := ih h hlen2
          refine ⟨hsub, fun p hp => ?_⟩
          by_cases hp2 : p ∈ paths2
          · exact hreal p hp2
          · obtain ⟨v, hv, -⟩ :=
              covExp_witT g k hk depthLimit _ _ _ _ _ _ hc hlen p hp hp2
            rw [List.isEmpty_iff] at hce
            rw [hce] at hv
            exact absurd hv (by simp)
        · rw [if_neg hce] at h
          obtain ⟨hsub, hreal⟩ := ih h hlen2
          refine ⟨fun v hv => hsub v
            ((mem_setInsertAll vcmp_isCmp v _ _).mpr (Or.inl hv)),
            fun p hp => ?_⟩
          by_cases hp2 : p ∈ paths2
          · exact hreal p hp2
          · obtain ⟨v, hv, hr⟩ :=
              covExp_witT g k hk depthLimit _ _ _ _ _ _ hc hlen p hp hp2
            exact ⟨v, hsub v
              ((mem_setInsertAll vcmp_isCmp v _ _).mpr (Or.inr hv)), hr⟩

/-- C1: for every grammar, root rule, parameter specs, and k at least 2,
every k-path enumerated by `generateKPathSet` occurs (as a k-prefix of
the derivation) in at least one value of the set `kPathCovering`
returns. -/
theorem kPathCovering_complete (g : Grammar) (k : Nat) (root : String)
    (specs : List String) (fuel : Nat) (paths : List KPath)
    (res : List Value) (hk : 2 ≤ k)
    (hgen : generateKPathSet g k root specs fuel = .ok paths)
    (hrun : kPathCovering g k root specs fuel = .ok res)
    (p : KPath) (hp : p ∈ paths) :
    ∃ v, v ∈ res ∧ RealizedIn v p := by
  rw [kPathCovering] at hrun
  cases hr : g.getRootRef root with
  | error e => rw [hr] at hrun; exact absurd hrun (by simp)
  | ok rootRef =>
    rw [hr] at hrun
    dsimp only at hrun
    rw [hgen] at hrun
    obtain ⟨-, hreal⟩ := kPathCoveringLoop_completeT g k rootRef
      (Context.mk specs []) hk hrun (generateKPathSet_lenT hgen)
    obtain ⟨v, hv, hru⟩ := hreal p hp
    exact ⟨v, hv, realizedUnder_rootT hru⟩

/-- C1 witness: at the grammar `A -> (B); B -> ()` (root refs tagged 0
and 1, the `B`-occurrence inside rule `A` tagged 2) with `k = 2`, the
enumerated k-path `A.B` is realized in the covering value `(A (B))`. -/
theorem kPathCovering_complete_witness :
    ∃ v, v ∈ [Value.pr (Value.sym "A") [Value.pr (Value.sym "B") []]] ∧
      RealizedIn v [Atom.ref 0 "A" [], Atom.ref 2 "B" []] :=
  kPathCovering_complete
    ⟨[("A", [⟨[Atom.ref 2 "B" []], []⟩]), ("B", [⟨[], []⟩])],
      [("A", Atom.ref 0 "A" []), ("B", Atom.ref 1 "B" [])]⟩
    2 "A" [] 5
    [[Atom.ref 0 "A" [], Atom.ref 2 "B" []]]
    [Value.pr (Value.sym "A") [Value.pr (Value.sym "B") []]]
    (by decide) (by rfl) (by rfl)
    [Atom.ref 0 "A" [], Atom.ref 2 "B" []] (by simp)

/-- Atom object identity is load-bearing for enumeration: in
`A -> (B) | (C)` with local context `X` on the `C`-ref, `C -> (B)`, and
`B -> (1) | (2 requiring X)`, the `B`-ref inside rule `C` is a distinct
object from the `B`-ref inside rule `A`, so the walk restarts from it
under the context `{X}` and enumerates the k-path `B.2` — a path that
merging equivalent-looking refs would drop. -/
theorem generateKPathSet_identityT :
    ∃ paths, generateKPathSet
      ⟨[("A", [⟨[Atom.ref 3 "B" []], []⟩, ⟨[Atom.ref 4 "C" ["X"]], []⟩]),
        ("C", [⟨[Atom.ref 5 "B" []], []⟩]),
        ("B", [⟨[Atom.lit 6 (Value.int64 1)], []⟩,
               ⟨[Atom.lit 7 (Value.int64 2)], ["X"]⟩])],
       [("A", Atom.ref 0 "A" []), ("C", Atom.ref 1 "C" []),
        ("B", Atom.ref 2 "B" [])]⟩
      2 "A" [] 9 = .ok paths ∧
      [Atom.ref 5 "B" [], Atom.lit 7 (Value.int64 2)] ∈ paths := by
  refine ⟨_, rfl, ?_⟩
  simp

end KP

end Photesthesis
